import Mathlib

/-! mpjbt: a verification development

A shallow embedding of the load-generation harness `domodwyer/mpjbt`:

* `idgen`  : the ID generators (`Monotonic`, `Uniform`, `Zipfian`, `Persistent`);
* `dstats` : the splittable histogram and the duration observer;
* `plan`   : the worker-pool execution engine;
* `workload` : the insert-update workload and its two callbacks.

Go's `uint64` values are natural numbers reduced modulo `2 ^ 64`; shared
counters live in an explicit memory `Mem`; a Go runtime panic is an
`Except` error; a `float64` is the rational it is exactly, an infinity or
NaN, and its arithmetic rounds to the nearest `float64`.
-/

namespace Mpjbt

/-- Number of values of Go's `uint64` (and of `uint` on 64-bit targets). -/
def uint64Size : Nat := 2 ^ 64

/-- Go run-time panics that the embedded code can raise. -/
inductive RuntimeError where
  | integerDivideByZero
  deriving DecidableEq, Repr

/-- Outcome of a call: a value, or a run-time panic. -/
abbrev GoResult (α : Type) := Except RuntimeError α

/-- Address of a shared `uint64` cell. -/
abbrev Addr := Nat

/-- Shared memory holding the `uint64` cells that generators of one source
point to. -/
abbrev Mem := Addr → Nat

/-- Go's `atomic.LoadUint64`. -/
def atomicLoadUint64 (addr : Addr) (m : Mem) : Nat :=
  m addr % uint64Size

/-- Go's `atomic.AddUint64`: adds with wrap-around and returns the new value. -/
def atomicAddUint64 (addr : Addr) (delta : Nat) (m : Mem) : Nat × Mem :=
  let v := (atomicLoadUint64 addr m + delta) % uint64Size
  (v, Function.update m addr v)

/-- A source of pseudo random `uint64` draws (`math/rand`), as the stream of
its future outputs and a cursor. -/
structure Rand where
  draws : Nat → Nat
  next : Nat

/-- Go's `(*rand.Rand).Uint64` (and `(*rand.Zipf).Uint64`): the next draw. -/
def Rand.Uint64 (r : Rand) : Nat × Rand :=
  (r.draws r.next % uint64Size, { r with next := r.next + 1 })

namespace idgen

/-- The `Generator` interface, over the private state `S` of the
implementation; both methods may also touch the shared memory. -/
structure Generator (S : Type) where
  GetNew : S → Mem → GoResult (Nat × S × Mem)
  GetExisting : S → Mem → GoResult (Nat × S × Mem)

/-! ### monotonic.go -/

/-- A `Monotonic` holds a pointer to the shared counter. -/
structure Monotonic where
  count : Addr
  deriving DecidableEq, Repr

/-- `Monotonic.GetNew`: `atomic.AddUint64(m.count, 1)`. -/
def Monotonic.GetNew (g : Monotonic) (m : Mem) : Nat × Mem :=
  atomicAddUint64 g.count 1 m

/-- `Monotonic.GetExisting`: `atomic.LoadUint64(m.count)`. -/
def Monotonic.GetExisting (g : Monotonic) (m : Mem) : Nat :=
  atomicLoadUint64 g.count m

/-- A `MonotonicSource`, given by the location of its `Count` field. -/
structure MonotonicSource where
  Count : Addr
  deriving DecidableEq, Repr

/-- `MonotonicSource.New`: `&Monotonic{count: &m.Count}`. -/
def MonotonicSource.New (s : MonotonicSource) : Monotonic :=
  { count := s.Count }

/-- `Monotonic` as a `Generator`. -/
def Monotonic.generator : Generator Monotonic where
  GetNew := fun g m => .ok ((g.GetNew m).1, g, (g.GetNew m).2)
  GetExisting := fun g m => .ok (g.GetExisting m, g, m)

/-- A sequence of `GetNew` calls, one per listed generator, in list order;
returns the ids in call order and the final memory. -/
def Monotonic.getNewCalls : List Monotonic → Mem → List Nat × Mem
  | [], m => ([], m)
  | g :: gs, m =>
    let r := g.GetNew m
    let rest := Monotonic.getNewCalls gs r.2
    (r.1 :: rest.1, rest.2)

/-! ### uniform.go -/

/-- A `Uniform` holds a pointer to the shared maximum and a private random
stream. -/
structure Uniform where
  max : Addr
  rnd : Rand

/-- `Uniform.GetNew`: `atomic.AddUint64(u.max, 1)`. -/
def Uniform.GetNew (u : Uniform) (m : Mem) : Nat × Mem :=
  atomicAddUint64 u.max 1 m

/-- `Uniform.GetExisting`: `u.rnd.Uint64() % atomic.LoadUint64(u.max) + 1`.
The operands are evaluated left to right; `%` by zero panics. -/
def Uniform.GetExisting (u : Uniform) (m : Mem) : GoResult (Nat × Uniform × Mem) :=
  let r := u.rnd.Uint64
  let max := atomicLoadUint64 u.max m
  if max = 0 then
    .error .integerDivideByZero
  else
    .ok ((r.1 % max + 1) % uint64Size, { u with rnd := r.2 }, m)

/-- A `UniformSource`, given by the location of its `Max` field. -/
structure UniformSource where
  Max : Addr
  deriving DecidableEq, Repr

/-- `UniformSource.New`; the freshly seeded random stream is an argument. -/
def UniformSource.New (s : UniformSource) (rnd : Rand) : Uniform :=
  { max := s.Max, rnd := rnd }

/-- `Uniform` as a `Generator`. -/
def Uniform.generator : Generator Uniform where
  GetNew := fun u m => .ok ((u.GetNew m).1, u, (u.GetNew m).2)
  GetExisting := fun u m => u.GetExisting m

/-! ### zipfian.go -/

/-- A `Zipfian` holds a pointer to the shared maximum and a private Zipf
stream (`rand.Zipf`), whose draws are taken as given. -/
structure Zipfian where
  max : Addr
  rnd : Rand

/-- `Zipfian.GetNew`: `atomic.AddUint64(z.max, 1)`. -/
def Zipfian.GetNew (z : Zipfian) (m : Mem) : Nat × Mem :=
  atomicAddUint64 z.max 1 m

/-- `Zipfian.GetExisting`: `max - n` when the draw `n` is below `max`, else
`max`. -/
def Zipfian.GetExisting (z : Zipfian) (m : Mem) : GoResult (Nat × Zipfian × Mem) :=
  let max := atomicLoadUint64 z.max m
  let n := z.rnd.Uint64
  if n.1 < max then
    .ok (max - n.1, { z with rnd := n.2 }, m)
  else
    .ok (max, { z with rnd := n.2 }, m)

/-- A `ZipfianSource`, given by the location of its `Max` field. -/
structure ZipfianSource where
  Max : Addr
  deriving DecidableEq, Repr

/-- `ZipfianSource.New`; the freshly seeded Zipf stream is an argument. -/
def ZipfianSource.New (s : ZipfianSource) (rnd : Rand) : Zipfian :=
  { max := s.Max, rnd := rnd }

/-- `Zipfian` as a `Generator`. -/
def Zipfian.generator : Generator Zipfian where
  GetNew := fun z m => .ok ((z.GetNew m).1, z, (z.GetNew m).2)
  GetExisting := fun z m => z.GetExisting m

/-! ### persistent.go -/

/-- A `Persistent` wraps a generator (`source`, here its private state; the
methods are those of a `Generator S`), with the hold length `keepFor`, the
hold counter `usedCount` and the cached id `last`. -/
structure Persistent (S : Type) where
  keepFor : Nat
  source : S
  usedCount : Nat
  last : Nat

/-- `Persistent.GetNew`. -/
def Persistent.GetNew {S : Type} (g : Generator S) (p : Persistent S) (m : Mem) :
    GoResult (Nat × Persistent S × Mem) :=
  match g.GetNew p.source m with
  | .error e => .error e
  | .ok (id, s, m1) => .ok (id, { p with source := s, last := id, usedCount := 0 }, m1)

/-- `Persistent.GetExisting`. -/
def Persistent.GetExisting {S : Type} (g : Generator S) (p : Persistent S) (m : Mem) :
    GoResult (Nat × Persistent S × Mem) :=
  if p.usedCount = p.keepFor then
    match g.GetExisting p.source m with
    | .error e => .error e
    | .ok (id, s, m1) => .ok (id, { p with usedCount := 0, source := s, last := id }, m1)
  else
    .ok (p.last, { p with usedCount := (p.usedCount + 1) % uint64Size }, m)

/-- A `PersistentSource`: the hold length and the wrapped source. -/
structure PersistentSource (Src : Type) where
  KeepFor : Nat
  Source : Src

/-- `PersistentSource.New`, for a wrapped source whose `New` yields `gen`:
the cached id starts as `gen.GetExisting()`. -/
def PersistentSource.New {Src S : Type} (g : Generator S) (p : PersistentSource Src)
    (gen : S) (m : Mem) : GoResult (Persistent S × Mem) :=
  match g.GetExisting gen m with
  | .error e => .error e
  | .ok (id, s, m1) => .ok ({ keepFor := p.KeepFor, source := s, usedCount := 0, last := id }, m1)

/-- `Persistent` as a `Generator`. -/
def Persistent.generator {S : Type} (g : Generator S) : Generator (Persistent S) where
  GetNew := Persistent.GetNew g
  GetExisting := Persistent.GetExisting g

/-- The given number of consecutive `GetExisting` calls on a `Persistent`;
returns the ids in call order, or the first panic. -/
def Persistent.getExistingCalls {S : Type} (g : Generator S) :
    Nat → Persistent S → Mem → GoResult (List Nat × Persistent S × Mem)
  | 0, p, m => .ok ([], p, m)
  | n + 1, p, m =>
    match Persistent.GetExisting g p m with
    | .error e => .error e
    | .ok (id, p1, m1) =>
      match Persistent.getExistingCalls g n p1 m1 with
      | .error e => .error e
      | .ok (ids, p2, m2) => .ok (id :: ids, p2, m2)

/-- The given number of consecutive `GetExisting` calls on a generator;
returns the ids in call order, or the first panic. -/
def Generator.getExistingCalls {S : Type} (g : Generator S) :
    Nat → S → Mem → GoResult (List Nat × S × Mem)
  | 0, s, m => .ok ([], s, m)
  | n + 1, s, m =>
    match g.GetExisting s m with
    | .error e => .error e
    | .ok (id, s1, m1) =>
      match Generator.getExistingCalls g n s1 m1 with
      | .error e => .error e
      | .ok (ids, s2, m2) => .ok (id :: ids, s2, m2)

/-- `GetExisting` calls on a `Persistent`, one per entry of the list, each
made after the `GetNew` calls of the other generators listed in that entry;
returns the ids in call order, or the first panic. -/
def Persistent.getExistingAmid {S : Type} (g : Generator S) :
    List (List Monotonic) → Persistent S → Mem → GoResult (List Nat × Persistent S × Mem)
  | [], p, m => .ok ([], p, m)
  | others :: rest, p, m =>
    match Persistent.GetExisting g p (Monotonic.getNewCalls others m).2 with
    | .error e => .error e
    | .ok (id, p1, m1) =>
      match Persistent.getExistingAmid g rest p1 m1 with
      | .error e => .error e
      | .ok (ids, p2, m2) => .ok (id :: ids, p2, m2)

/-! ### persistent_test.go -/

/-- The `mockGenerator` of the tests: both methods increment the private
`id` and return it. -/
def mockGenerator : Generator Nat where
  GetNew := fun id m => .ok ((id + 1) % uint64Size, (id + 1) % uint64Size, m)
  GetExisting := fun id m => .ok ((id + 1) % uint64Size, (id + 1) % uint64Size, m)

end idgen

/-! ## The vendored `google.golang.org/grpc/benchmark/stats` histogram -/

namespace stats

/-- Modelled from the spec: `stats.HistogramOptions`, whose declaration is
not part of the sources; the three fields are those set by `Plan.Add`
(bucket count, growth factor, base bucket size). Go's `float64` is a
rational here. -/
structure HistogramOptions where
  NumBuckets : Nat
  GrowthFactor : ℚ
  BaseBucketSize : ℚ
  deriving DecidableEq

/-- Modelled from the spec: `stats.HistogramBucket`, with the two fields
read by `WriteCSV`. -/
structure HistogramBucket where
  LowBound : ℚ
  Count : Nat

/-- Modelled from the spec: `stats.Histogram`, with the fields read by
`WriteCSV` and the options it was built from. -/
structure Histogram where
  Count : Nat
  Buckets : List HistogramBucket
  opts : HistogramOptions

/-- Modelled from the spec: the fixed bucket layout chosen at construction.
The first bucket starts at zero, the second at the base bucket size, and each
later bucket starts one growth step above its predecessor. -/
def lowBound (opts : HistogramOptions) (i : Nat) : ℚ :=
  if i = 0 then 0 else opts.BaseBucketSize * (1 + opts.GrowthFactor) ^ (i - 1)

/-- Modelled from the spec: `stats.NewHistogram`, an empty accumulator with
the layout of `opts`. -/
def NewHistogram (opts : HistogramOptions) : Histogram :=
  { Count := 0
    Buckets := (List.range opts.NumBuckets).map
      (fun i => { LowBound := lowBound opts i, Count := 0 })
    opts := opts }

/-- Modelled from the spec: `Histogram.Opts`. -/
def Histogram.Opts (h : Histogram) : HistogramOptions := h.opts

/-- Modelled from the spec: the index of the bucket a value falls in, the
last bucket being unbounded above ("infinity"). -/
def Histogram.findBucket (h : Histogram) (value : Int) : Nat :=
  (h.Buckets.tail.takeWhile (fun b => decide (b.LowBound ≤ (value : ℚ)))).length

/-- Increment of the count of the bucket at an index. -/
def incrBucket : Nat → List HistogramBucket → List HistogramBucket
  | _, [] => []
  | 0, b :: bs => { b with Count := b.Count + 1 } :: bs
  | i + 1, b :: bs => b :: incrBucket i bs

/-- Modelled from the spec: `Histogram.Add`, an append-only increment of one
bucket and of the total. -/
def Histogram.Add (h : Histogram) (value : Int) : Histogram :=
  { h with
    Count := h.Count + 1
    Buckets := incrBucket (h.findBucket value) h.Buckets }

/-- Per-bucket sum of the counts of two bucket lists. -/
def mergeBuckets : List HistogramBucket → List HistogramBucket → List HistogramBucket
  | [], _ => []
  | bs, [] => bs
  | b :: bs, c :: cs => { b with Count := b.Count + c.Count } :: mergeBuckets bs cs

/-- Modelled from the spec: `Histogram.Merge`, the per-bucket sum of the
counts (and the sum of the totals). -/
def Histogram.Merge (h h2 : Histogram) : Histogram :=
  { h with
    Count := h.Count + h2.Count
    Buckets := mergeBuckets h.Buckets h2.Buckets }

/-- A histogram fed a list of values, in order. -/
def Histogram.addAll (h : Histogram) (values : List Int) : Histogram :=
  values.foldl Histogram.Add h

/-- The per-bucket counts, in ascending bucket order. -/
def Histogram.counts (h : Histogram) : List Nat :=
  h.Buckets.map (fun b => b.Count)

end stats

/-! ## The vendored `github.com/domodwyer/dstats` -/

namespace dstats

/-- An unbuffered channel of `*stats.Histogram`: its identity, the values
offered by senders and not yet received (in arrival order), and whether it
has been closed. -/
structure Chan where
  id : Nat
  queue : List stats.Histogram
  closed : Bool

/-- The splittable `Histogram`: the embedded `stats.Histogram` (`hist`), the number
of children handed out, the rendezvous channel, the `sync.Once` of `Merge`
and the `closed` flag. -/
structure Histogram where
  hist : stats.Histogram
  count : Nat
  children : Chan
  once : Bool
  closed : Bool

/-- A `HistogramChild`: the embedded `stats.Histogram` (`hist`), the `sync.Once` of
`Done` and the parent's channel (its identity). -/
structure HistogramChild where
  hist : stats.Histogram
  once : Bool
  parent : Nat

/-- `NewHistogram`; the identity of the channel it makes is an argument. -/
def NewHistogram (opts : stats.HistogramOptions) (chan : Nat) : Histogram :=
  { hist := stats.NewHistogram opts
    count := 0
    children := { id := chan, queue := [], closed := false }
    once := false
    closed := false }

/-- `Histogram.Split`: `nil` once closed, else one more expected child and a
fresh child with the parent's options. -/
def Histogram.Split (h : Histogram) : Option HistogramChild × Histogram :=
  if h.closed then
    (none, h)
  else
    (some { hist := stats.NewHistogram h.hist.Opts
            once := false
            parent := h.children.id },
     { h with count := (h.count + 1) % uint64Size })

/-- `HistogramChild.Done`, given the channel `h.parent` refers to: the first
call offers the child's histogram on it, later calls do nothing. -/
def HistogramChild.Done (h : HistogramChild) (parent : Chan) : HistogramChild × Chan :=
  if h.once then
    (h, parent)
  else
    ({ h with once := true }, { parent with queue := parent.queue ++ [h.hist] })

/-- `Histogram.Merge`: the first call receives `count` children from the
channel, merging each into the embedded histogram, then closes the channel
and sets `closed`; later calls do nothing. `none` stands for a call that
blocks forever, fewer than `count` children ever being offered. -/
def Histogram.Merge (h : Histogram) : Option Histogram :=
  if h.once then
    some h
  else if h.children.queue.length < h.count then
    none
  else
    some { h with
      hist := (h.children.queue.take h.count).foldl stats.Histogram.Merge h.hist
      children := { h.children with queue := h.children.queue.drop h.count, closed := true }
      once := true
      closed := true }

/-- Children obtained by consecutive `Split` calls, one per listed value
list, each child then fed its values. Returns the children in split order
and the parent. -/
def Histogram.splitFeed : List (List Int) → Histogram → List HistogramChild × Histogram
  | [], h => ([], h)
  | vs :: rest, h =>
    match h.Split with
    | (none, h1) => Histogram.splitFeed rest h1
    | (some c, h1) =>
      let r := Histogram.splitFeed rest h1
      ({ c with hist := c.hist.addAll vs } :: r.1, r.2)

/-- The listed children calling `Done` in list order on the parent `h`. -/
def Histogram.doneAll (cs : List HistogramChild) (h : Histogram) : Histogram :=
  cs.foldl (fun h c => { h with children := (c.Done h.children).2 }) h

/-- Go's `time.Millisecond`, in nanoseconds. -/
def Millisecond : Int := 1000000

/-- Conversion of a Go `int64` to `uint64`. -/
def toUint64 (i : Int) : Nat := (i % (uint64Size : Int)).toNat

/-- The `DurationObserver`: operation count and cumulative time in
milliseconds. -/
structure DurationObserver where
  count : Nat
  cumulativeTime : Nat
  deriving DecidableEq, Repr

/-- `DurationObserver.Observe`, for a duration `d` in nanoseconds. -/
def DurationObserver.Observe (o : DurationObserver) (d : Int) (delta : Nat) :
    DurationObserver :=
  { cumulativeTime := (o.cumulativeTime + toUint64 (d.tdiv Millisecond)) % uint64Size
    count := (o.count + delta) % uint64Size }

/-- `DurationObserver.Reset`: returns `(count, latency)` and the zeroed
observer. -/
def DurationObserver.Reset (o : DurationObserver) : (Nat × Nat) × DurationObserver :=
  let count := o.count
  let time := o.cumulativeTime
  (if count = 0 then (0, 0) else (count, time / count),
   { count := 0, cumulativeTime := 0 })

/-- A sequence of `Observe(d, delta)` calls, in list order. -/
def DurationObserver.observeAll (o : DurationObserver) (obs : List (Int × Nat)) :
    DurationObserver :=
  obs.foldl (fun o x => o.Observe x.1 x.2) o

/-- A call on a parent `Histogram` or on one of its children: `Split`,
`Done` of a child, `Merge`, or `Add` of a value to the embedded
histogram. -/
inductive Op where
  | split
  | done (c : HistogramChild)
  | merge
  | add (value : Int)

/-- A parent `Histogram` with the record of its history: whether a `Merge`
has completed on it, and how many children `Split` has returned. -/
structure Trace where
  h : Histogram
  merged : Bool
  splits : Nat

/-- One call in the life of a parent. A `merge` stands for a whole call of
`Merge`, placed where it returns; a call that cannot return yet (children
are missing) leaves the state as it is. -/
def Trace.step (t : Trace) : Op → Trace
  | .split =>
    match t.h.Split with
    | (some _, h1) => { h := h1, merged := t.merged, splits := t.splits + 1 }
    | (none, h1) => { t with h := h1 }
  | .done c => { t with h := { t.h with children := (c.Done t.h.children).2 } }
  | .merge =>
    match t.h.Merge with
    | some h1 => { t with h := h1, merged := true }
    | none => t
  | .add value => { t with h := { t.h with hist := t.h.hist.Add value } }

/-- The life of a parent made by `NewHistogram`, under a list of calls. -/
def Trace.run (opts : stats.HistogramOptions) (chan : Nat) (ops : List Op) : Trace :=
  ops.foldl Trace.step { h := NewHistogram opts chan, merged := false, splits := 0 }

/-- What holds throughout the life of a parent made by `NewHistogram opts
chan`: it is closed, and its `once` has fired, exactly if a `Merge` has
completed; its options and channel are those it was made with; its count of
expected children is the number of children `Split` has returned. -/
structure Trace.Inv (opts : stats.HistogramOptions) (chan : Nat) (t : Trace) : Prop where
  closed_eq : t.h.closed = t.merged
  once_eq : t.h.once = t.merged
  opts_eq : t.h.hist.opts = opts
  chan_eq : t.h.children.id = chan
  count_eq : t.h.count = t.splits % uint64Size

/-! ### `WriteCSV` -/

/-- A `float64` as `WriteCSV` computes with it: a finite value (given by the
rational it is exactly), an infinity, or NaN. Every operation rounds its
exact result to the nearest `float64`. Zero carries no sign: `WriteCSV`
computes with non-negative values only. -/
inductive Float64 where
  | finite (q : ℚ)
  | inf (negative : Bool)
  | nan

/-- The number of binary digits of `n`, for a `fuel` of at least `n`. -/
def bitLength : Nat → Nat → Nat
  | 0, _ => 0
  | fuel + 1, n => if n = 0 then 0 else bitLength fuel (n / 2) + 1

/-- The natural number nearest to `n / d`, a tie going to the even one. -/
def roundHalfEven (n d : Nat) : Nat :=
  let f := n / d
  let r := n % d
  if 2 * r < d then f else if d < 2 * r then f + 1 else if f % 2 = 0 then f else f + 1

/-- The `float64` nearest to the positive rational `n / d`, a tie going to
the even significand (the rounding of IEEE 754 arithmetic): with `e` the
binary exponent of `n / d`, raised to `-1022` in the subnormal range, the
result is a multiple of `2 ^ (e - 52)`; a result of `2 ^ 1024` or more is
the infinity. -/
def Float64.roundPos (n d : Nat) : Float64 :=
  let e0 : Int := (bitLength n n : Int) - (bitLength d d : Int)
  let e : Int := if d * 2 ^ e0.toNat ≤ n * 2 ^ (-e0).toNat then e0 else e0 - 1
  let s : Int := max e (-1022) - 52
  let m := roundHalfEven (n * 2 ^ (-s).toNat) (d * 2 ^ s.toNat)
  if 2 ^ 1024 * 2 ^ (-s).toNat ≤ m * 2 ^ s.toNat then
    .inf false
  else
    .finite (((m * 2 ^ s.toNat : Nat) : ℚ) / ((2 ^ (-s).toNat : Nat) : ℚ))

/-- The opposite of a `float64`. -/
def Float64.neg : Float64 → Float64
  | .finite q => .finite (-q)
  | .inf s => .inf (!s)
  | .nan => .nan

/-- The `float64` nearest to a rational. -/
def Float64.round (q : ℚ) : Float64 :=
  if q = 0 then .finite 0
  else if 0 < q then Float64.roundPos q.num.natAbs q.den
  else (Float64.roundPos q.num.natAbs q.den).neg

/-- The conversion `float64(i)` of an `int64`. -/
def Float64.ofInt (i : Int) : Float64 := Float64.round i

/-- Division of two `float64` values; a division by zero does not panic. -/
def Float64.div : Float64 → Float64 → Float64
  | .finite a, .finite b =>
    if b = 0 then (if a = 0 then .nan else .inf (decide (a < 0))) else Float64.round (a / b)
  | .finite _, .inf _ => .finite 0
  | .inf s, .finite b => .inf (xor s (decide (b < 0)))
  | .inf _, .inf _ => .nan
  | .nan, _ => .nan
  | _, .nan => .nan

/-- Product of two `float64` values. -/
def Float64.mul : Float64 → Float64 → Float64
  | .finite a, .finite b => Float64.round (a * b)
  | .finite a, .inf s => if a = 0 then .nan else .inf (xor s (decide (a < 0)))
  | .inf s, .finite b => if b = 0 then .nan else .inf (xor s (decide (b < 0)))
  | .inf s, .inf t => .inf (xor s t)
  | .nan, _ => .nan
  | _, .nan => .nan

/-- The absolute value of a rational in tenths, rounded to the nearest
integer, a tie going to the even one. -/
def roundTenths (q : ℚ) : Nat :=
  roundHalfEven (10 * q.num.natAbs) q.den

/-- The call `strconv.FormatFloat(x, 'f', 1, 64)`: the exact value of the
`float64` in fixed notation, rounded to one digit after the point. -/
def FormatFloat : Float64 → String
  | .finite q =>
    (if q < 0 then "-" else "") ++ toString (roundTenths q / 10) ++ "." ++
      toString (roundTenths q % 10)
  | .inf false => "+Inf"
  | .inf true => "-Inf"
  | .nan => "NaN"

/-- The call `strconv.FormatInt(i, 10)`. -/
def FormatInt (i : Int) : String := toString i

/-- The value an `int64` computation keeps of its exact result. -/
def wrapInt64 (i : Int) : Int := (i + 2 ^ 63) % 2 ^ 64 - 2 ^ 63

/-- The header record of `WriteCSV`. -/
def csvHeader : List String :=
  ["LowerBound", "UpperBound", "Count", "Percent", "AccumulativePercent"]

/-- The call `enc.Write(record)` of `encoding/csv` on a writer that accepts
everything, for fields that need no quoting (the fields written by
`WriteCSV` hold digits, a point, a sign and letters only): the fields
separated by commas, and a line feed. -/
def csvWrite (record : List String) : String :=
  String.intercalate "," record ++ "\n"

/-- The `float64` that a bucket keeps as its lower bound: the model keeps a
rational for it, which is taken to the nearest `float64`. -/
def lowBoundOf (b : stats.HistogramBucket) : Float64 := Float64.round b.LowBound

/-- The loop of `WriteCSV` over the buckets still to write, with the value
of `accCount` on entry; returns the records written, in order. -/
def writeRows (percentMulti : Float64) : List stats.HistogramBucket → Int → List (List String)
  | [], _ => []
  | b :: rest, accCount =>
    let row0 := FormatFloat (lowBoundOf b)
    let row1 :=
      match rest with
      | next :: _ => FormatFloat (lowBoundOf next)
      | [] => "inf"
    let accCount1 := wrapInt64 (accCount + b.Count)
    let row2 := FormatInt b.Count
    let row3 := FormatFloat ((Float64.ofInt b.Count).mul percentMulti)
    let row4 := FormatFloat ((Float64.ofInt accCount1).mul percentMulti)
    [row0, row1, row2, row3, row4] :: writeRows percentMulti rest accCount1

/-- `Histogram.WriteCSV`: the text written to a writer that accepts
everything (the returned error is then `nil`). -/
def Histogram.WriteCSV (h : Histogram) : String :=
  let percentMulti := (Float64.finite 100).div (Float64.ofInt h.hist.Count)
  String.join ((csvHeader :: writeRows percentMulti h.hist.Buckets 0).map csvWrite)

/-- The lower bound of bucket `i` (zero past the last bucket). -/
def lowAt (h : stats.Histogram) (i : Nat) : Float64 :=
  ((h.Buckets[i]?).map lowBoundOf).getD (.finite 0)

/-- The count of bucket `i` (zero past the last bucket). -/
def countAt (h : stats.Histogram) (i : Nat) : Nat :=
  ((h.Buckets[i]?).map (fun b => b.Count)).getD 0

/-- The running sum of the counts of the buckets up to and including
bucket `i`. -/
def runningSum (h : stats.Histogram) (i : Nat) : Nat :=
  ((h.Buckets.take (i + 1)).map (fun b => b.Count)).sum

/-- The percent of `total` that `count` is, as `float64` arithmetic gives
it: the count times the quotient of 100 by the total, each operation
rounded. -/
def percent (count total : Nat) : Float64 :=
  (Float64.ofInt count).mul ((Float64.finite 100).div (Float64.ofInt total))

/-- The row that the report format describes for bucket `i`: lower bound,
upper bound (the next bucket's lower bound, `inf` for the last bucket),
count, percent of the total, cumulative percent of the total. -/
def specRow (h : stats.Histogram) (i : Nat) : List String :=
  [ FormatFloat (lowAt h i),
    if i + 1 < h.Buckets.length then FormatFloat (lowAt h (i + 1)) else "inf",
    toString (countAt h i),
    FormatFloat (percent (countAt h i) h.Count),
    FormatFloat (percent (runningSum h i) h.Count) ]

end dstats

/-! ## plan -/

namespace plan

/-- What one invocation of a `DoFunc` yields to the worker: the returned
flag and the wall-clock time `time.Since(start)` measured around the call,
in nanoseconds. -/
structure Outcome where
  measure : Bool
  delta : Int
  deriving DecidableEq, Repr

/-- A `DoFunc`. Everything a callback can touch (the backend, and each
worker's private record, generator and random stream) is the world `W`; the
first argument is the index of the calling worker. -/
abbrev DoFunc (W : Type) := Nat → W → Outcome × W

/-- An `operation`; `counter` and `histogram` are pointers into the plan's
heap of `DurationObserver`s and `Histogram`s. -/
structure operation (W : Type) where
  counter : Nat
  histogram : Nat
  name : String
  doFunc : DoFunc W

/-- A `Plan`. The flag `closed` also stands for the `stop` channel being
closed and for the `once` of `Stop` having fired, which change together.
The last two fields are the heap the operations point into. The generator
source `id` only reaches the callbacks, through the world. -/
structure Plan (W : Type) where
  ops : List (operation W)
  paddingSize : Nat
  opsMax : Nat
  opsCount : Nat
  closed : Bool
  counters : Nat → dstats.DurationObserver
  histograms : Nat → dstats.Histogram

/-- A `Result`: the operation name and the pointer to its histogram. -/
structure Result where
  Name : String
  Histogram : Nat
  deriving DecidableEq, Repr

/-- The histogram options used by `Plan.Add`. -/
def addOptions : stats.HistogramOptions :=
  { NumBuckets := 100, GrowthFactor := 1 / 10, BaseBucketSize := 1 }

/-- `New`: an empty plan with the given ceiling and padding size. No
address of the heap is in use yet; unused cells hold an arbitrary value. -/
def New (W : Type) (opsMax paddingSize : Nat) : Plan W :=
  { ops := []
    paddingSize := paddingSize
    opsMax := opsMax
    opsCount := 0
    closed := false
    counters := fun _ => { count := 0, cumulativeTime := 0 }
    histograms := fun _ =>
      dstats.NewHistogram { NumBuckets := 0, GrowthFactor := 0, BaseBucketSize := 0 } 0 }

/-- `Plan.Stop`. -/
def Plan.Stop {W : Type} (p : Plan W) : Plan W :=
  { p with closed := true }

/-- `Plan.Add`: allocates a new `DurationObserver` and a new `Histogram`
(at the first unused address, the length of the list) and appends the
operation pointing to them. -/
def Plan.Add {W : Type} (p : Plan W) (name : String) (f : DoFunc W) : Plan W :=
  let ptr := p.ops.length
  { p with
    ops := p.ops ++ [{ name := name, doFunc := f, counter := ptr, histogram := ptr }]
    counters := Function.update p.counters ptr { count := 0, cumulativeTime := 0 }
    histograms := Function.update p.histograms ptr (dstats.NewHistogram addOptions ptr) }

/-- A plan built by `New` followed by one `Add` per listed pair, in order. -/
def Plan.ofList {W : Type} (opsMax paddingSize : Nat) (defs : List (String × DoFunc W)) :
    Plan W :=
  defs.foldl (fun p d => p.Add d.1 d.2) (New W opsMax paddingSize)

/-- Removal of the leading tab characters (`strings.TrimLeft(line, "\t")`). -/
def trimLeftTabs (line : String) : String :=
  String.mk (line.toList.dropWhile (fun c => c = '\t'))

/-- The loop of `buildLine`: the line so far, the last name seen and the
heap of counters. -/
def buildLineLoop {W : Type} :
    List (operation W) → String → String → (Nat → dstats.DurationObserver) →
      String × (Nat → dstats.DurationObserver)
  | [], line, _, cs => (line, cs)
  | op :: ops, line, lastName, cs =>
    if lastName = op.name then
      buildLineLoop ops line lastName cs
    else
      let r := (cs op.counter).Reset
      buildLineLoop ops
        (line ++ "\t" ++ op.name ++ " " ++ toString r.1.1 ++ "op/s avg." ++
          toString r.1.2 ++ "ms")
        op.name (Function.update cs op.counter r.2)

/-- `Plan.buildLine`: the status line, and the plan with the counters
reset. -/
def Plan.buildLine {W : Type} (p : Plan W) : String × Plan W :=
  let r := buildLineLoop p.ops "" "" p.counters
  (trimLeftTabs r.1, { p with counters := r.2 })

/-- Where a worker stands in `Plan.worker`: before building its child
histograms, at the stop check that opens a pass, about to invoke operation
`i`, about to count the recorded success of operation `i`, at the stop check
that follows operation `i`, or returned. -/
inductive PC where
  | start
  | top
  | call (i : Nat)
  | count (i : Nat)
  | check (i : Nat)
  | done
  deriving DecidableEq, Repr

/-- The local state of one worker: its two maps keyed by operation name and
its position. A key whose `Split` returned `nil` is kept like a missing
key. -/
structure Worker where
  counters : String → Option Nat
  histograms : String → Option dstats.HistogramChild
  pc : PC

/-- A record of one callback invocation: who called which list entry, and
what it returned. Kept only to state properties of a run. -/
structure Call where
  worker : Nat
  op : Nat
  measure : Bool
  deriving DecidableEq, Repr

/-- The state of a `Run` in progress. -/
structure RunState (W : Type) where
  plan : Plan W
  world : W
  numWorkers : Nat
  workers : Nat → Worker
  calls : List Call

/-- One turn of the loop that builds a worker's maps: the first entry of a
name stores its counter and a child split from its histogram. -/
def Worker.split {W : Type} (acc : Worker × (Nat → dstats.Histogram)) (op : operation W) :
    Worker × (Nat → dstats.Histogram) :=
  if (acc.1.histograms op.name).isSome then
    acc
  else
    let r := (acc.2 op.histogram).Split
    ({ acc.1 with
       counters := Function.update acc.1.counters op.name (some op.counter)
       histograms := Function.update acc.1.histograms op.name r.1 },
     Function.update acc.2 op.histogram r.2)

/-- The position after operation `i` of a list of `n`: the next operation,
or the top of the loop after the last one. -/
def nextPC (n i : Nat) : PC :=
  if i + 1 < n then .call (i + 1) else .top

/-- The state with worker `w` moved to `pc`. -/
def RunState.setPC {W : Type} (s : RunState W) (w : Nat) (pc : PC) : RunState W :=
  { s with workers := Function.update s.workers w { s.workers w with pc := pc } }

/-- One atomic step of worker `w` in `Plan.worker`. -/
def Worker.step {W : Type} (w : Nat) (s : RunState W) : RunState W :=
  let wk := s.workers w
  match wk.pc with
  | .start =>
    let r := s.plan.ops.foldl Worker.split (wk, s.plan.histograms)
    { s with
      plan := { s.plan with histograms := r.2 }
      workers := Function.update s.workers w { r.1 with pc := .top } }
  | .top =>
    if s.plan.closed then
      s.setPC w .done
    else
      s.setPC w (if 0 < s.plan.ops.length then .call 0 else .top)
  | .call i =>
    match s.plan.ops[i]? with
    | none => s
    | some op =>
      let r := op.doFunc w s.world
      let calls := s.calls ++ [{ worker := w, op := i, measure := r.1.measure }]
      if r.1.measure = false then
        { s with
          world := r.2
          calls := calls
          workers := Function.update s.workers w
            { wk with pc := nextPC s.plan.ops.length i } }
      else
        let histograms :=
          match wk.histograms op.name with
          | none => wk.histograms
          | some c =>
            Function.update wk.histograms op.name
              (some { c with hist := c.hist.Add (r.1.delta.tdiv dstats.Millisecond) })
        let counters :=
          match wk.counters op.name with
          | none => s.plan.counters
          | some a => Function.update s.plan.counters a ((s.plan.counters a).Observe r.1.delta 1)
        { s with
          plan := { s.plan with counters := counters }
          world := r.2
          calls := calls
          workers := Function.update s.workers w
            { wk with histograms := histograms, pc := .count i } }
  | .count i =>
    if s.plan.opsMax = 0 then
      s.setPC w (.check i)
    else
      let c := (s.plan.opsCount + 1) % uint64Size
      if c > s.plan.opsMax then
        { s with
          plan := ({ s.plan with opsCount := c }).Stop
          workers := Function.update s.workers w { wk with pc := .done } }
      else
        { s with
          plan := { s.plan with opsCount := c }
          workers := Function.update s.workers w { wk with pc := .check i } }
  | .check i =>
    if s.plan.closed then
      s.setPC w .done
    else
      s.setPC w (nextPC s.plan.ops.length i)
  | .done => s

/-- What the scheduler lets happen next: a step of one worker, a call of
`Plan.Stop` from outside the workers, or a tick of the status reporter. -/
inductive Event where
  | work (w : Nat)
  | stop
  | tick
  deriving DecidableEq, Repr

/-- One event of a run. -/
def step {W : Type} (s : RunState W) : Event → RunState W
  | .work w => if w < s.numWorkers then Worker.step w s else s
  | .stop => { s with plan := s.plan.Stop }
  | .tick => if s.plan.closed then s else { s with plan := s.plan.buildLine.2 }

/-- A run under a schedule. -/
def exec {W : Type} (sched : List Event) (s : RunState W) : RunState W :=
  sched.foldl step s

/-- The state in which `Run` has just started its workers. -/
def RunState.init {W : Type} (p : Plan W) (workers : Nat) (world : W) : RunState W :=
  { plan := p
    world := world
    numWorkers := workers
    workers := fun _ => { counters := fun _ => none, histograms := fun _ => none, pc := .start }
    calls := [] }

/-- Whether every worker has returned (`wg.Wait()` is over). -/
def RunState.allDone {W : Type} (s : RunState W) : Bool :=
  (List.range s.numWorkers).all (fun w => decide ((s.workers w).pc = .done))

/-- The call `histograms[name].Done()` made for worker `w` once it has
returned. -/
def doneFor (name : String) (acc : (Nat → Worker) × (Nat → dstats.Histogram)) (w : Nat) :
    (Nat → Worker) × (Nat → dstats.Histogram) :=
  match (acc.1 w).histograms name with
  | none => acc
  | some c =>
    let r := c.Done (acc.2 c.parent).children
    (Function.update acc.1 w
      { acc.1 w with histograms := Function.update (acc.1 w).histograms name (some r.1) },
     Function.update acc.2 c.parent { acc.2 c.parent with children := r.2 })

/-- The loop of `Run` that merges the histogram of each list entry, from
entry `i` on. Before the merge of an entry, the workers reach their `Done`
for that entry's name in the order `arrival i`. `none`: a `Merge` blocks. -/
def mergeAll {W : Type} (arrival : Nat → List Nat) :
    List (operation W) → Nat → (Nat → Worker) → (Nat → dstats.Histogram) →
      Option ((Nat → Worker) × (Nat → dstats.Histogram))
  | [], _, ws, hs => some (ws, hs)
  | op :: ops, i, ws, hs =>
    let r := (arrival i).foldl (doneFor op.name) (ws, hs)
    match (r.2 op.histogram).Merge with
    | none => none
    | some h => mergeAll arrival ops (i + 1) r.1 (Function.update r.2 op.histogram h)

/-- What a returned `Run` leaves: the results, the plan, the world and the
record of the callback invocations made. -/
structure RunResult (W : Type) where
  results : List Result
  plan : Plan W
  world : W
  calls : List Call

/-- `Plan.Run` with `workers` workers, under a schedule of the concurrent
events and the arrival orders of the `Done` calls. `none`: under this
schedule `Run` does not return (workers still running, or a blocked
`Merge`). -/
def Plan.Run {W : Type} (p : Plan W) (workers : Nat) (world : W) (sched : List Event)
    (arrival : Nat → List Nat) : Option (RunResult W) :=
  if p.closed then
    some { results := [], plan := p.Stop, world := world, calls := [] }
  else
    let s := exec sched (RunState.init p workers world)
    if s.allDone then
      match mergeAll arrival s.plan.ops 0 s.workers s.plan.histograms with
      | none => none
      | some r =>
        some { results := s.plan.ops.map (fun op => { Name := op.name, Histogram := op.histogram })
               plan := ({ s.plan with histograms := r.2 }).Stop
               world := s.world
               calls := s.calls }
    else
      none

/-! ### Vocabulary for statements about runs -/

/-- The name of list entry `i`, if there is one. -/
def nameAt {W : Type} (ops : List (operation W)) (i : Nat) : Option String :=
  (ops[i]?).map (fun op => op.name)

/-- The number of recorded callback invocations that returned true, on list
entries called `name`, by all workers. -/
def successes {W : Type} (ops : List (operation W)) (name : String) (calls : List Call) :
    Nat :=
  calls.countP (fun c => c.measure && decide (nameAt ops c.op = some name))

/-- The number of recorded callback invocations that returned true, on list
entries called `name`, by worker `w`. -/
def successesOf {W : Type} (ops : List (operation W)) (w : Nat) (name : String)
    (calls : List Call) : Nat :=
  calls.countP (fun c => decide (c.worker = w) && (c.measure && decide (nameAt ops c.op = some name)))

/-- The index of the first list entry called `name` (the length of the list
if there is none). -/
def firstIndex {W : Type} (ops : List (operation W)) (name : String) : Nat :=
  ops.findIdx (fun op => decide (op.name = name))

/-- The number of workers that have built their child histograms. -/
def RunState.started {W : Type} (s : RunState W) : Nat :=
  (List.range s.numWorkers).countP (fun w => decide ((s.workers w).pc ≠ .start))

/-- What holds of every state of a run of `n` workers over the list `ops`
until the workers have returned: the list is fixed; every recorded call is
by one of the workers; the histogram of each entry is still open and empty,
with no child offered yet, and expects one child per worker that has built
its maps if the entry is the first of its name, none otherwise; a worker
that has not built its maps has no child and no recorded call; a worker that
has holds, for each name of the list, a child of the histogram of the first
entry of that name, which has counted the worker's successful calls under
that name. -/
structure RunState.Inv {W : Type} (ops : List (operation W)) (n : Nat) (s : RunState W) :
    Prop where
  ops_eq : s.plan.ops = ops
  numWorkers_eq : s.numWorkers = n
  calls_lt : ∀ c ∈ s.calls, c.worker < n
  heap : ∀ (a : Nat) (op : operation W), ops[a]? = some op →
    (s.plan.histograms a).once = false ∧ (s.plan.histograms a).closed = false ∧
    (s.plan.histograms a).children.queue = [] ∧ (s.plan.histograms a).children.id = a ∧
    (s.plan.histograms a).hist.Count = 0 ∧
    (s.plan.histograms a).count = if firstIndex ops op.name = a then s.started else 0
  idle : ∀ w, (s.workers w).pc = .start →
    (∀ nm, (s.workers w).histograms nm = none) ∧ ∀ nm, successesOf ops w nm s.calls = 0
  running : ∀ w, (s.workers w).pc ≠ .start →
    ∀ (i : Nat) (op : operation W), ops[i]? = some op →
      ∃ c, (s.workers w).histograms op.name = some c ∧ c.once = false ∧
        c.parent = firstIndex ops op.name ∧
        c.hist.Count = successesOf ops w op.name s.calls

/-- What holds between the merges of `Run`, when the first `i` entries of
`ops` have been merged, of the workers' maps `ws` and the histograms `hs`:
every worker holds, for each name, a child of the first entry of that name
with the worker's successes under that name, which has been offered exactly
if that first entry is among the merged ones; the histograms of the entries
still to merge are untouched; the histogram of a merged entry that is the
first of its name has counted all the successes under that name. -/
structure MergeInv {W : Type} (ops : List (operation W)) (n : Nat) (calls : List Call)
    (i : Nat) (ws : Nat → Worker) (hs : Nat → dstats.Histogram) : Prop where
  children : ∀ w, w < n → ∀ (j : Nat) (o : operation W), ops[j]? = some o →
    ∃ c, (ws w).histograms o.name = some c ∧ c.parent = firstIndex ops o.name ∧
      c.hist.Count = successesOf ops w o.name calls ∧
      (c.once = true ↔ firstIndex ops o.name < i)
  pending : ∀ (a : Nat) (o : operation W), ops[a]? = some o → i ≤ a →
    (hs a).once = false ∧ (hs a).children.queue = [] ∧ (hs a).hist.Count = 0 ∧
    (hs a).count = if firstIndex ops o.name = a then n else 0
  merged : ∀ (a : Nat) (o : operation W), ops[a]? = some o → a < i →
    firstIndex ops o.name = a → (hs a).hist.Count = successes ops o.name calls

/-- What holds while the workers listed in `done` have made their `Done`
call for the name `nm` of entry `i`, before that entry is merged. -/
structure DoneInv {W : Type} (ops : List (operation W)) (n : Nat) (calls : List Call)
    (i : Nat) (nm : String) (done : List Nat) (ws : Nat → Worker)
    (hs : Nat → dstats.Histogram) : Prop where
  children : ∀ w, w < n → ∀ (j : Nat) (o : operation W), ops[j]? = some o →
    ∃ c, (ws w).histograms o.name = some c ∧ c.parent = firstIndex ops o.name ∧
      c.hist.Count = successesOf ops w o.name calls ∧
      (c.once = true ↔ (firstIndex ops o.name < i ∨ (o.name = nm ∧ w ∈ done)))
  later : ∀ (a : Nat) (o : operation W), ops[a]? = some o → i < a →
    (hs a).once = false ∧ (hs a).children.queue = [] ∧ (hs a).hist.Count = 0 ∧
    (hs a).count = if firstIndex ops o.name = a then n else 0
  current : (hs i).once = false ∧ (hs i).hist.Count = 0 ∧
    (hs i).count = (if firstIndex ops nm = i then n else 0) ∧
    ((hs i).children.queue.map (fun h => h.Count)).sum =
      (if firstIndex ops nm = i then
        (done.map (fun w => successesOf ops w nm calls)).sum else 0) ∧
    (hs i).children.queue.length = if firstIndex ops nm = i then done.length else 0
  merged : ∀ (a : Nat) (o : operation W), ops[a]? = some o → a < i →
    firstIndex ops o.name = a → (hs a).hist.Count = successes ops o.name calls

/-- The number of workers that have returned. -/
def RunState.finished {W : Type} (s : RunState W) : Nat :=
  (List.range s.numWorkers).countP (fun w => decide ((s.workers w).pc = .done))

/-- What holds of the count of successes in every state of a run of `n`
workers under the ceiling `M`, when `Plan.Stop` is not called from outside:
the count exceeds the ceiling by at most the number of workers that have
returned; no worker returns before the stop flag is set, and the flag is set
only by a count above the ceiling. -/
structure CeilingInv {W : Type} (M n : Nat) (s : RunState W) : Prop where
  opsMax_eq : s.plan.opsMax = M
  numWorkers_eq : s.numWorkers = n
  le : s.plan.opsCount ≤ M + s.finished
  running : s.plan.closed = false → s.finished = 0
  above : s.plan.closed = true → M + 1 ≤ s.plan.opsCount

/-- The segment of the status line that the spec gives for an operation
name and a `(count, latency)` pair: `"<name> <count>op/s avg.<ms>ms"`. -/
def segment (name : String) (r : Nat × Nat) : String :=
  name ++ " " ++ toString r.1 ++ "op/s avg." ++ toString r.2 ++ "ms"

/-- Segments joined by single tab characters, with no leading tab, as the
spec describes the status line. -/
def joinTabs : List String → String
  | [] => ""
  | [s] => s
  | s :: t :: rest => s ++ "\t" ++ joinTabs (t :: rest)

/-- How far a worker is through the handling of one operation: at the top
of a pass, about to invoke, about to count; zero elsewhere. -/
def PC.offset : PC → Nat
  | .start => 0
  | .top => 1
  | .call _ => 2
  | .count _ => 3
  | .check _ => 0
  | .done => 0

/-- What holds of every state of a run of one worker under the ceiling `M`
over a list of callbacks that always succeed, when `Plan.Stop` is not called
from outside, once the worker has taken `k` steps: until the worker has
returned, the stop flag is not set and the count of successes is at most
`M`; once it has, the flag is set and the count is `M + 1`; every recorded
call is a success of worker 0 on a list entry; the calls recorded are the
successes counted, and the one still to count; the worker has returned or
has made at least `k` steps of progress, of which a success takes at most
four. -/
structure SingleInv {W : Type} (ops : List (operation W)) (M k : Nat) (s : RunState W) :
    Prop where
  ops_eq : s.plan.ops = ops
  opsMax_eq : s.plan.opsMax = M
  numWorkers_eq : s.numWorkers = 1
  stopped : (s.workers 0).pc = .done → s.plan.closed = true ∧ s.plan.opsCount = M + 1
  running : (s.workers 0).pc ≠ .done → s.plan.closed = false ∧ s.plan.opsCount ≤ M
  calls_ok : ∀ c ∈ s.calls, c.worker = 0 ∧ c.measure = true ∧ c.op < ops.length
  length_eq : s.calls.length =
    s.plan.opsCount + (if (s.workers 0).pc.offset = 3 then 1 else 0)
  index : ∀ i, (s.workers 0).pc = .call i → i < ops.length
  progress : (s.workers 0).pc = .done ∨ k ≤ 4 * s.plan.opsCount + (s.workers 0).pc.offset

/-! ### plan_test.go -/

/-- A callback that always succeeds, as `step1` of `TestPlan_StatusTicker`;
every call is measured to take `delta` nanoseconds. -/
def alwaysTrue (W : Type) (delta : Int) : DoFunc W :=
  fun _ world => ({ measure := true, delta := delta }, world)

/-- A callback that always fails, as `step1` of `TestPlan_DoesNotCallNext`;
every call is measured to take `delta` nanoseconds. -/
def alwaysFalse (W : Type) (delta : Int) : DoFunc W :=
  fun _ world => ({ measure := false, delta := delta }, world)

end plan

/-! ## The insert-update workload (`workload.go`) and its callbacks -/

namespace workload

/-- Which callback of the insert-update workload used an id. -/
inductive Use where
  | insert
  | update
  deriving DecidableEq, Repr

/-- A record of one id that a callback obtained from its generator: the
worker, the callback and the id. Kept only to state properties of a run. -/
structure IdUse where
  worker : Nat
  use : Use
  id : Nat
  deriving DecidableEq, Repr

/-- The backend behind a `dbProvider`, with state `B`: what the insert and
the update of a record id answer (the returned flag, and the time measured
around the call), and the state they leave. -/
structure Provider (B : Type) where
  insert : Nat → B → plan.Outcome × B
  update : Nat → B → plan.Outcome × B

/-- The world of the callbacks of a workload over a `PersistentSource` of a
`MonotonicSource`: the shared memory that holds the counter of the source,
the private generator of each worker, the backend, and the record of the
ids used. -/
structure World (B : Type) where
  mem : Mem
  gens : Nat → idgen.Persistent idgen.Monotonic
  db : B
  uses : List IdUse

/-- `InsertRecord`: `data.ID = id.GetNew()`, then the insert of the record.
A `Monotonic` does not panic, so the first branch is never taken. -/
def InsertRecord {B : Type} (db : Provider B) : plan.DoFunc (World B) :=
  fun w world =>
    match idgen.Persistent.GetNew idgen.Monotonic.generator (world.gens w) world.mem with
    | .error _ => ({ measure := false, delta := 0 }, world)
    | .ok (id, g, m) =>
      let r := db.insert id world.db
      (r.1,
       { mem := m
         gens := Function.update world.gens w g
         db := r.2
         uses := world.uses ++ [{ worker := w, use := .insert, id := id }] })

/-- `UpdateRecord`: `recordID := id.GetExisting()`, then the update of that
record. A `Monotonic` does not panic, so the first branch is never taken. -/
def UpdateRecord {B : Type} (db : Provider B) : plan.DoFunc (World B) :=
  fun w world =>
    match idgen.Persistent.GetExisting idgen.Monotonic.generator (world.gens w) world.mem with
    | .error _ => ({ measure := false, delta := 0 }, world)
    | .ok (id, g, m) =>
      let r := db.update id world.db
      (r.1,
       { mem := m
         gens := Function.update world.gens w g
         db := r.2
         uses := world.uses ++ [{ worker := w, use := .update, id := id }] })

/-- `setWorkload`, case `"insert-update"`: the generator source, over the
counter at `max`. -/
def insertUpdateSource (max : Addr) : idgen.PersistentSource idgen.MonotonicSource :=
  { KeepFor := 1, Source := { Count := max } }

/-- `setWorkload`, case `"insert-update"`: the two operations added to the
plan. -/
def setWorkloadInsertUpdate {B : Type} (p : plan.Plan (World B)) (db : Provider B) :
    plan.Plan (World B) :=
  (p.Add "insert" (InsertRecord db)).Add "update" (UpdateRecord db)

/-- The last id use of worker `w` in a record of uses. -/
def lastUse (w : Nat) (uses : List IdUse) : Option IdUse :=
  (uses.filter (fun u => decide (u.worker = w))).getLast?

/-- Whether a worker at this position of the insert-update list has been
through `InsertRecord` and not yet through `UpdateRecord` in its pass. -/
def afterInsert : plan.PC → Bool
  | .count 0 => true
  | .check 0 => true
  | .call 1 => true
  | _ => false

/-- What holds of every state of a run of the insert-update workload: the
list is that of the workload; every generator holds an id for one call;
every update recorded so far used the id of the last use before it by the
same worker, which was an insert; a worker between its insert and its
update holds the id of that insert, which was its last use, with its hold
counter at zero. -/
structure InsertUpdateInv {B : Type} (db : Provider B) (s : plan.RunState (World B)) :
    Prop where
  ops_eq : s.plan.ops =
    [{ counter := 0, histogram := 0, name := "insert", doFunc := InsertRecord db },
     { counter := 1, histogram := 1, name := "update", doFunc := UpdateRecord db }]
  keep : ∀ w, (s.world.gens w).keepFor = 1
  good : ∀ (pre : List IdUse) (u : IdUse) (post : List IdUse),
    s.world.uses = pre ++ u :: post → u.use = .update →
      lastUse u.worker pre = some { worker := u.worker, use := .insert, id := u.id }
  fresh : ∀ w, afterInsert (s.workers w).pc = true →
    lastUse w s.world.uses = some { worker := w, use := .insert, id := (s.world.gens w).last } ∧
      (s.world.gens w).usedCount = 0

end workload

end Mpjbt

/-! # Theorems -/

namespace Mpjbt

/-! ## idgen -/

namespace idgen

theorem uint64Size_pos : 0 < uint64Size := by
  unfold uint64Size; norm_num

theorem atomicLoadUint64_lt (a : Addr) (m : Mem) : atomicLoadUint64 a m < uint64Size :=
  Nat.mod_lt _ uint64Size_pos

/-- While the hold counter is below the hold length, the remaining hold calls
return the cached id; they never reach the wrapped generator, whatever it
is, and leave its state and the memory as they were. -/
theorem Persistent.getExistingCalls_hold {S : Type} (g : Generator S) (n : Nat) :
    ∀ (p : Persistent S) (m : Mem), p.keepFor < uint64Size → p.usedCount + n = p.keepFor →
      Persistent.getExistingCalls g n p m =
        .ok (List.replicate n p.last, { p with usedCount := p.keepFor }, m) := by
  induction n with
  | zero =>
    intro p m _ h
    simp only [Nat.add_zero] at h
    cases p
    simp_all [Persistent.getExistingCalls]
  | succ n ih =>
    intro p m hK h
    have hne : p.usedCount ≠ p.keepFor := by omega
    have hlt : p.usedCount + 1 < uint64Size := by omega
    have hstep : Persistent.GetExisting g p m =
        .ok (p.last, { p with usedCount := p.usedCount + 1 }, m) := by
      simp [Persistent.GetExisting, hne, Nat.mod_eq_of_lt hlt]
    have hrec := ih { p with usedCount := p.usedCount + 1 } m hK (by simp; omega)
    simp only [Persistent.getExistingCalls, hstep, hrec, List.replicate_succ]

/-- C1: after `Persistent.GetNew` returns `V`, the next `keepFor` calls of
`GetExisting` all return `V`, with the wrapped generator not consulted (the
calls give the same result whatever generator `g'` is wrapped, and its state
and the memory are unchanged), and the call after them returns what the
wrapped generator's `GetExisting` returns. -/
theorem Persistent.hold_then_refresh {S : Type} (g g' : Generator S)
    (p p1 : Persistent S) (m m1 : Mem) (V : Nat)
    (hK : p.keepFor < uint64Size)
    (hnew : Persistent.GetNew g p m = .ok (V, p1, m1)) :
    ∃ p2 : Persistent S,
      Persistent.getExistingCalls g' p.keepFor p1 m1 =
          .ok (List.replicate p.keepFor V, p2, m1) ∧
        p2.source = p1.source ∧
        (Persistent.GetExisting g p2 m1).map (fun r => (r.1, r.2.2)) =
          (g.GetExisting p1.source m1).map (fun r => (r.1, r.2.2)) := by
  unfold Persistent.GetNew at hnew
  cases hg : g.GetNew p.source m with
  | error e => rw [hg] at hnew; cases hnew
  | ok r =>
    obtain ⟨id, s, m2⟩ := r
    rw [hg] at hnew
    simp only [Except.ok.injEq, Prod.mk.injEq] at hnew
    obtain ⟨rfl, rfl, rfl⟩ := hnew
    refine ⟨_, Persistent.getExistingCalls_hold g' p.keepFor
      { p with source := s, last := id, usedCount := 0 } m2 hK (by simp), rfl, ?_⟩
    simp only [Persistent.GetExisting, if_true]
    cases g.GetExisting s m2 with
    | error e => rfl
    | ok r => rfl


/-- The hold and refresh of C1 on the test's mock generator with hold
length 1: after `GetNew` returns 1, one `GetExisting` returns 1 and the next
one asks the mock. -/
theorem Persistent.hold_then_refresh_witness :
    ∃ p2 : Persistent Nat,
      Persistent.getExistingCalls mockGenerator 1
          { keepFor := 1, source := 1, usedCount := 0, last := 1 } (fun _ => 0) =
          .ok (List.replicate 1 1, p2, fun _ => 0) ∧
        p2.source = 1 ∧
        (Persistent.GetExisting mockGenerator p2 (fun _ => 0)).map (fun r => (r.1, r.2.2)) =
          (mockGenerator.GetExisting 1 (fun _ => 0)).map (fun r => (r.1, r.2.2)) :=
  Persistent.hold_then_refresh mockGenerator mockGenerator
    { keepFor := 1, source := 0, usedCount := 5, last := 0 }
    { keepFor := 1, source := 1, usedCount := 0, last := 1 } (fun _ => 0) (fun _ => 0) 1
    (by decide) rfl

theorem atomicLoadUint64_update_same (a : Addr) (m : Mem) (v : Nat) :
    atomicLoadUint64 a (Function.update m a v) = v % uint64Size := by
  simp [atomicLoadUint64]

/-- Calls of `GetNew` on generators that all point to the counter at `a`
return the values after the counter's, as long as the counter does not
wrap. -/
theorem Monotonic.getNewCalls_range (a : Addr) (gs : List Monotonic) :
    ∀ (m : Mem) (c : Nat), (∀ g ∈ gs, g.count = a) → atomicLoadUint64 a m = c →
      c + gs.length < uint64Size →
      (Monotonic.getNewCalls gs m).1 = List.range' (c + 1) gs.length ∧
        atomicLoadUint64 a (Monotonic.getNewCalls gs m).2 = c + gs.length := by
  induction gs with
  | nil =>
    intro m c _ hc _
    simp [Monotonic.getNewCalls, hc]
  | cons g gs ih =>
    intro m c hg hc hlt
    have hga : g.count = a := hg g (List.mem_cons_self _ _)
    simp only [List.length_cons] at hlt
    have hv : (atomicLoadUint64 a m + 1) % uint64Size = c + 1 := by
      rw [hc]; exact Nat.mod_eq_of_lt (by omega)
    have hrec := ih (Function.update m a (c + 1)) (c + 1)
      (fun g' hg' => hg g' (List.mem_cons_of_mem _ hg'))
      (by rw [atomicLoadUint64_update_same]; exact Nat.mod_eq_of_lt (by omega))
      (by omega)
    simp only [Monotonic.getNewCalls, Monotonic.GetNew, atomicAddUint64, hga, hv,
      List.length_cons, List.range'_succ]
    refine ⟨by rw [hrec.1], ?_⟩
    rw [hrec.2]; omega

/-- C5 (amended): for a source whose counter holds `c`, any `n` calls of
`GetNew` on generators created from that source, with `c + n` below
`2 ^ 64`, return `c + 1, ..., c + n` in call order: the `i`-th call returns
`c + i`, and the ids are pairwise distinct and strictly increasing. -/
theorem Monotonic.getNewCalls_contiguous (src : MonotonicSource) (gs : List Monotonic)
    (m : Mem) (hgs : ∀ g ∈ gs, g = src.New)
    (hlt : atomicLoadUint64 src.Count m + gs.length < uint64Size) :
    (Monotonic.getNewCalls gs m).1 =
        List.range' (atomicLoadUint64 src.Count m + 1) gs.length ∧
      (∀ i, i < gs.length →
        (Monotonic.getNewCalls gs m).1[i]? = some (atomicLoadUint64 src.Count m + (i + 1))) ∧
      (Monotonic.getNewCalls gs m).1.Nodup ∧
      (Monotonic.getNewCalls gs m).1.Pairwise (fun x y => x < y) := by
  have h := (Monotonic.getNewCalls_range src.Count gs m _
    (fun g hg => by rw [hgs g hg]; rfl) rfl hlt).1
  rw [h]
  refine ⟨rfl, ?_, List.nodup_range' _ _, List.pairwise_lt_range' _ _⟩
  intro i hi
  rw [List.getElem?_range' _ _ hi]
  congr 1
  omega

/-- Three calls on two generators of one source whose counter holds 7. -/
theorem Monotonic.getNewCalls_contiguous_witness :
    (Monotonic.getNewCalls
        [MonotonicSource.New ⟨0⟩, MonotonicSource.New ⟨0⟩, MonotonicSource.New ⟨0⟩]
        (fun _ => 7)).1 = List.range' (atomicLoadUint64 0 (fun _ => 7) + 1) 3 ∧
      (∀ i, i < 3 →
        (Monotonic.getNewCalls
          [MonotonicSource.New ⟨0⟩, MonotonicSource.New ⟨0⟩, MonotonicSource.New ⟨0⟩]
          (fun _ => 7)).1[i]? = some (atomicLoadUint64 0 (fun _ => 7) + (i + 1))) ∧
      (Monotonic.getNewCalls
        [MonotonicSource.New ⟨0⟩, MonotonicSource.New ⟨0⟩, MonotonicSource.New ⟨0⟩]
        (fun _ => 7)).1.Nodup ∧
      (Monotonic.getNewCalls
        [MonotonicSource.New ⟨0⟩, MonotonicSource.New ⟨0⟩, MonotonicSource.New ⟨0⟩]
        (fun _ => 7)).1.Pairwise (fun x y => x < y) :=
  Monotonic.getNewCalls_contiguous ⟨0⟩
    [MonotonicSource.New ⟨0⟩, MonotonicSource.New ⟨0⟩, MonotonicSource.New ⟨0⟩]
    (fun _ => 7) (by simp) (by decide)

/-- C5 fails as stated: on a source whose counter holds `2 ^ 64 - 2`, two
calls of `GetNew` return `2 ^ 64 - 1` and then `0`, which is neither
`c + 1, c + 2` nor increasing. -/
theorem Monotonic.getNewCalls_wraps :
    (Monotonic.getNewCalls [MonotonicSource.New ⟨0⟩, MonotonicSource.New ⟨0⟩]
        (fun _ => 2 ^ 64 - 2)).1 = [2 ^ 64 - 1, 0] ∧
      (Monotonic.getNewCalls [MonotonicSource.New ⟨0⟩, MonotonicSource.New ⟨0⟩]
        (fun _ => 2 ^ 64 - 2)).1 ≠
        [atomicLoadUint64 0 (fun _ => 2 ^ 64 - 2) + 1,
         atomicLoadUint64 0 (fun _ => 2 ^ 64 - 2) + 2] ∧
      ¬ (Monotonic.getNewCalls [MonotonicSource.New ⟨0⟩, MonotonicSource.New ⟨0⟩]
        (fun _ => 2 ^ 64 - 2)).1.Pairwise (fun x y => x < y) := by
  decide

/-- C9: for a bound `max` of at least 1, `Uniform.GetExisting` returns
`(r mod max) + 1` for the 64-bit draw `r`, which lies between 1 and `max`,
and leaves the memory, hence `max`, unchanged. -/
theorem Uniform.GetExisting_range (u : Uniform) (m : Mem)
    (hmax : 1 ≤ atomicLoadUint64 u.max m) :
    Uniform.GetExisting u m =
        .ok (u.rnd.Uint64.1 % atomicLoadUint64 u.max m + 1,
             { u with rnd := u.rnd.Uint64.2 }, m) ∧
      u.rnd.Uint64.1 < uint64Size ∧
      1 ≤ u.rnd.Uint64.1 % atomicLoadUint64 u.max m + 1 ∧
      u.rnd.Uint64.1 % atomicLoadUint64 u.max m + 1 ≤ atomicLoadUint64 u.max m := by
  have hpos : 0 < atomicLoadUint64 u.max m := hmax
  have hlt := Nat.mod_lt u.rnd.Uint64.1 hpos
  have hmaxlt := atomicLoadUint64_lt u.max m
  refine ⟨?_, Nat.mod_lt _ uint64Size_pos, by omega, by omega⟩
  have hne : atomicLoadUint64 u.max m ≠ 0 := by omega
  simp only [Uniform.GetExisting, hne, if_false]
  rw [Nat.mod_eq_of_lt (by omega)]

/-- A draw of 12 under the bound 5 gives the id 3. -/
theorem Uniform.GetExisting_range_witness :
    Uniform.GetExisting ⟨0, ⟨fun _ => 12, 0⟩⟩ (fun _ => 5) =
        .ok ((Rand.Uint64 ⟨fun _ => 12, 0⟩).1 % atomicLoadUint64 0 (fun _ => 5) + 1,
             { (⟨0, ⟨fun _ => 12, 0⟩⟩ : Uniform) with
               rnd := (Rand.Uint64 ⟨fun _ => 12, 0⟩).2 }, fun _ => 5) ∧
      (Rand.Uint64 ⟨fun _ => 12, 0⟩).1 < uint64Size ∧
      1 ≤ (Rand.Uint64 ⟨fun _ => 12, 0⟩).1 % atomicLoadUint64 0 (fun _ => 5) + 1 ∧
      (Rand.Uint64 ⟨fun _ => 12, 0⟩).1 % atomicLoadUint64 0 (fun _ => 5) + 1 ≤
        atomicLoadUint64 0 (fun _ => 5) :=
  Uniform.GetExisting_range ⟨0, ⟨fun _ => 12, 0⟩⟩ (fun _ => 5) (by decide)

/-- C10 fails as stated: with the bound 0, `Uniform.GetExisting` panics on
the integer division by zero it performs, and `Zipfian.GetExisting` returns
the id 0. -/
theorem GetExisting_zero_bound_counterexample :
    Uniform.GetExisting ⟨0, ⟨fun _ => 12, 0⟩⟩ (fun _ => 0) =
        .error .integerDivideByZero ∧
      (Zipfian.GetExisting ⟨0, ⟨fun _ => 12, 0⟩⟩ (fun _ => 0)).map (fun r => r.1) =
        .ok 0 := by
  constructor <;> rfl

/-- C10 (amended): with the bound 0, `Uniform.GetExisting` returns no id: it
divides by zero, which is a run-time panic; `Zipfian.GetExisting` does not
fail and returns 0, the bound itself, leaving the memory unchanged. -/
theorem GetExisting_zero_bound (u : Uniform) (z : Zipfian) (m : Mem)
    (hu : atomicLoadUint64 u.max m = 0) (hz : atomicLoadUint64 z.max m = 0) :
    Uniform.GetExisting u m = .error .integerDivideByZero ∧
      Zipfian.GetExisting z m = .ok (0, { z with rnd := z.rnd.Uint64.2 }, m) := by
  constructor
  · simp [Uniform.GetExisting, hu]
  · simp [Zipfian.GetExisting, hz]

/-- The amended C10 on generators whose shared bound is 0. -/
theorem GetExisting_zero_bound_witness :
    Uniform.GetExisting ⟨0, ⟨fun _ => 12, 0⟩⟩ (fun _ => 0) = .error .integerDivideByZero ∧
      Zipfian.GetExisting ⟨0, ⟨fun _ => 12, 0⟩⟩ (fun _ => 0) =
        .ok (0, { (⟨0, ⟨fun _ => 12, 0⟩⟩ : Zipfian) with
                  rnd := (Rand.Uint64 ⟨fun _ => 12, 0⟩).2 }, fun _ => 0) :=
  GetExisting_zero_bound ⟨0, ⟨fun _ => 12, 0⟩⟩ ⟨0, ⟨fun _ => 12, 0⟩⟩ (fun _ => 0)
    (by decide) (by decide)

end idgen

end Mpjbt

namespace Mpjbt

/-! ## Histograms -/

namespace stats

theorem incrBucket_map_LowBound (i : Nat) (bs : List HistogramBucket) :
    (incrBucket i bs).map (fun b => b.LowBound) = bs.map (fun b => b.LowBound) := by
  induction bs generalizing i with
  | nil => cases i <;> rfl
  | cons b bs ih =>
    cases i with
    | zero => simp [incrBucket]
    | succ i => simp [incrBucket, ih]

theorem mergeBuckets_map_LowBound (bs cs : List HistogramBucket) :
    (mergeBuckets bs cs).map (fun b => b.LowBound) = bs.map (fun b => b.LowBound) := by
  induction bs generalizing cs with
  | nil => simp [mergeBuckets]
  | cons b bs ih =>
    cases cs with
    | nil => simp [mergeBuckets]
    | cons c cs => simp [mergeBuckets, ih]

theorem takeWhile_length_congr (p : ℚ → Bool) (bs cs : List HistogramBucket)
    (h : bs.map (fun b => b.LowBound) = cs.map (fun b => b.LowBound)) :
    (bs.takeWhile (fun b => p b.LowBound)).length =
      (cs.takeWhile (fun b => p b.LowBound)).length := by
  induction bs generalizing cs with
  | nil =>
    cases cs with
    | nil => rfl
    | cons c cs => simp at h
  | cons b bs ih =>
    cases cs with
    | nil => simp at h
    | cons c cs =>
      simp only [List.map_cons, List.cons.injEq] at h
      simp only [List.takeWhile_cons, h.1]
      split
      · simp [ih cs h.2]
      · rfl

/-- The bucket of a value depends on the lower bounds only. -/
theorem findBucket_congr (h h2 : Histogram) (v : Int)
    (hl : h.Buckets.map (fun b => b.LowBound) = h2.Buckets.map (fun b => b.LowBound)) :
    h.findBucket v = h2.findBucket v := by
  unfold Histogram.findBucket
  apply takeWhile_length_congr (fun q => decide (q ≤ (v : ℚ)))
  have := congrArg List.tail hl
  simpa [List.map_tail] using this

theorem Add_map_LowBound (h : Histogram) (v : Int) :
    (h.Add v).Buckets.map (fun b => b.LowBound) = h.Buckets.map (fun b => b.LowBound) :=
  incrBucket_map_LowBound _ _

theorem addAll_map_LowBound (vs : List Int) (h : Histogram) :
    (h.addAll vs).Buckets.map (fun b => b.LowBound) = h.Buckets.map (fun b => b.LowBound) := by
  induction vs generalizing h with
  | nil => rfl
  | cons v vs ih =>
    simp only [Histogram.addAll, List.foldl_cons] at ih ⊢
    rw [ih, Add_map_LowBound]

theorem Merge_map_LowBound (h h2 : Histogram) :
    (h.Merge h2).Buckets.map (fun b => b.LowBound) = h.Buckets.map (fun b => b.LowBound) :=
  mergeBuckets_map_LowBound _ _

theorem incrBucket_comm (i j : Nat) (bs : List HistogramBucket) :
    incrBucket i (incrBucket j bs) = incrBucket j (incrBucket i bs) := by
  induction bs generalizing i j with
  | nil => cases i <;> cases j <;> rfl
  | cons b bs ih =>
    cases i <;> cases j <;> simp [incrBucket, ih]

/-- Two additions to a histogram commute. -/
theorem Add_comm (h : Histogram) (v w : Int) : (h.Add v).Add w = (h.Add w).Add v := by
  have hv : (h.Add v).findBucket w = h.findBucket w :=
    findBucket_congr _ _ _ (Add_map_LowBound h v)
  have hw : (h.Add w).findBucket v = h.findBucket v :=
    findBucket_congr _ _ _ (Add_map_LowBound h w)
  simp only [Histogram.Add] at hv hw ⊢
  rw [hv, hw, incrBucket_comm]

/-- A histogram fed a list of values does not depend on their order. -/
theorem addAll_perm (h : Histogram) {vs ws : List Int} (hp : vs.Perm ws) :
    h.addAll vs = h.addAll ws :=
  List.Perm.foldl_eq' hp (fun x _ y _ z => Add_comm z x y) h

theorem mergeBuckets_incrBucket (i : Nat) (bs cs : List HistogramBucket)
    (hlen : bs.length = cs.length) :
    mergeBuckets bs (incrBucket i cs) = incrBucket i (mergeBuckets bs cs) := by
  induction bs generalizing i cs with
  | nil => cases i <;> cases cs <;> simp [mergeBuckets, incrBucket]
  | cons b bs ih =>
    cases cs with
    | nil => simp at hlen
    | cons c cs =>
      simp only [List.length_cons, Nat.add_right_cancel_iff] at hlen
      cases i with
      | zero => simp [mergeBuckets, incrBucket, Nat.add_assoc]
      | succ i => simp [mergeBuckets, incrBucket, ih i cs hlen]

theorem Merge_Add (h c : Histogram) (v : Int)
    (hl : h.Buckets.map (fun b => b.LowBound) = c.Buckets.map (fun b => b.LowBound)) :
    h.Merge (c.Add v) = (h.Merge c).Add v := by
  have hlen : h.Buckets.length = c.Buckets.length := by
    simpa using congrArg List.length hl
  have hf : (h.Merge c).findBucket v = c.findBucket v :=
    findBucket_congr _ _ _ ((Merge_map_LowBound h c).trans hl)
  simp only [Histogram.Merge, Histogram.Add] at hf ⊢
  rw [hf, mergeBuckets_incrBucket _ _ _ hlen, Nat.add_assoc]

theorem Merge_addAll (h : Histogram) (vs : List Int) :
    ∀ c : Histogram,
      h.Buckets.map (fun b => b.LowBound) = c.Buckets.map (fun b => b.LowBound) →
      h.Merge (c.addAll vs) = (h.Merge c).addAll vs := by
  induction vs with
  | nil => intro c _; rfl
  | cons v vs ih =>
    intro c hl
    simp only [Histogram.addAll, List.foldl_cons] at ih ⊢
    rw [ih (c.Add v) (hl.trans (Add_map_LowBound c v).symm), Merge_Add h c v hl]

theorem mergeBuckets_zero (bs cs : List HistogramBucket) (hz : ∀ c ∈ cs, c.Count = 0) :
    mergeBuckets bs cs = bs := by
  induction bs generalizing cs with
  | nil => simp [mergeBuckets]
  | cons b bs ih =>
    cases cs with
    | nil => simp [mergeBuckets]
    | cons c cs =>
      simp only [List.mem_cons, forall_eq_or_imp] at hz
      simp [mergeBuckets, hz.1, ih cs hz.2]

/-- Merging an empty histogram changes nothing. -/
theorem Merge_NewHistogram (h : Histogram) (opts : HistogramOptions) :
    h.Merge (NewHistogram opts) = h := by
  have hz : ∀ c ∈ (NewHistogram opts).Buckets, c.Count = 0 := by
    intro c hc
    simp only [NewHistogram, List.mem_map] at hc
    obtain ⟨i, _, rfl⟩ := hc
    rfl
  simp only [Histogram.Merge, mergeBuckets_zero _ _ hz]
  rfl

/-- Merging children that were fed values is feeding the values to the
parent. -/
theorem foldl_Merge_children (opts : HistogramOptions) (vss : List (List Int)) :
    ∀ h : Histogram,
      h.Buckets.map (fun b => b.LowBound) =
        (NewHistogram opts).Buckets.map (fun b => b.LowBound) →
      (vss.map (fun vs => (NewHistogram opts).addAll vs)).foldl Histogram.Merge h =
        h.addAll vss.flatten := by
  induction vss with
  | nil => intro h _; rfl
  | cons vs vss ih =>
    intro h hl
    simp only [List.map_cons, List.foldl_cons, List.flatten_cons]
    rw [Merge_addAll h vs _ hl, Merge_NewHistogram]
    rw [ih (h.addAll vs) ((addAll_map_LowBound vs h).trans hl)]
    simp [Histogram.addAll, List.foldl_append]

theorem mergeBuckets_right_comm (bs cs ds : List HistogramBucket) :
    mergeBuckets (mergeBuckets bs cs) ds = mergeBuckets (mergeBuckets bs ds) cs := by
  induction bs generalizing cs ds with
  | nil => simp [mergeBuckets]
  | cons b bs ih =>
    cases cs <;> cases ds <;> simp [mergeBuckets, ih, Nat.add_right_comm]

/-- Merging is commutative: the order in which two histograms are merged
into a third does not matter. -/
theorem Merge_right_comm (h a b : Histogram) : (h.Merge a).Merge b = (h.Merge b).Merge a := by
  simp only [Histogram.Merge, mergeBuckets_right_comm _ a.Buckets b.Buckets,
    Nat.add_right_comm h.Count a.Count b.Count]

theorem addAll_Count (vs : List Int) :
    ∀ h : Histogram, (h.addAll vs).Count = h.Count + vs.length := by
  induction vs with
  | nil => intro h; rfl
  | cons v vs ih =>
    intro h
    simp only [Histogram.addAll, List.foldl_cons, List.length_cons] at ih ⊢
    rw [ih]
    simp only [Histogram.Add]
    omega

theorem Add_Count (h : Histogram) (v : Int) : (h.Add v).Count = h.Count + 1 := rfl

/-- The total of a histogram into which a list of histograms was merged. -/
theorem foldl_Merge_Count (q : List Histogram) :
    ∀ h : Histogram,
      (q.foldl Histogram.Merge h).Count = h.Count + (q.map (fun x => x.Count)).sum := by
  induction q with
  | nil => intro h; simp
  | cons x q ih =>
    intro h
    simp only [List.foldl_cons, List.map_cons, List.sum_cons]
    rw [ih]
    simp only [Histogram.Merge]
    omega

end stats

namespace dstats

theorem Histogram.splitFeed_eq (vss : List (List Int)) :
    ∀ h : Histogram, h.closed = false → h.count + vss.length < uint64Size →
      Histogram.splitFeed vss h =
        (vss.map (fun vs =>
            { hist := (stats.NewHistogram h.hist.opts).addAll vs
              once := false
              parent := h.children.id }),
         { h with count := h.count + vss.length }) := by
  induction vss with
  | nil => intro h _ _; rfl
  | cons vs vss ih =>
    intro h hc hlt
    obtain ⟨hist, count, children, once, closed⟩ := h
    simp only at hc
    subst hc
    simp only [List.length_cons] at hlt
    have hmod : (count + 1) % uint64Size = count + 1 := Nat.mod_eq_of_lt (by omega)
    have hrec := ih ⟨hist, count + 1, children, once, false⟩ rfl (by simp only; omega)
    simp only [Histogram.splitFeed, Histogram.Split, hmod, hrec, List.map_cons,
      List.length_cons, stats.Histogram.Opts, Bool.false_eq_true, if_false]
    simp only [Prod.mk.injEq, true_and, Histogram.mk.injEq, and_true]
    omega

theorem Histogram.doneAll_eq (cs : List HistogramChild) :
    ∀ h : Histogram, (∀ c ∈ cs, c.once = false) →
      Histogram.doneAll cs h =
        { h with children :=
            { h.children with queue := h.children.queue ++ cs.map (fun c => c.hist) } } := by
  induction cs with
  | nil => intro h _; simp [Histogram.doneAll]
  | cons c cs ih =>
    intro h hc
    simp only [List.mem_cons, forall_eq_or_imp] at hc
    have hrec := ih { h with children := (c.Done h.children).2 } hc.2
    simp only [Histogram.doneAll, List.foldl_cons] at hrec ⊢
    rw [hrec]
    simp [HistogramChild.Done, hc.1]

/-- A first `Merge` whose channel holds exactly the expected children merges
them all and closes the parent. -/
theorem Histogram.Merge_eq (h : Histogram) (ho : h.once = false)
    (hq : h.children.queue.length = h.count) :
    h.Merge = some
      { h with
        hist := h.children.queue.foldl stats.Histogram.Merge h.hist
        children := { h.children with queue := [], closed := true }
        once := true
        closed := true } := by
  simp only [Histogram.Merge, ho, hq, Nat.lt_irrefl, Bool.false_eq_true, if_false]
  rw [← hq, List.take_length, List.drop_length]

/-- C8: for every number of children obtained by `Split` from a new parent,
every assignment of values to them and every order in which they call
`Done`, `Merge` returns and leaves the parent with the histogram (per-bucket
counts and total) of a single un-split histogram of the same options fed all
the values, in any order. -/
theorem Histogram.Merge_order_independent (opts : stats.HistogramOptions) (chan : Nat)
    (vss : List (List Int)) (order : List HistogramChild) (all : List Int)
    (hK : vss.length < uint64Size)
    (horder : order.Perm (Histogram.splitFeed vss (NewHistogram opts chan)).1)
    (hall : all.Perm vss.flatten) :
    ∃ h : Histogram,
      (Histogram.doneAll order (Histogram.splitFeed vss (NewHistogram opts chan)).2).Merge =
          some h ∧
        h.hist = (stats.NewHistogram opts).addAll all ∧
        h.hist.counts = ((stats.NewHistogram opts).addAll all).counts ∧
        h.hist.Count = all.length ∧
        h.closed = true := by
  have hsplit := Histogram.splitFeed_eq vss (NewHistogram opts chan) rfl
    (by simpa [NewHistogram] using hK)
  rw [hsplit] at horder ⊢
  simp only at horder ⊢
  have honce : ∀ c ∈ order, c.once = false := by
    intro c hc
    have := horder.mem_iff.mp hc
    simp only [List.mem_map] at this
    obtain ⟨vs, _, rfl⟩ := this
    rfl
  have hlen : order.length = vss.length := by simpa using horder.length_eq
  have hfold :
      (order.map (fun c => c.hist)).foldl stats.Histogram.Merge (stats.NewHistogram opts) =
        (stats.NewHistogram opts).addAll all := by
    rw [List.Perm.foldl_eq' (horder.map (fun c => c.hist))
      (fun x _ y _ z => stats.Merge_right_comm z x y) (stats.NewHistogram opts)]
    rw [List.map_map]
    have := stats.foldl_Merge_children opts vss (stats.NewHistogram opts) rfl
    rw [← stats.addAll_perm _ hall] at this
    exact this
  rw [Histogram.doneAll_eq order _ honce]
  rw [Histogram.Merge_eq _ rfl (by simp [NewHistogram, hlen])]
  refine ⟨_, rfl, ?_, ?_, ?_, rfl⟩
  · simpa [NewHistogram] using hfold
  · have : ∀ a b : stats.Histogram, a = b → a.counts = b.counts := fun _ _ e => by rw [e]
    apply this
    simpa [NewHistogram] using hfold
  · have : ∀ a b : stats.Histogram, a = b → a.Count = b.Count := fun _ _ e => by rw [e]
    rw [this _ _ (show _ = (stats.NewHistogram opts).addAll all by
      simpa [NewHistogram] using hfold), stats.addAll_Count]
    simp [stats.NewHistogram]

/-- Two children fed one value each, calling `Done` in the order opposite
to that of their `Split`. -/
theorem Histogram.Merge_order_independent_witness :
    ∃ h : Histogram,
      (Histogram.doneAll
          (Histogram.splitFeed [[1], [5]] (NewHistogram ⟨3, 1, 1⟩ 0)).1.reverse
          (Histogram.splitFeed [[1], [5]] (NewHistogram ⟨3, 1, 1⟩ 0)).2).Merge = some h ∧
        h.hist = (stats.NewHistogram ⟨3, 1, 1⟩).addAll [5, 1] ∧
        h.hist.counts = ((stats.NewHistogram ⟨3, 1, 1⟩).addAll [5, 1]).counts ∧
        h.hist.Count = [(5 : Int), 1].length ∧
        h.closed = true :=
  Histogram.Merge_order_independent ⟨3, 1, 1⟩ 0 [[1], [5]]
    (Histogram.splitFeed [[1], [5]] (NewHistogram ⟨3, 1, 1⟩ 0)).1.reverse [5, 1]
    (by decide) (List.reverse_perm _) (List.Perm.swap (1 : Int) 5 [])

end dstats

end Mpjbt

namespace Mpjbt

/-! ## plan -/

namespace plan

/-- The list, flags and heap of a plan built by `New` and `Add`s: entry `i`
points to the cells at address `i`, which are new. -/
theorem Plan.ofList_spec {W : Type} (opsMax paddingSize : Nat)
    (defs : List (String × DoFunc W)) :
    (Plan.ofList opsMax paddingSize defs).ops.length = defs.length ∧
      (∀ i : Nat, (Plan.ofList opsMax paddingSize defs).ops[i]? =
        (defs[i]?).map (fun d =>
          ({ counter := i, histogram := i, name := d.1, doFunc := d.2 } : operation W))) ∧
      (∀ a, a < defs.length →
        (Plan.ofList opsMax paddingSize defs).histograms a = dstats.NewHistogram addOptions a) ∧
      (∀ a, (Plan.ofList opsMax paddingSize defs).counters a = { count := 0, cumulativeTime := 0 }) ∧
      (Plan.ofList opsMax paddingSize defs).closed = false ∧
      (Plan.ofList opsMax paddingSize defs).opsCount = 0 ∧
      (Plan.ofList opsMax paddingSize defs).opsMax = opsMax := by
  induction defs using List.reverseRecOn with
  | nil =>
    refine ⟨rfl, ?_, ?_, ?_, rfl, rfl, rfl⟩
    · intro i; simp [Plan.ofList, New]
    · intro a ha; simp at ha
    · intro a; rfl
  | append_singleton defs d ih =>
    obtain ⟨hlen, hops, hh, hc, hcl, hcnt, hmax⟩ := ih
    have hfold : Plan.ofList opsMax paddingSize (defs ++ [d]) =
        (Plan.ofList opsMax paddingSize defs).Add d.1 d.2 := by
      simp [Plan.ofList, List.foldl_append]
    rw [hfold]
    refine ⟨?_, ?_, ?_, ?_, ?_, ?_, ?_⟩
    · simp [Plan.Add, hlen]
    · intro i
      simp only [Plan.Add, hlen]
      rcases Nat.lt_trichotomy i defs.length with hi | hi | hi
      · rw [List.getElem?_append_left (by omega), List.getElem?_append_left hi, hops i]
      · subst hi
        rw [List.getElem?_append_right (by omega), List.getElem?_append_right (by omega)]
        simp [hlen]
      · rw [List.getElem?_eq_none (by simp; omega), List.getElem?_eq_none (by simp; omega)]
        rfl
    · intro a ha
      simp only [Plan.Add, hlen]
      by_cases hae : a = defs.length
      · subst hae; simp
      · rw [Function.update_noteq hae]
        exact hh a (by simp at ha; omega)
    · intro a
      simp only [Plan.Add, hlen]
      by_cases hae : a = defs.length
      · subst hae; simp
      · rw [Function.update_noteq hae]; exact hc a
    · simpa [Plan.Add] using hcl
    · simpa [Plan.Add] using hcnt
    · simpa [Plan.Add] using hmax

/-- C7 fails as stated: a second `Add` under the name of an existing entry
gives the new entry a `DurationObserver` and a `Histogram` of its own
(address 1), not those of the existing entry (address 0). -/
theorem Plan.Add_same_name_not_aliased :
    ((Plan.ofList 0 0 [("a", alwaysTrue Unit 0)]).Add "a" (alwaysTrue Unit 0)).ops.map
        (fun op => (op.name, op.counter, op.histogram)) =
      [("a", 0, 0), ("a", 1, 1)] := by
  decide

/-- C7 (amended): `Plan.Add(name, f)` on a plan built by `New` and `Add`s
appends exactly one entry at the end of the list, leaving the earlier
entries unchanged and in order; the new entry carries `name` and `f` and
points to a new zeroed `DurationObserver` and a new empty `Histogram`,
distinct from those of every earlier entry (whose cells are unchanged),
whether or not the name is already in the list. -/
theorem Plan.Add_appends_fresh {W : Type} (opsMax paddingSize : Nat)
    (defs : List (String × DoFunc W)) (name : String) (f : DoFunc W) :
    ∃ op : operation W,
      ((Plan.ofList opsMax paddingSize defs).Add name f).ops =
          (Plan.ofList opsMax paddingSize defs).ops ++ [op] ∧
        op.name = name ∧ op.doFunc = f ∧
        ((Plan.ofList opsMax paddingSize defs).Add name f).counters op.counter =
          { count := 0, cumulativeTime := 0 } ∧
        ((Plan.ofList opsMax paddingSize defs).Add name f).histograms op.histogram =
          dstats.NewHistogram addOptions op.histogram ∧
        ∀ e ∈ (Plan.ofList opsMax paddingSize defs).ops,
          e.counter ≠ op.counter ∧ e.histogram ≠ op.histogram ∧
          ((Plan.ofList opsMax paddingSize defs).Add name f).counters e.counter =
            (Plan.ofList opsMax paddingSize defs).counters e.counter ∧
          ((Plan.ofList opsMax paddingSize defs).Add name f).histograms e.histogram =
            (Plan.ofList opsMax paddingSize defs).histograms e.histogram := by
  obtain ⟨hlen, hops, -, -, -, -, -⟩ := Plan.ofList_spec opsMax paddingSize defs
  refine ⟨_, rfl, rfl, rfl, ?_, ?_, ?_⟩
  · simp [Plan.Add]
  · simp [Plan.Add]
  · intro e he
    obtain ⟨i, hi, rfl⟩ := List.getElem_of_mem he
    have hget := hops i
    rw [List.getElem?_eq_getElem hi] at hget
    have hi' : i < defs.length := by omega
    rw [List.getElem?_eq_getElem hi'] at hget
    simp only [Option.map_some', Option.some.injEq] at hget
    have hne : i ≠ (Plan.ofList opsMax paddingSize defs).ops.length := by omega
    rw [hget]
    simp only [Plan.Add]
    exact ⟨hne, hne, Function.update_noteq hne _ _, Function.update_noteq hne _ _⟩

/-- C3: when a callback invocation returns false, the step of the worker that
made it leaves the worker's histogram shards, every `DurationObserver`, the
plan's histograms, the successful-operation counter and the stop flag
unchanged, and moves on to the next operation without passing through the
counting of a success. -/
theorem Worker.step_call_false {W : Type} (s : RunState W) (w i : Nat) (op : operation W)
    (hpc : (s.workers w).pc = .call i) (hop : s.plan.ops[i]? = some op)
    (hfalse : (op.doFunc w s.world).1.measure = false) :
    ((Worker.step w s).workers w).histograms = (s.workers w).histograms ∧
      (Worker.step w s).plan.counters = s.plan.counters ∧
      (Worker.step w s).plan.histograms = s.plan.histograms ∧
      (Worker.step w s).plan.opsCount = s.plan.opsCount ∧
      (Worker.step w s).plan.closed = s.plan.closed ∧
      ((Worker.step w s).workers w).pc = nextPC s.plan.ops.length i ∧
      (Worker.step w s).calls = s.calls ++ [{ worker := w, op := i, measure := false }] := by
  simp [Worker.step, hpc, hop, hfalse]

/-- A worker about to invoke the only operation of a plan, whose callback
always fails. -/
theorem Worker.step_call_false_witness :
    ((Worker.step 0 (exec [.work 0, .work 0]
        (RunState.init (Plan.ofList 0 0 [("a", alwaysFalse Unit 5)]) 1 ()))).workers 0).histograms =
        ((exec [.work 0, .work 0]
          (RunState.init (Plan.ofList 0 0 [("a", alwaysFalse Unit 5)]) 1 ())).workers 0).histograms ∧
      (Worker.step 0 (exec [.work 0, .work 0]
        (RunState.init (Plan.ofList 0 0 [("a", alwaysFalse Unit 5)]) 1 ()))).plan.counters =
        (exec [.work 0, .work 0]
          (RunState.init (Plan.ofList 0 0 [("a", alwaysFalse Unit 5)]) 1 ())).plan.counters ∧
      (Worker.step 0 (exec [.work 0, .work 0]
        (RunState.init (Plan.ofList 0 0 [("a", alwaysFalse Unit 5)]) 1 ()))).plan.histograms =
        (exec [.work 0, .work 0]
          (RunState.init (Plan.ofList 0 0 [("a", alwaysFalse Unit 5)]) 1 ())).plan.histograms ∧
      (Worker.step 0 (exec [.work 0, .work 0]
        (RunState.init (Plan.ofList 0 0 [("a", alwaysFalse Unit 5)]) 1 ()))).plan.opsCount =
        (exec [.work 0, .work 0]
          (RunState.init (Plan.ofList 0 0 [("a", alwaysFalse Unit 5)]) 1 ())).plan.opsCount ∧
      (Worker.step 0 (exec [.work 0, .work 0]
        (RunState.init (Plan.ofList 0 0 [("a", alwaysFalse Unit 5)]) 1 ()))).plan.closed =
        (exec [.work 0, .work 0]
          (RunState.init (Plan.ofList 0 0 [("a", alwaysFalse Unit 5)]) 1 ())).plan.closed ∧
      ((Worker.step 0 (exec [.work 0, .work 0]
        (RunState.init (Plan.ofList 0 0 [("a", alwaysFalse Unit 5)]) 1 ()))).workers 0).pc =
        nextPC (exec [.work 0, .work 0]
          (RunState.init (Plan.ofList 0 0 [("a", alwaysFalse Unit 5)]) 1 ())).plan.ops.length 0 ∧
      (Worker.step 0 (exec [.work 0, .work 0]
        (RunState.init (Plan.ofList 0 0 [("a", alwaysFalse Unit 5)]) 1 ()))).calls =
        (exec [.work 0, .work 0]
          (RunState.init (Plan.ofList 0 0 [("a", alwaysFalse Unit 5)]) 1 ())).calls ++
          [{ worker := 0, op := 0, measure := false }] :=
  Worker.step_call_false
    (exec [.work 0, .work 0] (RunState.init (Plan.ofList 0 0 [("a", alwaysFalse Unit 5)]) 1 ()))
    0 0 { counter := 0, histogram := 0, name := "a", doFunc := alwaysFalse Unit 5 }
    rfl rfl rfl

/-- C4, the failing input: with ceiling 1 and one worker whose callback
always succeeds, `Run` returns after two successful operations, so the
final count 2 is not below ceiling plus workers. -/
theorem Plan.Run_single_worker_overshoot :
    ∃ r : RunResult Unit,
      Plan.Run (Plan.ofList 1 0 [("op", alwaysTrue Unit 0)]) 1 ()
          (List.replicate 8 (.work 0)) (fun _ => [0]) = some r ∧
        r.plan.opsCount = 2 ∧
        successes r.plan.ops "op" r.calls = 2 ∧
        ¬ (r.plan.opsCount < 1 + 1) := by
  refine ⟨_, rfl, ?_, ?_, ?_⟩ <;> decide

/-- C6 fails as stated: for a list with two entries of one name, `Run`
returns two results, both under that name, although there is one distinct
name. -/
theorem Plan.Run_duplicate_name_results :
    ∃ r : RunResult Unit,
      Plan.Run (Plan.ofList 0 0 [("a", alwaysTrue Unit 0), ("a", alwaysTrue Unit 0)]) 1 ()
          [.stop, .work 0, .work 0] (fun _ => [0]) = some r ∧
        r.results = [{ Name := "a", Histogram := 0 }, { Name := "a", Histogram := 1 }] ∧
        r.results.length ≠ (["a", "a"].dedup).length := by
  refine ⟨_, rfl, ?_, ?_⟩ <;> decide

end plan

end Mpjbt

namespace Mpjbt

namespace plan

/-! ### The first entry of a name -/

theorem firstIndex_le_length {W : Type} (l : List (operation W)) (nm : String) :
    firstIndex l nm ≤ l.length :=
  List.findIdx_le_length _

theorem firstIndex_append_singleton {W : Type} (l : List (operation W)) (op : operation W)
    (nm : String) :
    firstIndex (l ++ [op]) nm =
      if firstIndex l nm < l.length then firstIndex l nm
      else if op.name = nm then l.length else l.length + 1 := by
  unfold firstIndex
  rw [List.findIdx_append]
  split
  · rfl
  · by_cases h : op.name = nm
    · simp [List.findIdx_cons, h]
    · simp [List.findIdx_cons, h, Nat.add_comm]

theorem firstIndex_le_of_getElem? {W : Type} (l : List (operation W)) (i : Nat)
    (op : operation W) (h : l[i]? = some op) : firstIndex l op.name ≤ i := by
  have hi : i < l.length := by
    rcases Nat.lt_or_ge i l.length with hlt | hge
    · exact hlt
    · rw [List.getElem?_eq_none hge] at h; cases h
  rw [List.getElem?_eq_getElem hi] at h
  simp only [Option.some.injEq] at h
  by_contra hcon
  have hlt : i < firstIndex l op.name := by omega
  have := List.not_of_lt_findIdx (p := fun o : operation W => decide (o.name = op.name)) hlt
  simp [h] at this

theorem firstIndex_getElem? {W : Type} (l : List (operation W)) (nm : String)
    (h : firstIndex l nm < l.length) :
    ∃ op, l[firstIndex l nm]? = some op ∧ op.name = nm := by
  refine ⟨l[firstIndex l nm], List.getElem?_eq_getElem h, ?_⟩
  have := List.findIdx_getElem (p := fun o : operation W => decide (o.name = nm)) (w := h)
  simpa using this

theorem lt_length_of_getElem? {α : Type} (l : List α) (i : Nat) (x : α)
    (h : l[i]? = some x) : i < l.length := by
  rcases Nat.lt_or_ge i l.length with hlt | hge
  · exact hlt
  · rw [List.getElem?_eq_none hge] at h; cases h

/-! ### The loop that builds a worker's maps -/

/-- What the loop over the list leaves: a new child for the first entry of
every name, no child under any other key, and one more expected child in
the histogram of the first entry of every name. -/
theorem foldl_split_spec {W : Type} (l : List (operation W)) (wk0 : Worker)
    (hs0 : Nat → dstats.Histogram)
    (h0 : ∀ nm, wk0.histograms nm = none) :
    (∀ a, a < l.length → (hs0 a).closed = false) →
    (∀ (i : Nat) (op : operation W), l[i]? = some op → op.histogram = i) →
    (∀ nm, firstIndex l nm < l.length →
        (l.foldl Worker.split (wk0, hs0)).1.histograms nm =
          some { hist := stats.NewHistogram (hs0 (firstIndex l nm)).hist.opts
                 once := false
                 parent := (hs0 (firstIndex l nm)).children.id }) ∧
      (∀ nm, firstIndex l nm = l.length →
        (l.foldl Worker.split (wk0, hs0)).1.histograms nm = none) ∧
      (∀ a, (l.foldl Worker.split (wk0, hs0)).2 a =
        if ∃ op, l[a]? = some op ∧ firstIndex l op.name = a then
          { hs0 a with count := ((hs0 a).count + 1) % uint64Size }
        else hs0 a) := by
  induction l using List.reverseRecOn with
  | nil =>
    intro _ _
    refine ⟨?_, ?_, ?_⟩
    · intro nm h; simp at h
    · intro nm _; exact h0 nm
    · intro a; simp
  | append_singleton l op ih =>
    intro hcl hptr
    have hcl' : ∀ a, a < l.length → (hs0 a).closed = false :=
      fun a ha => hcl a (by simp; omega)
    have hptr' : ∀ (i : Nat) (o : operation W), l[i]? = some o → o.histogram = i := by
      intro i o ho
      apply hptr i o
      rw [List.getElem?_append_left (lt_length_of_getElem? l i o ho)]
      exact ho
    obtain ⟨ih1, ih2, ih3⟩ := ih hcl' hptr'
    have hop : op.histogram = l.length := by
      apply hptr l.length op
      rw [List.getElem?_append_right (Nat.le_refl _)]
      simp
    have hcond : ∀ a, a ≠ l.length →
        ((∃ o, (l ++ [op])[a]? = some o ∧ firstIndex (l ++ [op]) o.name = a) ↔
          (∃ o, l[a]? = some o ∧ firstIndex l o.name = a)) := by
      intro a ha
      constructor
      · rintro ⟨o, ho, hf⟩
        have hlt := lt_length_of_getElem? _ a o ho
        simp only [List.length_append, List.length_singleton] at hlt
        have ha' : a < l.length := by omega
        rw [List.getElem?_append_left ha'] at ho
        refine ⟨o, ho, ?_⟩
        rw [firstIndex_append_singleton] at hf
        have := firstIndex_le_of_getElem? l a o ho
        have h1 : firstIndex l o.name < l.length := by omega
        simpa [h1] using hf
      · rintro ⟨o, ho, hf⟩
        have ha' := lt_length_of_getElem? _ a o ho
        refine ⟨o, ?_, ?_⟩
        · rw [List.getElem?_append_left ha']; exact ho
        · rw [firstIndex_append_singleton]
          have h1 : firstIndex l o.name < l.length := by omega
          simpa [h1] using hf
    rw [List.foldl_append, List.foldl_cons, List.foldl_nil]
    rcases Nat.lt_or_ge (firstIndex l op.name) l.length with hseen | hnew
    · -- the name has been seen: nothing changes
      have hsome : ((l.foldl Worker.split (wk0, hs0)).1.histograms op.name).isSome = true := by
        rw [ih1 op.name hseen]; rfl
      have hstep : Worker.split (l.foldl Worker.split (wk0, hs0)) op =
          l.foldl Worker.split (wk0, hs0) := by
        simp [Worker.split, hsome]
      rw [hstep]
      refine ⟨?_, ?_, ?_⟩
      · intro nm hnm
        rw [firstIndex_append_singleton] at hnm ⊢
        by_cases h1 : firstIndex l nm < l.length
        · simp only [h1, if_true] at hnm ⊢
          exact ih1 nm h1
        · exfalso
          simp only [h1, if_false, List.length_append, List.length_singleton] at hnm
          by_cases h2 : op.name = nm
          · subst h2; exact h1 hseen
          · simp [h2] at hnm
      · intro nm hnm
        rw [firstIndex_append_singleton] at hnm
        simp only [List.length_append, List.length_singleton] at hnm
        by_cases h1 : firstIndex l nm < l.length
        · simp only [h1, if_true] at hnm; omega
        · exact ih2 nm (by have := firstIndex_le_length l nm; omega)
      · intro a
        rw [ih3 a]
        by_cases ha : a = l.length
        · subst ha
          have hf1 : ¬ ∃ o, l[l.length]? = some o ∧ firstIndex l o.name = l.length := by
            rintro ⟨o, ho, _⟩
            have := lt_length_of_getElem? _ _ o ho
            omega
          have hf2 : ¬ ∃ o, (l ++ [op])[l.length]? = some o ∧
              firstIndex (l ++ [op]) o.name = l.length := by
            rintro ⟨o, ho, hf⟩
            rw [List.getElem?_append_right (Nat.le_refl _)] at ho
            simp only [Nat.sub_self, List.getElem?_cons_zero, Option.some.injEq] at ho
            subst ho
            rw [firstIndex_append_singleton] at hf
            simp only [hseen, if_true] at hf
            omega
          simp only [hf1, hf2, if_false]
        · simp only [hcond a ha]
    · -- a new name: a child is split from the entry's histogram
      have hfi : firstIndex l op.name = l.length := by
        have := firstIndex_le_length l op.name; omega
      have hnone : (l.foldl Worker.split (wk0, hs0)).1.histograms op.name = none :=
        ih2 op.name hfi
      have hheap : (l.foldl Worker.split (wk0, hs0)).2 l.length = hs0 l.length := by
        rw [ih3]
        have hf1 : ¬ ∃ o, l[l.length]? = some o ∧ firstIndex l o.name = l.length := by
          rintro ⟨o, ho, _⟩
          have := lt_length_of_getElem? _ _ o ho
          omega
        simp only [hf1, if_false]
      have hclosed : (hs0 l.length).closed = false := hcl l.length (by simp)
      refine ⟨?_, ?_, ?_⟩
      · intro nm hnm
        rw [firstIndex_append_singleton] at hnm ⊢
        by_cases h2 : op.name = nm
        · subst h2
          have h1 : ¬ firstIndex l op.name < l.length := by omega
          simp only [h1, if_false, if_true]
          simp [Worker.split, hnone, hop, hheap, dstats.Histogram.Split, hclosed,
            stats.Histogram.Opts]
        · by_cases h1 : firstIndex l nm < l.length
          · simp only [h1, if_true]
            simp only [Worker.split, hnone, Option.isSome_none, Bool.false_eq_true, if_false]
            rw [Function.update_noteq (Ne.symm h2)]
            exact ih1 nm h1
          · simp [h1, h2] at hnm
      · intro nm hnm
        rw [firstIndex_append_singleton] at hnm
        simp only [List.length_append, List.length_singleton] at hnm
        by_cases h1 : firstIndex l nm < l.length
        · simp only [h1, if_true] at hnm; omega
        · by_cases h2 : op.name = nm
          · simp [h1, h2] at hnm
          · simp only [Worker.split, hnone, Option.isSome_none, Bool.false_eq_true, if_false]
            rw [Function.update_noteq (Ne.symm h2)]
            exact ih2 nm (by have := firstIndex_le_length l nm; omega)
      · intro a
        simp only [Worker.split, hnone, Option.isSome_none, Bool.false_eq_true, if_false, hop,
          hheap]
        by_cases ha : a = l.length
        · subst ha
          have hf2 : ∃ o, (l ++ [op])[l.length]? = some o ∧
              firstIndex (l ++ [op]) o.name = l.length := by
            refine ⟨op, ?_, ?_⟩
            · rw [List.getElem?_append_right (Nat.le_refl _)]; simp
            · rw [firstIndex_append_singleton]
              have h1 : ¬ firstIndex l op.name < l.length := by omega
              simp [h1]
          rw [Function.update_same, if_pos hf2]
          simp [dstats.Histogram.Split, hclosed]
        · rw [Function.update_noteq ha, ih3 a]
          simp only [hcond a ha]

end plan

end Mpjbt

namespace Mpjbt

namespace plan

/-! ### The invariant of a run -/

theorem countP_range_congr (f g : Nat → Bool) (n : Nat) (h : ∀ v, v < n → g v = f v) :
    (List.range n).countP g = (List.range n).countP f := by
  apply List.countP_congr
  intro v hv
  rw [h v (List.mem_range.mp hv)]

theorem countP_range_flip (f g : Nat → Bool) (n w : Nat) (hw : w < n) (hfw : f w = false)
    (hgw : g w = true) (hne : ∀ v, v ≠ w → g v = f v) :
    (List.range n).countP g = (List.range n).countP f + 1 := by
  induction n with
  | zero => omega
  | succ n ih =>
    rw [List.range_succ, List.countP_append, List.countP_append]
    by_cases hwn : w = n
    · subst hwn
      rw [countP_range_congr f g w (fun v hv => hne v (by omega))]
      simp [List.countP_cons, hfw, hgw]
    · have hw' : w < n := by omega
      rw [ih hw']
      have : g n = f n := hne n (fun h => hwn h.symm)
      simp [List.countP_cons, this]
      omega

theorem RunState.started_le {W : Type} (s : RunState W) : s.started ≤ s.numWorkers := by
  unfold RunState.started
  calc (List.range s.numWorkers).countP _ ≤ (List.range s.numWorkers).length :=
        List.countP_le_length _
    _ = s.numWorkers := List.length_range _

/-- A change of state that keeps the list, the histograms, the recorded
calls, every worker's children and which workers have built their maps,
keeps the invariant. -/
theorem RunState.Inv.frame {W : Type} {ops : List (operation W)} {n : Nat}
    {s s' : RunState W} (h : RunState.Inv ops n s)
    (hops : s'.plan.ops = s.plan.ops) (hnw : s'.numWorkers = s.numWorkers)
    (hcalls : s'.calls = s.calls) (hheap : s'.plan.histograms = s.plan.histograms)
    (hhist : ∀ v, (s'.workers v).histograms = (s.workers v).histograms)
    (hpc : ∀ v, (s'.workers v).pc = .start ↔ (s.workers v).pc = .start) :
    RunState.Inv ops n s' := by
  have hstarted : s'.started = s.started := by
    unfold RunState.started
    rw [hnw]
    apply countP_range_congr
    intro v _
    have := hpc v
    by_cases hv : (s.workers v).pc = .start
    · simp [hv, this.mpr hv]
    · have hv' : (s'.workers v).pc ≠ .start := fun e => hv (this.mp e)
      simp [hv, hv']
  refine ⟨hops.trans h.ops_eq, hnw.trans h.numWorkers_eq, ?_, ?_, ?_, ?_⟩
  · rw [hcalls]; exact h.calls_lt
  · intro a op hop
    rw [hheap, hstarted]
    exact h.heap a op hop
  · intro w hw
    rw [hhist w, hcalls]
    exact h.idle w ((hpc w).mp hw)
  · intro w hw i op hop
    rw [hhist w, hcalls]
    exact h.running w (fun e => hw ((hpc w).mpr e)) i op hop

theorem successesOf_append {W : Type} (ops : List (operation W)) (w : Nat) (nm : String)
    (calls : List Call) (c : Call) :
    successesOf ops w nm (calls ++ [c]) =
      successesOf ops w nm calls +
        if c.worker = w ∧ c.measure = true ∧ nameAt ops c.op = some nm then 1 else 0 := by
  unfold successesOf
  rw [List.countP_append]
  congr 1
  by_cases h : c.worker = w ∧ c.measure = true ∧ nameAt ops c.op = some nm
  · simp [List.countP_cons, h]
  · rw [if_neg h]
    simp only [List.countP_cons, List.countP_nil, Nat.zero_add]
    rw [if_neg]
    simpa [and_assoc] using h

theorem update_pc_histograms (ws : Nat → Worker) (w : Nat) (pc : PC) (v : Nat) :
    (Function.update ws w { ws w with pc := pc } v).histograms = (ws v).histograms := by
  by_cases hv : v = w
  · subst hv; simp
  · rw [Function.update_noteq hv]

theorem update_pc_start (ws : Nat → Worker) (w : Nat) (pc : PC) (v : Nat)
    (hw : (ws w).pc ≠ .start) (hpc : pc ≠ .start) :
    (Function.update ws w { ws w with pc := pc } v).pc = .start ↔ (ws v).pc = .start := by
  by_cases hv : v = w
  · subst hv; simp [hw, hpc]
  · rw [Function.update_noteq hv]

/-- Moving a worker that has built its maps to another position of the loop
keeps the invariant, whatever happens to the counters, the count of
successes and the stop flag. -/
theorem RunState.Inv.move {W : Type} {ops : List (operation W)} {n : Nat}
    {s : RunState W} (h : RunState.Inv ops n s) (w : Nat) (pc : PC) (p : Plan W)
    (hw : (s.workers w).pc ≠ .start) (hpc : pc ≠ .start)
    (hops : p.ops = s.plan.ops) (hheap : p.histograms = s.plan.histograms) :
    RunState.Inv ops n
      { s with plan := p, workers := Function.update s.workers w { s.workers w with pc := pc } } :=
  h.frame hops rfl rfl hheap (fun v => update_pc_histograms _ _ _ v)
    (fun v => update_pc_start _ _ _ v hw hpc)

theorem nextPC_ne_start (n i : Nat) : nextPC n i ≠ .start := by
  unfold nextPC; split <;> simp

theorem nameAt_of_getElem? {W : Type} (ops : List (operation W)) (i : Nat) (op : operation W)
    (h : ops[i]? = some op) : nameAt ops i = some op.name := by
  simp [nameAt, h]

/-- A recorded call by a worker that has built its maps keeps the
invariant, when the child under the called name counts the call if and only
if it succeeded and the other children are unchanged. -/
theorem RunState.Inv.call {W : Type} {ops : List (operation W)} {n : Nat}
    {s s' : RunState W} (h : RunState.Inv ops n s) (w i : Nat) (op : operation W) (m : Bool)
    (hwn : w < n) (hw : (s.workers w).pc ≠ .start) (hop : ops[i]? = some op)
    (hops : s'.plan.ops = s.plan.ops) (hnw : s'.numWorkers = s.numWorkers)
    (hcalls : s'.calls = s.calls ++ [{ worker := w, op := i, measure := m }])
    (hheap : s'.plan.histograms = s.plan.histograms)
    (hother : ∀ v, v ≠ w → s'.workers v = s.workers v)
    (hpc : (s'.workers w).pc ≠ .start)
    (hchild : ∀ nm c, (s.workers w).histograms nm = some c →
      ∃ c', (s'.workers w).histograms nm = some c' ∧ c'.once = c.once ∧
        c'.parent = c.parent ∧
        c'.hist.Count = c.hist.Count + if m = true ∧ op.name = nm then 1 else 0) :
    RunState.Inv ops n s' := by
  have hstart : ∀ v, (s'.workers v).pc = .start ↔ (s.workers v).pc = .start := by
    intro v
    by_cases hv : v = w
    · subst hv; simp [hw, hpc]
    · rw [hother v hv]
  have hstarted : s'.started = s.started := by
    unfold RunState.started
    rw [hnw]
    apply countP_range_congr
    intro v _
    have := hstart v
    by_cases hv : (s.workers v).pc = .start
    · simp [hv, this.mpr hv]
    · have hv' : (s'.workers v).pc ≠ .start := fun e => hv (this.mp e)
      simp [hv, hv']
  refine ⟨hops.trans h.ops_eq, hnw.trans h.numWorkers_eq, ?_, ?_, ?_, ?_⟩
  · intro c hc
    rw [hcalls, List.mem_append] at hc
    rcases hc with hc | hc
    · exact h.calls_lt c hc
    · simp only [List.mem_singleton] at hc
      subst hc; exact hwn
  · intro a o ho
    rw [hheap, hstarted]
    exact h.heap a o ho
  · intro v hv
    have hvs := (hstart v).mp hv
    have hvw : v ≠ w := fun e => hw (e ▸ hvs)
    rw [hother v hvw, hcalls]
    refine ⟨(h.idle v hvs).1, ?_⟩
    intro nm
    rw [successesOf_append, (h.idle v hvs).2 nm]
    simp [Ne.symm hvw]
  · intro v hv j o ho
    have hvs : (s.workers v).pc ≠ .start := fun e => hv ((hstart v).mpr e)
    obtain ⟨c, hc, honce, hpar, hcount⟩ := h.running v hvs j o ho
    by_cases hvw : v = w
    · subst hvw
      obtain ⟨c', hc', honce', hpar', hcount'⟩ := hchild o.name c hc
      refine ⟨c', hc', honce'.trans honce, hpar'.trans hpar, ?_⟩
      rw [hcount', hcount, hcalls, successesOf_append, nameAt_of_getElem? ops i op hop]
      simp
    · rw [hother v hvw]
      refine ⟨c, hc, honce, hpar, ?_⟩
      rw [hcount, hcalls, successesOf_append]
      simp [Ne.symm hvw]

/-- The step in which a worker builds its maps keeps the invariant. -/
theorem RunState.Inv.start {W : Type} {ops : List (operation W)} {n : Nat}
    {s : RunState W} (h : RunState.Inv ops n s) (w : Nat)
    (hn : n < uint64Size)
    (hptr : ∀ (i : Nat) (op : operation W), ops[i]? = some op → op.histogram = i)
    (hwn : w < n) (hw : (s.workers w).pc = .start) :
    RunState.Inv ops n
      { s with
        plan := { s.plan with
          histograms := (s.plan.ops.foldl Worker.split (s.workers w, s.plan.histograms)).2 }
        workers := Function.update s.workers w
          { (s.plan.ops.foldl Worker.split (s.workers w, s.plan.histograms)).1 with
            pc := .top } } := by
  have hclosed : ∀ a, a < ops.length → (s.plan.histograms a).closed = false := by
    intro a ha
    exact (h.heap a ops[a] (List.getElem?_eq_getElem ha)).2.1
  obtain ⟨f1, -, f3⟩ := foldl_split_spec ops (s.workers w) s.plan.histograms
    (h.idle w hw).1 hclosed hptr
  rw [h.ops_eq]
  have hstarted :
      RunState.started
        { s with
          plan := { s.plan with
            histograms := (ops.foldl Worker.split (s.workers w, s.plan.histograms)).2 }
          workers := Function.update s.workers w
            { (ops.foldl Worker.split (s.workers w, s.plan.histograms)).1 with pc := .top } } =
        s.started + 1 := by
    unfold RunState.started
    simp only
    apply countP_range_flip _ _ _ w (by rw [h.numWorkers_eq]; exact hwn)
    · simp [hw]
    · simp
    · intro v hv
      simp only [Function.update_noteq hv]
  have hle : s.started + 1 ≤ n := by
    rw [← hstarted, ← h.numWorkers_eq]
    exact RunState.started_le _
  refine ⟨h.ops_eq, h.numWorkers_eq, h.calls_lt, ?_, ?_, ?_⟩
  · intro a op hop
    rw [hstarted]
    obtain ⟨h1, h2, h3, h4, h5, h6⟩ := h.heap a op hop
    simp only
    rw [f3 a]
    by_cases hfirst : firstIndex ops op.name = a
    · have hex : ∃ o, ops[a]? = some o ∧ firstIndex ops o.name = a := ⟨op, hop, hfirst⟩
      rw [if_pos hex]
      simp only [h1, h2, h3, h4, h5, h6, hfirst, if_true, true_and]
      exact Nat.mod_eq_of_lt (by omega)
    · have hex : ¬ ∃ o, ops[a]? = some o ∧ firstIndex ops o.name = a := by
        rintro ⟨o, ho, hf⟩
        rw [hop] at ho
        simp only [Option.some.injEq] at ho
        subst ho
        exact hfirst hf
      rw [if_neg hex]
      simp only [h1, h2, h3, h4, h5, h6, hfirst, if_false, true_and]
  · intro v hv
    have hvw : v ≠ w := by
      intro e
      subst e
      simp at hv
    simp only [Function.update_noteq hvw] at hv ⊢
    exact h.idle v hv
  · intro v hv i op hop
    by_cases hvw : v = w
    · subst hvw
      simp only [Function.update_same]
      have hi := lt_length_of_getElem? ops i op hop
      have hfi : firstIndex ops op.name < ops.length :=
        Nat.lt_of_le_of_lt (firstIndex_le_of_getElem? ops i op hop) hi
      obtain ⟨o, ho, -⟩ := firstIndex_getElem? ops op.name hfi
      refine ⟨_, f1 op.name hfi, rfl, (h.heap _ o ho).2.2.2.1, ?_⟩
      rw [(h.idle v hw).2 op.name]
      rfl
    · simp only [Function.update_noteq hvw] at hv ⊢
      exact h.running v hv i op hop

/-- Every event of a run keeps the invariant. -/
theorem RunState.Inv.step {W : Type} {ops : List (operation W)} {n : Nat}
    {s : RunState W} (h : RunState.Inv ops n s) (hn : n < uint64Size)
    (hptr : ∀ (i : Nat) (op : operation W), ops[i]? = some op → op.histogram = i)
    (e : Event) : RunState.Inv ops n (plan.step s e) := by
  cases e with
  | stop => exact h.frame rfl rfl rfl rfl (fun _ => rfl) (fun _ => Iff.rfl)
  | tick =>
    unfold plan.step
    simp only
    split
    · exact h
    · exact h.frame rfl rfl rfl rfl (fun _ => rfl) (fun _ => Iff.rfl)
  | work w =>
    unfold plan.step
    simp only
    split
    case isFalse => exact h
    case isTrue hwn =>
      rw [h.numWorkers_eq] at hwn
      unfold Worker.step
      simp only
      cases hpc : (s.workers w).pc with
      | start => exact h.start w hn hptr hwn hpc
      | top =>
        have hw : (s.workers w).pc ≠ .start := by rw [hpc]; simp
        simp only
        split
        · exact h.move w .done s.plan hw (by simp) rfl rfl
        · exact h.move w _ s.plan hw (by split <;> simp) rfl rfl
      | done => exact h
      | check i =>
        have hw : (s.workers w).pc ≠ .start := by rw [hpc]; simp
        simp only
        split
        · exact h.move w .done s.plan hw (by simp) rfl rfl
        · exact h.move w _ s.plan hw (nextPC_ne_start _ _) rfl rfl
      | count i =>
        have hw : (s.workers w).pc ≠ .start := by rw [hpc]; simp
        simp only
        split
        · exact h.move w _ s.plan hw (by simp) rfl rfl
        · split
          · exact h.move w .done _ hw (by simp) rfl rfl
          · exact h.move w (.check i) _ hw (by simp) rfl rfl
      | call i =>
        have hw : (s.workers w).pc ≠ .start := by rw [hpc]; simp
        simp only
        cases hop : s.plan.ops[i]? with
        | none => exact h
        | some op =>
          simp only
          have hop' : ops[i]? = some op := by rw [← h.ops_eq]; exact hop
          obtain ⟨c, hc, -, -, -⟩ := h.running w hw i op hop'
          split
          case isTrue hm =>
            refine h.call w i op _ hwn hw hop' rfl rfl rfl rfl ?_ ?_ ?_
            · intro v hv; simp [Function.update_noteq hv]
            · simp only [Function.update_same]; exact nextPC_ne_start _ _
            · intro nm c0 hc0
              refine ⟨c0, ?_, rfl, rfl, ?_⟩
              · simpa using hc0
              · simp [hm]
          case isFalse hm =>
            have hm' : (op.doFunc w s.world).1.measure = true := by
              simpa using hm
            refine h.call w i op _ hwn hw hop' rfl rfl rfl rfl ?_ ?_ ?_
            · intro v hv; simp [Function.update_noteq hv]
            · simp
            · intro nm c0 hc0
              simp only [Function.update_same, hc]
              by_cases hnm : op.name = nm
              · subst hnm
                rw [hc] at hc0
                simp only [Option.some.injEq] at hc0
                subst hc0
                refine ⟨_, Function.update_same _ _ _, rfl, rfl, ?_⟩
                simp [hm', stats.Histogram.Add]
              · refine ⟨c0, ?_, rfl, rfl, ?_⟩
                · rw [Function.update_noteq (Ne.symm hnm)]; exact hc0
                · simp [hnm]

/-- The state in which the workers have just been started satisfies the
invariant. -/
theorem RunState.Inv.init {W : Type} (opsMax paddingSize : Nat)
    (defs : List (String × DoFunc W)) (n : Nat) (world : W) :
    RunState.Inv (Plan.ofList opsMax paddingSize defs).ops n
      (RunState.init (Plan.ofList opsMax paddingSize defs) n world) := by
  obtain ⟨hlen, -, hh, -, -, -, -⟩ := Plan.ofList_spec opsMax paddingSize defs
  have hstarted :
      (RunState.init (Plan.ofList opsMax paddingSize defs) n world).started = 0 := by
    simp [RunState.started, RunState.init]
  refine ⟨rfl, rfl, ?_, ?_, ?_, ?_⟩
  · intro c hc; simp [RunState.init] at hc
  · intro a op hop
    have ha := lt_length_of_getElem? _ a op hop
    rw [hstarted]
    simp only [RunState.init]
    rw [hh a (by omega)]
    simp [dstats.NewHistogram, stats.NewHistogram]
  · intro w _
    exact ⟨fun _ => rfl, fun _ => rfl⟩
  · intro w hw
    simp [RunState.init] at hw

/-- Every state of a run satisfies the invariant. -/
theorem RunState.Inv.exec {W : Type} {ops : List (operation W)} {n : Nat}
    (hn : n < uint64Size)
    (hptr : ∀ (i : Nat) (op : operation W), ops[i]? = some op → op.histogram = i)
    (sched : List Event) :
    ∀ s : RunState W, RunState.Inv ops n s → RunState.Inv ops n (plan.exec sched s) := by
  induction sched with
  | nil => intro s h; exact h
  | cons e sched ih =>
    intro s h
    exact ih _ (h.step hn hptr e)

end plan

end Mpjbt

namespace Mpjbt

namespace plan

/-! ### The merges of `Run` -/

theorem sum_range_ite (n k : Nat) (hk : k < n) :
    ((List.range n).map (fun w => if k = w then 1 else 0)).sum = 1 := by
  induction n with
  | zero => omega
  | succ n ih =>
    rw [List.sum_range_succ]
    by_cases hkn : k = n
    · subst hkn
      have : ((List.range k).map (fun w => if k = w then 1 else 0)).sum = 0 := by
        apply List.sum_eq_zero
        intro x hx
        simp only [List.mem_map, List.mem_range] at hx
        obtain ⟨w, hw, rfl⟩ := hx
        have : k ≠ w := by omega
        simp [this]
      simp [this]
    · rw [ih (by omega)]
      simp [hkn]

/-- The successes under a name are the sum over the workers of each
worker's successes under it. -/
theorem sum_successesOf {W : Type} (ops : List (operation W)) (n : Nat) (nm : String)
    (calls : List Call) (hlt : ∀ c ∈ calls, c.worker < n) :
    ((List.range n).map (fun w => successesOf ops w nm calls)).sum =
      successes ops nm calls := by
  induction calls with
  | nil =>
    apply List.sum_eq_zero
    intro x hx
    simp only [List.mem_map] at hx
    obtain ⟨w, _, rfl⟩ := hx
    rfl
  | cons c calls ih =>
    have hc : c.worker < n := hlt c (List.mem_cons_self _ _)
    have ih' := ih (fun c' hc' => hlt c' (List.mem_cons_of_mem _ hc'))
    have hstep : ∀ w, successesOf ops w nm (c :: calls) =
        successesOf ops w nm calls +
          (if c.measure = true ∧ nameAt ops c.op = some nm then
            (if c.worker = w then 1 else 0) else 0) := by
      intro w
      unfold successesOf
      rw [List.countP_cons]
      congr 1
      by_cases h1 : c.worker = w <;> by_cases h2 : c.measure = true <;>
        by_cases h3 : nameAt ops c.op = some nm <;> simp [h1, h2, h3]
    simp only [hstep]
    rw [List.sum_map_add, ih']
    unfold successes
    rw [List.countP_cons]
    congr 1
    by_cases h : c.measure = true ∧ nameAt ops c.op = some nm
    · simp only [h, and_self, if_true]
      rw [sum_range_ite n c.worker hc]
      simp [h.1, h.2]
    · rw [if_neg]
      · simp only [h, if_false]
        apply List.sum_eq_zero
        intro x hx
        simp only [List.mem_map] at hx
        obtain ⟨w, _, rfl⟩ := hx
        rfl
      · simpa using h

/-- One more worker making its `Done` call for the name of the entry about
to be merged. -/
theorem DoneInv.doneFor {W : Type} {ops : List (operation W)} {n : Nat} {calls : List Call}
    {i : Nat} {op : operation W} {done : List Nat} {ws : Nat → Worker}
    {hs : Nat → dstats.Histogram}
    (h : DoneInv ops n calls i op.name done ws hs) (hop : ops[i]? = some op)
    (w : Nat) (hwn : w < n) (hw : w ∉ done) :
    DoneInv ops n calls i op.name (done ++ [w])
      (plan.doneFor op.name (ws, hs) w).1 (plan.doneFor op.name (ws, hs) w).2 := by
  obtain ⟨c, hc, hpar, hcount, honce⟩ := h.children w hwn i op hop
  have hle := firstIndex_le_of_getElem? ops i op hop
  have honce' : c.once = true ↔ firstIndex ops op.name < i := by
    rw [honce]
    constructor
    · rintro (h1 | ⟨_, h2⟩)
      · exact h1
      · exact absurd h2 hw
    · intro h1; exact Or.inl h1
  by_cases hdone : c.once = true
  · -- the child has been offered before: nothing changes
    have hlt := honce'.mp hdone
    have hne : firstIndex ops op.name ≠ i := by omega
    have hws : ∀ v, ((plan.doneFor op.name (ws, hs) w).1 v).histograms = (ws v).histograms := by
      intro v
      simp only [plan.doneFor, hc, dstats.HistogramChild.Done, hdone, if_true]
      by_cases hv : v = w
      · subst hv
        simp only [Function.update_same]
        rw [← hc, Function.update_eq_self]
      · rw [Function.update_noteq hv]
    have hhs : ∀ a, (plan.doneFor op.name (ws, hs) w).2 a = hs a := by
      intro a
      simp only [plan.doneFor, hc, dstats.HistogramChild.Done, hdone, if_true]
      by_cases ha : a = c.parent
      · subst ha; simp
      · rw [Function.update_noteq ha]
    refine ⟨?_, ?_, ?_, ?_⟩
    · intro v hv j o ho
      obtain ⟨c0, hc0, hp0, hn0, ho0⟩ := h.children v hv j o ho
      refine ⟨c0, by rw [hws v]; exact hc0, hp0, hn0, ?_⟩
      rw [ho0]
      constructor
      · rintro (h1 | ⟨h2, h3⟩)
        · exact Or.inl h1
        · exact Or.inr ⟨h2, List.mem_append_left _ h3⟩
      · rintro (h1 | ⟨h2, _⟩)
        · exact Or.inl h1
        · left; rw [h2]; exact hlt
    · intro a o ho ha
      rw [hhs a]; exact h.later a o ho ha
    · rw [hhs i]
      have := h.current
      simpa [hne] using this
    · intro a o ho ha hf
      rw [hhs a]; exact h.merged a o ho ha hf
  · -- the child is offered on the channel of entry `i`
    have hfalse : c.once = false := by simpa using hdone
    have hfi : firstIndex ops op.name = i := by
      have : ¬ firstIndex ops op.name < i := fun e => hdone (honce'.mpr e)
      omega
    have hpar' : c.parent = i := hpar.trans hfi
    refine ⟨?_, ?_, ?_, ?_⟩
    · intro v hv j o ho
      obtain ⟨c0, hc0, hp0, hn0, ho0⟩ := h.children v hv j o ho
      simp only [plan.doneFor, hc, dstats.HistogramChild.Done, hfalse, Bool.false_eq_true,
        if_false]
      by_cases hvw : v = w
      · subst hvw
        simp only [Function.update_same]
        by_cases hnm : o.name = op.name
        · rw [hnm] at hc0 ⊢
          rw [hc] at hc0
          simp only [Option.some.injEq] at hc0
          subst hc0
          refine ⟨_, Function.update_same _ _ _, hpar, hcount, ?_⟩
          simp
        · refine ⟨c0, by rw [Function.update_noteq hnm]; exact hc0, hp0, hn0, ?_⟩
          rw [ho0]
          simp [hnm]
      · rw [Function.update_noteq hvw]
        refine ⟨c0, hc0, hp0, hn0, ?_⟩
        rw [ho0]
        simp [hvw]
    · intro a o ho ha
      simp only [plan.doneFor, hc, dstats.HistogramChild.Done, hfalse, Bool.false_eq_true,
        if_false, hpar']
      rw [Function.update_noteq (by omega)]
      exact h.later a o ho ha
    · obtain ⟨h1, h2, h3, h4, h5⟩ := h.current
      simp only [plan.doneFor, hc, dstats.HistogramChild.Done, hfalse, Bool.false_eq_true,
        if_false, hpar', Function.update_same]
      simp only [hfi, if_true] at h3 h4 h5 ⊢
      refine ⟨h1, h2, h3, ?_, ?_⟩
      · simp only [List.map_append, List.sum_append, List.map_cons, List.map_nil,
          List.sum_cons, List.sum_nil, h4, hcount, Nat.add_zero]
      · simp [h5]
    · intro a o ho ha hf
      simp only [plan.doneFor, hc, dstats.HistogramChild.Done, hfalse, Bool.false_eq_true,
        if_false, hpar']
      rw [Function.update_noteq (by omega)]
      exact h.merged a o ho ha hf

/-- The `Done` calls of a list of distinct workers. -/
theorem DoneInv.foldl {W : Type} {ops : List (operation W)} {n : Nat} {calls : List Call}
    {i : Nat} {op : operation W} (hop : ops[i]? = some op) (l : List Nat) :
    ∀ (done : List Nat) (ws : Nat → Worker) (hs : Nat → dstats.Histogram),
      DoneInv ops n calls i op.name done ws hs →
      (∀ w ∈ l, w < n) → (done ++ l).Nodup →
      DoneInv ops n calls i op.name (done ++ l)
        (l.foldl (plan.doneFor op.name) (ws, hs)).1
        (l.foldl (plan.doneFor op.name) (ws, hs)).2 := by
  induction l with
  | nil =>
    intro done ws hs h _ _
    simpa using h
  | cons w l ih =>
    intro done ws hs h hlt hnd
    have hw : w ∉ done := by
      intro hmem
      have := List.nodup_append.mp hnd
      exact this.2.2 hmem (List.mem_cons_self _ _)
    have hstep := h.doneFor hop w (hlt w (List.mem_cons_self _ _)) hw
    have hrec := ih (done ++ [w]) _ _ hstep
      (fun v hv => hlt v (List.mem_cons_of_mem _ hv))
      (by simpa [List.append_assoc] using hnd)
    simpa [List.append_assoc] using hrec

/-- The merges of `Run` do not block, and leave every first entry of a name
with all the successes under that name. -/
theorem MergeInv.mergeAll {W : Type} {ops : List (operation W)} {n : Nat}
    {calls : List Call} (arrival : Nat → List Nat)
    (harr : ∀ i, (arrival i).Perm (List.range n))
    (hcalls : ∀ c ∈ calls, c.worker < n)
    (hptr : ∀ (i : Nat) (op : operation W), ops[i]? = some op → op.histogram = i)
    (rest : List (operation W)) :
    ∀ (i : Nat) (ws : Nat → Worker) (hs : Nat → dstats.Histogram),
      (∀ (j : Nat) (o : operation W), rest[j]? = some o → ops[i + j]? = some o) →
      i + rest.length = ops.length →
      MergeInv ops n calls i ws hs →
      ∃ r, plan.mergeAll arrival rest i ws hs = some r ∧
        MergeInv ops n calls ops.length r.1 r.2 := by
  induction rest with
  | nil =>
    intro i ws hs _ hlen h
    simp only [List.length_nil, Nat.add_zero] at hlen
    subst hlen
    exact ⟨(ws, hs), rfl, h⟩
  | cons op rest ih =>
    intro i ws hs hrest hlen h
    have hop : ops[i]? = some op := by
      have := hrest 0 op (by simp)
      simpa using this
    have hle := firstIndex_le_of_getElem? ops i op hop
    have hmem : ∀ w, w < n → w ∈ arrival i := fun w hw =>
      (harr i).mem_iff.mpr (List.mem_range.mpr hw)
    have hlt : ∀ w ∈ arrival i, w < n := fun w hw =>
      List.mem_range.mp ((harr i).mem_iff.mp hw)
    have hnd : (arrival i).Nodup := (harr i).nodup_iff.mpr (List.nodup_range n)
    have h0 : DoneInv ops n calls i op.name [] ws hs := by
      obtain ⟨p1, p2, p3, p4⟩ := h.pending i op hop (Nat.le_refl _)
      refine ⟨?_, fun a o ho ha => h.pending a o ho (Nat.le_of_lt ha), ?_, h.merged⟩
      · intro w hw j o ho
        obtain ⟨c, hc, hp, hn', ho'⟩ := h.children w hw j o ho
        exact ⟨c, hc, hp, hn', by simpa using ho'⟩
      · refine ⟨p1, p3, p4, ?_, ?_⟩ <;> simp [p2]
    have hd := DoneInv.foldl hop (arrival i) [] ws hs h0 hlt (by simpa using hnd)
    simp only [List.nil_append] at hd
    obtain ⟨c1, c2, c3, c4, c5⟩ := hd.current
    have hq : (((arrival i).foldl (plan.doneFor op.name) (ws, hs)).2 i).children.queue.length =
        (((arrival i).foldl (plan.doneFor op.name) (ws, hs)).2 i).count := by
      rw [c5, c3, (harr i).length_eq, List.length_range]
    have hmerge := dstats.Histogram.Merge_eq _ c1 hq
    simp only [plan.mergeAll, hptr i op hop, hmerge]
    apply ih (i + 1)
    · intro j o ho
      have := hrest (j + 1) o (by simpa using ho)
      rw [show i + 1 + j = i + (j + 1) by omega]
      exact this
    · simp only [List.length_cons] at hlen; omega
    · refine ⟨?_, ?_, ?_⟩
      · intro w hw j o ho
        obtain ⟨c, hc, hp, hn', ho'⟩ := hd.children w hw j o ho
        refine ⟨c, hc, hp, hn', ?_⟩
        rw [ho']
        constructor
        · rintro (h1 | ⟨h2, _⟩)
          · omega
          · rw [h2]; omega
        · intro h1
          rcases Nat.lt_or_ge (firstIndex ops o.name) i with h2 | h2
          · exact Or.inl h2
          · right
            have hfi : firstIndex ops o.name = i := by omega
            have hi := lt_length_of_getElem? ops i op hop
            obtain ⟨o', ho1, ho2⟩ := firstIndex_getElem? ops o.name (by omega)
            rw [hfi, hop] at ho1
            simp only [Option.some.injEq] at ho1
            subst ho1
            exact ⟨ho2.symm, hmem w hw⟩
      · intro a o ho ha
        rw [Function.update_noteq (by omega)]
        exact hd.later a o ho (by omega)
      · intro a o ho ha hf
        by_cases hai : a = i
        · subst hai
          rw [hop] at ho
          simp only [Option.some.injEq] at ho
          subst ho
          rw [Function.update_same]
          simp only
          rw [stats.foldl_Merge_Count, c2, c4, if_pos hf, Nat.zero_add]
          rw [← sum_successesOf ops n op.name calls hcalls]
          exact ((harr a).map _).sum_eq
        · rw [Function.update_noteq hai]
          exact hd.merged a o ho (by omega) hf

/-- When every worker has returned, the state reached by a run is ready for
the merges. -/
theorem RunState.Inv.toMergeInv {W : Type} {ops : List (operation W)} {n : Nat}
    {s : RunState W} (h : RunState.Inv ops n s) (hdone : s.allDone = true) :
    MergeInv ops n s.calls 0 s.workers s.plan.histograms := by
  have hall : ∀ w, w < n → (s.workers w).pc = .done := by
    intro w hw
    have := List.all_eq_true.mp hdone w (List.mem_range.mpr (by rw [h.numWorkers_eq]; exact hw))
    simpa using this
  have hstarted : s.started = n := by
    unfold RunState.started
    rw [h.numWorkers_eq]
    have : (List.range n).countP (fun w => decide ((s.workers w).pc ≠ .start)) =
        (List.range n).length := by
      rw [List.countP_eq_length]
      intro w hw
      simp [hall w (List.mem_range.mp hw)]
    rw [this, List.length_range]
  refine ⟨?_, ?_, ?_⟩
  · intro w hw j o ho
    obtain ⟨c, hc, h1, h2, h3⟩ := h.running w (by rw [hall w hw]; simp) j o ho
    exact ⟨c, hc, h2, h3, by simp [h1]⟩
  · intro a o ho _
    obtain ⟨h1, -, h3, -, h5, h6⟩ := h.heap a o ho
    exact ⟨h1, h3, h5, by rw [h6, hstarted]⟩
  · intro a o _ ha
    omega

end plan

end Mpjbt

namespace Mpjbt

namespace plan

/-! ### What `Run` returns -/

theorem Plan.ofList_histogram_eq {W : Type} (opsMax paddingSize : Nat)
    (defs : List (String × DoFunc W)) (i : Nat) (op : operation W)
    (h : (Plan.ofList opsMax paddingSize defs).ops[i]? = some op) : op.histogram = i := by
  obtain ⟨-, hops, -, -, -, -, -⟩ := Plan.ofList_spec opsMax paddingSize defs
  rw [hops i] at h
  cases hd : defs[i]? with
  | none => rw [hd] at h; cases h
  | some d =>
    rw [hd] at h
    simp only [Option.map_some', Option.some.injEq] at h
    rw [← h]

/-- A run of a plan built by `New` and `Add`s whose workers have all
returned: `Run` returns, with one result per list entry, and the histogram
of the first entry of every name has counted the successes under that
name. -/
theorem Plan.Run_eq_some {W : Type} (opsMax paddingSize : Nat)
    (defs : List (String × DoFunc W)) (workers : Nat) (world : W) (sched : List Event)
    (arrival : Nat → List Nat) (hW : workers < uint64Size)
    (harr : ∀ i, (arrival i).Perm (List.range workers))
    (hdone : (plan.exec sched
      (RunState.init (Plan.ofList opsMax paddingSize defs) workers world)).allDone = true) :
    ∃ r : RunResult W,
      Plan.Run (Plan.ofList opsMax paddingSize defs) workers world sched arrival = some r ∧
        r.results = (Plan.ofList opsMax paddingSize defs).ops.map
          (fun op => { Name := op.name, Histogram := op.histogram }) ∧
        r.calls = (plan.exec sched
          (RunState.init (Plan.ofList opsMax paddingSize defs) workers world)).calls ∧
        r.plan.closed = true ∧
        ∀ (i : Nat) (op : operation W),
          (Plan.ofList opsMax paddingSize defs).ops[i]? = some op →
          firstIndex (Plan.ofList opsMax paddingSize defs).ops op.name = i →
          (r.plan.histograms i).hist.Count =
            successes (Plan.ofList opsMax paddingSize defs).ops op.name r.calls := by
  have hptr := Plan.ofList_histogram_eq opsMax paddingSize defs
  have hinv := RunState.Inv.exec hW hptr sched _
    (RunState.Inv.init opsMax paddingSize defs workers world)
  have hm := hinv.toMergeInv hdone
  obtain ⟨r, hr, hfin⟩ := MergeInv.mergeAll arrival harr hinv.calls_lt hptr
    (Plan.ofList opsMax paddingSize defs).ops 0 _ _
    (fun j o ho => by simpa using ho) (by simp) hm
  have hclosed : (Plan.ofList opsMax paddingSize defs).closed = false :=
    (Plan.ofList_spec opsMax paddingSize defs).2.2.2.2.1
  refine ⟨{ results := (Plan.ofList opsMax paddingSize defs).ops.map
              (fun op => { Name := op.name, Histogram := op.histogram })
            plan := ({ (plan.exec sched
              (RunState.init (Plan.ofList opsMax paddingSize defs) workers world)).plan with
              histograms := r.2 }).Stop
            world := (plan.exec sched
              (RunState.init (Plan.ofList opsMax paddingSize defs) workers world)).world
            calls := (plan.exec sched
              (RunState.init (Plan.ofList opsMax paddingSize defs) workers world)).calls },
    ?_, rfl, rfl, rfl, ?_⟩
  · simp only [Plan.Run, hclosed, Bool.false_eq_true, if_false, hdone, if_true,
      hinv.ops_eq, hr]
  · intro i op hop hf
    exact hfin.merged i op hop (lt_length_of_getElem? _ i op hop) hf

/-- C2: for a completed `Run` of a plan built by `New` and `Add`s, and for
each name of the list, the merged histogram returned for the first list
entry of that name has a total equal to the number of callback invocations
that returned true, over all the list entries of that name and all the
workers. -/
theorem Plan.Run_count_eq_successes {W : Type} (opsMax paddingSize : Nat)
    (defs : List (String × DoFunc W)) (workers : Nat) (world : W) (sched : List Event)
    (arrival : Nat → List Nat) (r : RunResult W) (hW : workers < uint64Size)
    (harr : ∀ i, (arrival i).Perm (List.range workers))
    (hrun : Plan.Run (Plan.ofList opsMax paddingSize defs) workers world sched arrival =
      some r) :
    ∀ (i : Nat) (op : operation W),
      (Plan.ofList opsMax paddingSize defs).ops[i]? = some op →
      firstIndex (Plan.ofList opsMax paddingSize defs).ops op.name = i →
      ∃ res : Result,
        r.results[i]? = some res ∧ res.Name = op.name ∧
          (r.plan.histograms res.Histogram).hist.Count =
            successes (Plan.ofList opsMax paddingSize defs).ops op.name r.calls := by
  have hclosed : (Plan.ofList opsMax paddingSize defs).closed = false :=
    (Plan.ofList_spec opsMax paddingSize defs).2.2.2.2.1
  have hdone : (plan.exec sched
      (RunState.init (Plan.ofList opsMax paddingSize defs) workers world)).allDone = true := by
    by_contra hcon
    simp [Plan.Run, hclosed, hcon] at hrun
  obtain ⟨r', hr', hres, -, -, hcount⟩ :=
    Plan.Run_eq_some opsMax paddingSize defs workers world sched arrival hW harr hdone
  rw [hrun] at hr'
  simp only [Option.some.injEq] at hr'
  subst hr'
  intro i op hop hf
  refine ⟨{ Name := op.name, Histogram := op.histogram }, ?_, rfl, ?_⟩
  · rw [hres, List.getElem?_map, hop]
    rfl
  · simp only [Plan.ofList_histogram_eq opsMax paddingSize defs i op hop]
    exact hcount i op hop hf

/-- A run of two workers over the list `a, a, b`, where `b` always fails,
stopped from outside. -/
theorem Plan.Run_count_eq_successes_witness :
    ∃ r : RunResult Unit,
      Plan.Run
          (Plan.ofList 0 0
            [("a", alwaysTrue Unit 0), ("a", alwaysTrue Unit 0), ("b", alwaysFalse Unit 0)])
          2 ()
          ([.work 0, .work 1, .work 0, .work 0, .work 0, .work 1, .work 1, .work 1, .work 1,
            .work 1, .stop] ++ List.replicate 10 (.work 0) ++ List.replicate 10 (.work 1))
          (fun _ => [1, 0]) = some r ∧
        ∀ (i : Nat) (op : operation Unit),
          (Plan.ofList 0 0
            [("a", alwaysTrue Unit 0), ("a", alwaysTrue Unit 0),
             ("b", alwaysFalse Unit 0)]).ops[i]? = some op →
          firstIndex (Plan.ofList 0 0
            [("a", alwaysTrue Unit 0), ("a", alwaysTrue Unit 0),
             ("b", alwaysFalse Unit 0)]).ops op.name = i →
          ∃ res : Result,
            r.results[i]? = some res ∧ res.Name = op.name ∧
              (r.plan.histograms res.Histogram).hist.Count =
                successes (Plan.ofList 0 0
                  [("a", alwaysTrue Unit 0), ("a", alwaysTrue Unit 0),
                   ("b", alwaysFalse Unit 0)]).ops op.name r.calls :=
  (Option.isSome_iff_exists.mp (by rfl)).elim fun r hr =>
    ⟨r, hr, Plan.Run_count_eq_successes 0 0 _ 2 () _ (fun _ => [1, 0]) r (by decide)
      (fun _ => List.Perm.swap 0 1 []) hr⟩

/-- C6 (amended): for every operation list, `Run` on a plan built by `New`
and `Add`s (hence not stopped), once all its workers have returned, returns
exactly one `Result` per list entry, in list order, the `i`-th one carrying
the name and the histogram of the `i`-th entry; so the names of the results
are the names given to `Add`, in order and with their repetitions. -/
theorem Plan.Run_one_result_per_entry {W : Type} (opsMax paddingSize : Nat)
    (defs : List (String × DoFunc W)) (workers : Nat) (world : W) (sched : List Event)
    (arrival : Nat → List Nat) (hW : workers < uint64Size)
    (harr : ∀ i, (arrival i).Perm (List.range workers))
    (hdone : (plan.exec sched
      (RunState.init (Plan.ofList opsMax paddingSize defs) workers world)).allDone = true) :
    ∃ r : RunResult W,
      Plan.Run (Plan.ofList opsMax paddingSize defs) workers world sched arrival = some r ∧
        r.results.length = defs.length ∧
        r.results.map (fun res => res.Name) = defs.map (fun d => d.1) ∧
        ∀ (i : Nat) (op : operation W),
          (Plan.ofList opsMax paddingSize defs).ops[i]? = some op →
          r.results[i]? = some { Name := op.name, Histogram := op.histogram } := by
  obtain ⟨r, hr, hres, -, -, -⟩ :=
    Plan.Run_eq_some opsMax paddingSize defs workers world sched arrival hW harr hdone
  obtain ⟨hlen, hops, -, -, -, -, -⟩ := Plan.ofList_spec opsMax paddingSize defs
  refine ⟨r, hr, ?_, ?_, ?_⟩
  · rw [hres, List.length_map, hlen]
  · rw [hres, List.map_map]
    apply List.ext_getElem?
    intro i
    rw [List.getElem?_map, List.getElem?_map, hops i]
    cases defs[i]? <;> rfl
  · intro i op hop
    rw [hres, List.getElem?_map, hop]
    rfl

/-- The amended C6 on the list `a, a` with one worker, stopped at once. -/
theorem Plan.Run_one_result_per_entry_witness :
    ∃ r : RunResult Unit,
      Plan.Run (Plan.ofList 0 0 [("a", alwaysTrue Unit 0), ("a", alwaysTrue Unit 0)]) 1 ()
          [.stop, .work 0, .work 0] (fun _ => [0]) = some r ∧
        r.results.length = [("a", alwaysTrue Unit 0), ("a", alwaysTrue Unit 0)].length ∧
        r.results.map (fun res => res.Name) =
          [("a", alwaysTrue Unit 0), ("a", alwaysTrue Unit 0)].map (fun d => d.1) ∧
        ∀ (i : Nat) (op : operation Unit),
          (Plan.ofList 0 0 [("a", alwaysTrue Unit 0), ("a", alwaysTrue Unit 0)]).ops[i]? =
            some op →
          r.results[i]? = some { Name := op.name, Histogram := op.histogram } :=
  Plan.Run_one_result_per_entry 0 0 [("a", alwaysTrue Unit 0), ("a", alwaysTrue Unit 0)] 1 ()
    [.stop, .work 0, .work 0] (fun _ => [0]) (by decide) (fun _ => List.Perm.refl _) rfl

end plan

end Mpjbt

namespace Mpjbt

namespace plan

/-! ### The ceiling on the count of successes -/

theorem RunState.finished_le {W : Type} (s : RunState W) : s.finished ≤ s.numWorkers := by
  unfold RunState.finished
  calc (List.range s.numWorkers).countP _ ≤ (List.range s.numWorkers).length :=
        List.countP_le_length _
    _ = s.numWorkers := List.length_range _

/-- The number of returned workers after worker `w`, which had not returned,
moved to `pc`. -/
theorem finished_update {W : Type} (s : RunState W) (w : Nat) (wk : Worker) (p : Plan W)
    (world : W) (calls : List Call) (hw : w < s.numWorkers) (hpc : (s.workers w).pc ≠ .done) :
    RunState.finished
        { plan := p, world := world, numWorkers := s.numWorkers,
          workers := Function.update s.workers w wk, calls := calls } =
      s.finished + if wk.pc = .done then 1 else 0 := by
  unfold RunState.finished
  simp only
  by_cases hd : wk.pc = .done
  · rw [if_pos hd]
    apply countP_range_flip _ _ _ w hw
    · simp [hpc]
    · simp [hd]
    · intro v hv
      simp only [Function.update_noteq hv]
  · rw [if_neg hd, Nat.add_zero]
    apply countP_range_congr
    intro v _
    by_cases hv : v = w
    · subst hv; simp [hpc, hd]
    · simp only [Function.update_noteq hv]

/-- Every event other than a call of `Stop` from outside keeps the
invariant of the ceiling. -/
theorem CeilingInv.step_preserved {W : Type} {M n : Nat} {s : RunState W} (h : CeilingInv M n s)
    (hM : 0 < M) (hlt : M + n < uint64Size) (e : Event) (he : e ≠ .stop) :
    CeilingInv M n (plan.step s e) := by
  cases e with
  | stop => exact absurd rfl he
  | tick =>
    unfold plan.step
    simp only
    split
    · exact h
    · exact ⟨h.opsMax_eq, h.numWorkers_eq, h.le, h.running, h.above⟩
  | work w =>
    unfold plan.step
    simp only
    split
    case isFalse => exact h
    case isTrue hwn =>
      have hfin := fun wk p world calls hpc =>
        finished_update s w wk p world calls hwn hpc
      unfold Worker.step
      simp only
      cases hpc : (s.workers w).pc with
      | done => exact h
      | start =>
        have hnd : (s.workers w).pc ≠ .done := by rw [hpc]; simp
        have hf := hfin { (s.plan.ops.foldl Worker.split (s.workers w, s.plan.histograms)).1 with
          pc := .top } { s.plan with
            histograms := (s.plan.ops.foldl Worker.split (s.workers w, s.plan.histograms)).2 }
          s.world s.calls hnd
        simp only [reduceCtorEq, if_false, Nat.add_zero] at hf
        exact ⟨h.opsMax_eq, h.numWorkers_eq, by rw [hf]; exact h.le,
          fun hc => by rw [hf]; exact h.running hc, h.above⟩
      | top =>
        have hnd : (s.workers w).pc ≠ .done := by rw [hpc]; simp
        simp only [RunState.setPC]
        split
        case isTrue hc =>
          have hf := hfin { s.workers w with pc := .done } s.plan s.world s.calls hnd
          simp only [if_true] at hf
          refine ⟨h.opsMax_eq, h.numWorkers_eq, ?_, ?_, h.above⟩
          · rw [hf]; have := h.le; simp only; omega
          · intro hc'; simp only at hc'; rw [hc] at hc'; cases hc'
        case isFalse hc =>
          have hf := hfin { s.workers w with
            pc := if 0 < s.plan.ops.length then .call 0 else .top } s.plan s.world s.calls hnd
          have hne : (if 0 < s.plan.ops.length then PC.call 0 else PC.top) ≠ .done := by
            split <;> simp
          simp only [hne, if_false, Nat.add_zero] at hf
          exact ⟨h.opsMax_eq, h.numWorkers_eq, by rw [hf]; exact h.le,
            fun hc' => by rw [hf]; exact h.running hc', h.above⟩
      | check i =>
        have hnd : (s.workers w).pc ≠ .done := by rw [hpc]; simp
        simp only [RunState.setPC]
        split
        case isTrue hc =>
          have hf := hfin { s.workers w with pc := .done } s.plan s.world s.calls hnd
          simp only [if_true] at hf
          refine ⟨h.opsMax_eq, h.numWorkers_eq, ?_, ?_, h.above⟩
          · rw [hf]; have := h.le; simp only; omega
          · intro hc'; simp only at hc'; rw [hc] at hc'; cases hc'
        case isFalse hc =>
          have hf := hfin { s.workers w with pc := nextPC s.plan.ops.length i } s.plan
            s.world s.calls hnd
          have hne : nextPC s.plan.ops.length i ≠ .done := by
            unfold nextPC; split <;> simp
          simp only [hne, if_false, Nat.add_zero] at hf
          exact ⟨h.opsMax_eq, h.numWorkers_eq, by rw [hf]; exact h.le,
            fun hc' => by rw [hf]; exact h.running hc', h.above⟩
      | call i =>
        have hnd : (s.workers w).pc ≠ .done := by rw [hpc]; simp
        simp only
        cases hop : s.plan.ops[i]? with
        | none => exact h
        | some op =>
          simp only
          split
          · have hne : nextPC s.plan.ops.length i ≠ .done := by
              unfold nextPC; split <;> simp
            have hf := hfin { s.workers w with pc := nextPC s.plan.ops.length i } s.plan
              (op.doFunc w s.world).2
              (s.calls ++ [{ worker := w, op := i, measure := (op.doFunc w s.world).1.measure }])
              hnd
            simp only [hne, if_false, Nat.add_zero] at hf
            exact ⟨h.opsMax_eq, h.numWorkers_eq, by rw [hf]; exact h.le,
              fun hc' => by rw [hf]; exact h.running hc', h.above⟩
          · refine ⟨h.opsMax_eq, h.numWorkers_eq, ?_, ?_, h.above⟩
            · rw [hfin _ _ _ _ hnd]; simpa using h.le
            · intro hc'; rw [hfin _ _ _ _ hnd]; simpa using h.running hc'
      | count i =>
        have hnd : (s.workers w).pc ≠ .done := by rw [hpc]; simp
        have hM0 : s.plan.opsMax ≠ 0 := by rw [h.opsMax_eq]; omega
        simp only [hM0, if_false, RunState.setPC]
        have hfl : s.finished + 1 ≤ n := by
          have h1 := hfin { s.workers w with pc := .done } s.plan s.world s.calls hnd
          simp only [if_true] at h1
          rw [← h1, ← h.numWorkers_eq]
          exact RunState.finished_le _
        have hmod : (s.plan.opsCount + 1) % uint64Size = s.plan.opsCount + 1 := by
          apply Nat.mod_eq_of_lt
          have := h.le
          omega
        rw [hmod, h.opsMax_eq]
        split
        case isTrue hc =>
          refine ⟨rfl, h.numWorkers_eq, ?_, ?_, ?_⟩
          · rw [hfin _ _ _ _ hnd]
            simp only [Plan.Stop, if_true]
            have := h.le
            omega
          · intro hc'; simp [Plan.Stop] at hc'
          · intro _; simp only [Plan.Stop]; omega
        case isFalse hc =>
          refine ⟨rfl, h.numWorkers_eq, ?_, ?_, ?_⟩
          · rw [hfin _ _ _ _ hnd]
            simp only [reduceCtorEq, if_false, Nat.add_zero]
            omega
          · intro hc'; rw [hfin _ _ _ _ hnd]; simpa using h.running hc'
          · intro hc'
            have := h.above hc'
            simp only at this ⊢
            omega

/-- Every state of a run in which `Stop` is not called from outside
satisfies the invariant of the ceiling. -/
theorem CeilingInv.exec_preserved {W : Type} {M n : Nat} (hM : 0 < M) (hlt : M + n < uint64Size)
    (sched : List Event) (hstop : Event.stop ∉ sched) :
    ∀ s : RunState W, CeilingInv M n s → CeilingInv M n (plan.exec sched s) := by
  induction sched with
  | nil => intro s h; exact h
  | cons e sched ih =>
    intro s h
    simp only [List.mem_cons, not_or] at hstop
    exact ih hstop.2 _ (h.step_preserved hM hlt e (fun e' => hstop.1 e'.symm))

/-- The count of successes of a run that ends at the ceiling: for a ceiling
`M > 0` and `W >= 1` workers, a `Run` that returns without `Stop` having
been called from outside ends with a count between `M + 1` and `M + W`, so
the ceiling is overshot by at least 1 and at most `W`. -/
theorem Plan.Run_ceiling_bounds {W : Type} (opsMax paddingSize : Nat)
    (defs : List (String × DoFunc W)) (workers : Nat) (world : W) (sched : List Event)
    (arrival : Nat → List Nat) (r : RunResult W)
    (hM : 0 < opsMax) (hW : 1 ≤ workers) (hlt : opsMax + workers < uint64Size)
    (hstop : Event.stop ∉ sched)
    (hrun : Plan.Run (Plan.ofList opsMax paddingSize defs) workers world sched arrival =
      some r) :
    opsMax + 1 ≤ r.plan.opsCount ∧ r.plan.opsCount ≤ opsMax + workers := by
  obtain ⟨-, -, -, -, hclosed, hcount, hmax⟩ := Plan.ofList_spec opsMax paddingSize defs
  have h0 : CeilingInv opsMax workers
      (RunState.init (Plan.ofList opsMax paddingSize defs) workers world) := by
    have hf : (RunState.init (Plan.ofList opsMax paddingSize defs) workers world).finished
        = 0 := by
      simp [RunState.finished, RunState.init]
    refine ⟨hmax, rfl, ?_, fun _ => hf, ?_⟩
    · simp only [RunState.init, hcount]; omega
    · intro hc; simp only [RunState.init] at hc; rw [hclosed] at hc; cases hc
  have h := CeilingInv.exec_preserved hM hlt sched hstop _ h0
  simp only [Plan.Run, hclosed, Bool.false_eq_true, if_false] at hrun
  split at hrun
  case isFalse => cases hrun
  case isTrue hdone =>
    split at hrun
    · cases hrun
    · simp only [Option.some.injEq] at hrun
      subst hrun
      simp only [Plan.Stop]
      have hfin : (plan.exec sched
          (RunState.init (Plan.ofList opsMax paddingSize defs) workers world)).finished =
          workers := by
        unfold RunState.finished
        rw [h.numWorkers_eq]
        have : (List.range workers).countP (fun w => decide (((plan.exec sched
            (RunState.init (Plan.ofList opsMax paddingSize defs) workers world)).workers w).pc
              = .done)) = (List.range workers).length := by
          rw [List.countP_eq_length]
          intro w hw
          have := List.all_eq_true.mp hdone w (by rw [h.numWorkers_eq]; exact hw)
          exact this
        rw [this, List.length_range]
      have hle := h.le
      rw [hfin] at hle
      refine ⟨?_, hle⟩
      apply h.above
      by_contra hc
      have := h.running (by simpa using hc)
      omega

/-- The bounds on the run of one worker under the ceiling 1, whose callback
always succeeds. -/
theorem Plan.Run_ceiling_bounds_example :
    ∃ r : RunResult Unit,
      Plan.Run (Plan.ofList 1 0 [("op", alwaysTrue Unit 0)]) 1 ()
          (List.replicate 8 (.work 0)) (fun _ => [0]) = some r ∧
        1 + 1 ≤ r.plan.opsCount ∧ r.plan.opsCount ≤ 1 + 1 :=
  ⟨_, rfl, Plan.Run_ceiling_bounds 1 0 [("op", alwaysTrue Unit 0)] 1 ()
    (List.replicate 8 (.work 0)) (fun _ => [0]) _ (by decide) (by decide) (by decide)
    (by decide) rfl⟩

end plan

end Mpjbt

namespace Mpjbt

/-! ## idgen, continued -/

namespace idgen

/-- C11: for a bound `max` of at least 1 and a Zipf sample `n`,
`Zipfian.GetExisting` returns `max - n` when `n < max` and `max` otherwise,
leaving the memory unchanged; the result lies between 1 and `max`; and of two
generators on one bound whose samples are `n1 <= n2 < max`, the one with the
smaller sample returns at least what the other returns. -/
theorem Zipfian.GetExisting_fold (z z2 : Zipfian) (m : Mem)
    (hmax : 1 ≤ atomicLoadUint64 z.max m) :
    Zipfian.GetExisting z m =
        .ok (if z.rnd.Uint64.1 < atomicLoadUint64 z.max m
               then atomicLoadUint64 z.max m - z.rnd.Uint64.1
               else atomicLoadUint64 z.max m,
             { z with rnd := z.rnd.Uint64.2 }, m) ∧
      (∀ r, Zipfian.GetExisting z m = .ok r → 1 ≤ r.1 ∧ r.1 ≤ atomicLoadUint64 z.max m) ∧
      (z2.max = z.max → z.rnd.Uint64.1 ≤ z2.rnd.Uint64.1 →
        z2.rnd.Uint64.1 < atomicLoadUint64 z.max m →
        ∀ r r2, Zipfian.GetExisting z m = .ok r → Zipfian.GetExisting z2 m = .ok r2 →
          r2.1 ≤ r.1) := by
  have hval : Zipfian.GetExisting z m =
      .ok (if z.rnd.Uint64.1 < atomicLoadUint64 z.max m
             then atomicLoadUint64 z.max m - z.rnd.Uint64.1
             else atomicLoadUint64 z.max m,
           { z with rnd := z.rnd.Uint64.2 }, m) := by
    unfold Zipfian.GetExisting
    simp only
    split <;> rfl
  refine ⟨hval, ?_, ?_⟩
  · intro r hr
    rw [hval] at hr
    simp only [Except.ok.injEq] at hr
    subst hr
    simp only
    split <;> omega
  · intro hz h12 h2 r r2 hr hr2
    have h1 : z.rnd.Uint64.1 < atomicLoadUint64 z.max m := by omega
    rw [hval] at hr
    simp only [Except.ok.injEq] at hr
    subst hr
    unfold Zipfian.GetExisting at hr2
    simp only [hz, h2, if_true, Except.ok.injEq] at hr2
    subst hr2
    simp only [h1, if_true]
    omega

/-- The fold of C11 on the bound 100: the sample 3 gives 97, the sample 7
gives 93. -/
theorem Zipfian.GetExisting_fold_witness :
    Zipfian.GetExisting ⟨0, ⟨fun _ => 3, 0⟩⟩ (fun _ => 100) =
        .ok (if (Rand.Uint64 ⟨fun _ => 3, 0⟩).1 < atomicLoadUint64 0 (fun _ => 100)
               then atomicLoadUint64 0 (fun _ => 100) - (Rand.Uint64 ⟨fun _ => 3, 0⟩).1
               else atomicLoadUint64 0 (fun _ => 100),
             { (⟨0, ⟨fun _ => 3, 0⟩⟩ : Zipfian) with rnd := (Rand.Uint64 ⟨fun _ => 3, 0⟩).2 },
             fun _ => 100) ∧
      (∀ r, Zipfian.GetExisting ⟨0, ⟨fun _ => 3, 0⟩⟩ (fun _ => 100) = .ok r →
        1 ≤ r.1 ∧ r.1 ≤ atomicLoadUint64 0 (fun _ => 100)) ∧
      ((0 : Addr) = 0 →
        (Rand.Uint64 ⟨fun _ => 3, 0⟩).1 ≤ (Rand.Uint64 ⟨fun _ => 7, 0⟩).1 →
        (Rand.Uint64 ⟨fun _ => 7, 0⟩).1 < atomicLoadUint64 0 (fun _ => 100) →
        ∀ r r2, Zipfian.GetExisting ⟨0, ⟨fun _ => 3, 0⟩⟩ (fun _ => 100) = .ok r →
          Zipfian.GetExisting ⟨0, ⟨fun _ => 7, 0⟩⟩ (fun _ => 100) = .ok r2 → r2.1 ≤ r.1) :=
  Zipfian.GetExisting_fold ⟨0, ⟨fun _ => 3, 0⟩⟩ ⟨0, ⟨fun _ => 7, 0⟩⟩ (fun _ => 100) (by decide)

/-- Consecutive calls split into a first batch and a second batch. -/
theorem Persistent.getExistingCalls_add {S : Type} (g : Generator S) (a b : Nat) :
    ∀ (p : Persistent S) (m : Mem) (ids : List Nat) (p1 : Persistent S) (m1 : Mem)
      (ids2 : List Nat) (p2 : Persistent S) (m2 : Mem),
      Persistent.getExistingCalls g a p m = .ok (ids, p1, m1) →
      Persistent.getExistingCalls g b p1 m1 = .ok (ids2, p2, m2) →
      Persistent.getExistingCalls g (a + b) p m = .ok (ids ++ ids2, p2, m2) := by
  induction a with
  | zero =>
    intro p m ids p1 m1 ids2 p2 m2 h1 h2
    simp only [Persistent.getExistingCalls, Except.ok.injEq, Prod.mk.injEq] at h1
    obtain ⟨rfl, rfl, rfl⟩ := h1
    simpa using h2
  | succ a ih =>
    intro p m ids p1 m1 ids2 p2 m2 h1 h2
    rw [Nat.add_right_comm]
    simp only [Persistent.getExistingCalls] at h1 ⊢
    cases hstep : Persistent.GetExisting g p m with
    | error e => rw [hstep] at h1; cases h1
    | ok r =>
      obtain ⟨id, q, mq⟩ := r
      rw [hstep] at h1
      simp only at h1 ⊢
      cases hrest : Persistent.getExistingCalls g a q mq with
      | error e => rw [hrest] at h1; cases h1
      | ok r' =>
        obtain ⟨ids', q', mq'⟩ := r'
        rw [hrest] at h1
        simp only [Except.ok.injEq, Prod.mk.injEq] at h1
        obtain ⟨rfl, rfl, rfl⟩ := h1
        rw [ih q mq ids' q' mq' ids2 p2 m2 hrest h2]
        rfl

/-- A refresh and the hold that follows it: from a state whose hold counter
has reached the hold length, `keepFor + 1` calls return the id fetched by
the first of them, and leave the hold counter at the hold length again. -/
theorem Persistent.getExistingCalls_refresh {S : Type} (g : Generator S)
    (p : Persistent S) (m m1 : Mem) (v : Nat) (s : S)
    (hK : p.keepFor < uint64Size) (hu : p.usedCount = p.keepFor)
    (hfetch : g.GetExisting p.source m = .ok (v, s, m1)) :
    Persistent.getExistingCalls g (p.keepFor + 1) p m =
      .ok (List.replicate (p.keepFor + 1) v,
           { p with usedCount := p.keepFor, source := s, last := v }, m1) := by
  have hstep : Persistent.GetExisting g p m =
      .ok (v, { p with usedCount := 0, source := s, last := v }, m1) := by
    simp [Persistent.GetExisting, hu, hfetch]
  have hhold := Persistent.getExistingCalls_hold g p.keepFor
    { p with usedCount := 0, source := s, last := v } m1 hK (by simp)
  have := Persistent.getExistingCalls_add g 1 p.keepFor p m [v] _ m1 _ _ m1
    (by simp [Persistent.getExistingCalls, hstep]) hhold
  rw [Nat.add_comm, this]
  simp only [List.singleton_append, Nat.add_comm 1, List.replicate_succ]

/-- Groups of `keepFor + 1` calls, one group per value that the wrapped
generator gives. -/
theorem Persistent.getExistingCalls_groups {S : Type} (g : Generator S) (rest : List Nat) :
    ∀ (p : Persistent S) (m : Mem) (s' : S) (m' : Mem),
      p.keepFor < uint64Size → p.usedCount = p.keepFor →
      Generator.getExistingCalls g rest.length p.source m = .ok (rest, s', m') →
      ∃ p2 : Persistent S,
        Persistent.getExistingCalls g (rest.length * (p.keepFor + 1)) p m =
            .ok ((rest.map (fun v => List.replicate (p.keepFor + 1) v)).flatten, p2, m') ∧
          p2.keepFor = p.keepFor ∧ p2.usedCount = p.keepFor ∧ p2.source = s' := by
  induction rest with
  | nil =>
    intro p m s' m' _ hu h
    simp only [List.length_nil, Generator.getExistingCalls, Except.ok.injEq,
      Prod.mk.injEq, true_and] at h
    obtain ⟨rfl, rfl⟩ := h
    exact ⟨p, by simp [Persistent.getExistingCalls], rfl, hu, rfl⟩
  | cons v rest ih =>
    intro p m s' m' hK hu h
    simp only [List.length_cons, Generator.getExistingCalls] at h
    cases hfetch : g.GetExisting p.source m with
    | error e => rw [hfetch] at h; cases h
    | ok r =>
      obtain ⟨v1, s1, m1⟩ := r
      rw [hfetch] at h
      simp only at h
      cases hrest : Generator.getExistingCalls g rest.length s1 m1 with
      | error e => rw [hrest] at h; cases h
      | ok r' =>
        obtain ⟨ids, s2, m2⟩ := r'
        rw [hrest] at h
        simp only [Except.ok.injEq, Prod.mk.injEq, List.cons.injEq] at h
        obtain ⟨⟨rfl, rfl⟩, rfl, rfl⟩ := h
        have hgroup := Persistent.getExistingCalls_refresh g p m m1 v1 s1 hK hu hfetch
        obtain ⟨p2, hcalls, hk2, hu2, hs2⟩ :=
          ih { p with usedCount := p.keepFor, source := s1, last := v1 } m1 s2 m2 hK rfl hrest
        refine ⟨p2, ?_, hk2, hu2, hs2⟩
        have := Persistent.getExistingCalls_add g (p.keepFor + 1)
          (ids.length * (p.keepFor + 1)) p m _ _ m1 _ p2 m2 hgroup hcalls
        simp only [List.length_cons, List.map_cons, List.flatten_cons]
        rw [show (ids.length + 1) * (p.keepFor + 1) =
          (p.keepFor + 1) + ids.length * (p.keepFor + 1) by ring]
        exact this

/-- As many ids are returned as calls are made. -/
theorem Generator.getExistingCalls_length {S : Type} (g : Generator S) (n : Nat) :
    ∀ (s : S) (m : Mem) (vs : List Nat) (s' : S) (m' : Mem),
      Generator.getExistingCalls g n s m = .ok (vs, s', m') → vs.length = n := by
  induction n with
  | zero =>
    intro s m vs s' m' h
    simp only [Generator.getExistingCalls, Except.ok.injEq, Prod.mk.injEq] at h
    rw [← h.1]; rfl
  | succ n ih =>
    intro s m vs s' m' h
    simp only [Generator.getExistingCalls] at h
    cases h1 : g.GetExisting s m with
    | error e => rw [h1] at h; cases h
    | ok r1 =>
      obtain ⟨a, sa, ma⟩ := r1
      rw [h1] at h
      simp only at h
      cases h2 : Generator.getExistingCalls g n sa ma with
      | error e => rw [h2] at h; cases h
      | ok r2 =>
        obtain ⟨ids, sb, mb⟩ := r2
        rw [h2] at h
        simp only [Except.ok.injEq, Prod.mk.injEq] at h
        rw [← h.1, List.length_cons, ih sa ma ids sb mb h2]

/-- C12: for a `Persistent` just returned by `PersistentSource.New` with
any hold length `K` (so also `K >= 1`) over a wrapped generator whose `GetExisting` gives pairwise
distinct values, and with no `GetNew` call, the first `K` calls of
`GetExisting` all return one id (the first value), every following group of
`K + 1` calls returns one id (the next value), and the ids of the groups are
pairwise distinct. -/
theorem Persistent.groups_after_New {Src S : Type} (g : Generator S)
    (src : PersistentSource Src) (gen : S) (m : Mem) (G : Nat) (vs : List Nat) (s' : S)
    (m' : Mem) (hK : src.KeepFor < uint64Size)
    (hinner : Generator.getExistingCalls g (G + 1) gen m = .ok (vs, s', m'))
    (hnodup : vs.Nodup) :
    ∃ (v0 : Nat) (rest : List Nat) (p : Persistent S) (m0 : Mem) (p2 : Persistent S),
      vs = v0 :: rest ∧ rest.length = G ∧
        PersistentSource.New g src gen m = .ok (p, m0) ∧
        Persistent.getExistingCalls g (src.KeepFor + G * (src.KeepFor + 1)) p m0 =
          .ok (List.replicate src.KeepFor v0 ++
                (rest.map (fun v => List.replicate (src.KeepFor + 1) v)).flatten, p2, m') ∧
        (v0 :: rest).Nodup := by
  simp only [Generator.getExistingCalls] at hinner
  cases hfetch : g.GetExisting gen m with
  | error e => rw [hfetch] at hinner; cases hinner
  | ok r =>
    obtain ⟨v0, s0, m0⟩ := r
    rw [hfetch] at hinner
    simp only at hinner
    cases hrest : Generator.getExistingCalls g G s0 m0 with
    | error e => rw [hrest] at hinner; cases hinner
    | ok r' =>
      obtain ⟨rest, s2, m2⟩ := r'
      rw [hrest] at hinner
      simp only [Except.ok.injEq, Prod.mk.injEq] at hinner
      obtain ⟨rfl, rfl, rfl⟩ := hinner
      have hlen : rest.length = G :=
        Generator.getExistingCalls_length g G s0 m0 rest s2 m2 hrest
      subst hlen
      have hnew : PersistentSource.New g src gen m =
          .ok ({ keepFor := src.KeepFor, source := s0, usedCount := 0, last := v0 }, m0) := by
        simp [PersistentSource.New, hfetch]
      have hhold := Persistent.getExistingCalls_hold g src.KeepFor
        { keepFor := src.KeepFor, source := s0, usedCount := 0, last := v0 } m0 hK (by simp)
      obtain ⟨p2, hcalls, -, -, -⟩ := Persistent.getExistingCalls_groups g rest
        { keepFor := src.KeepFor, source := s0, usedCount := src.KeepFor, last := v0 }
        m0 s2 m2 hK rfl hrest
      exact ⟨v0, rest, _, m0, p2, rfl, rfl, hnew,
        Persistent.getExistingCalls_add g _ _ _ _ _ _ _ _ _ _ hhold hcalls, hnodup⟩

/-- The groups of C12 on the test's mock generator with hold length 2: the
ids 1, 1, then 2, 2, 2, then 3, 3, 3. -/
theorem Persistent.groups_after_New_witness :
    ∃ (v0 : Nat) (rest : List Nat) (p : Persistent Nat) (m0 : Mem) (p2 : Persistent Nat),
      [1, 2, 3] = v0 :: rest ∧ rest.length = 2 ∧
        PersistentSource.New mockGenerator (⟨2, ()⟩ : PersistentSource Unit) 0 (fun _ => 0) =
          .ok (p, m0) ∧
        Persistent.getExistingCalls mockGenerator
            ((⟨2, ()⟩ : PersistentSource Unit).KeepFor +
              2 * ((⟨2, ()⟩ : PersistentSource Unit).KeepFor + 1)) p m0 =
          .ok (List.replicate (⟨2, ()⟩ : PersistentSource Unit).KeepFor v0 ++
                (rest.map (fun v =>
                  List.replicate ((⟨2, ()⟩ : PersistentSource Unit).KeepFor + 1) v)).flatten,
               p2, fun _ => 0) ∧
        (v0 :: rest).Nodup :=
  Persistent.groups_after_New mockGenerator ⟨2, ()⟩ 0 (fun _ => 0) 2 [1, 2, 3] 3 (fun _ => 0)
    (by decide) rfl (by decide)

/-- C13 fails as stated: on the mock generator with hold length 1, the value
fetched once the hold after `GetNew` is over (2) is returned by two calls
of `GetExisting`, not by one, before the next fetch (3). -/
theorem Persistent.refresh_hold_longer :
    (Persistent.getExistingCalls mockGenerator 4
        { keepFor := 1, source := 1, usedCount := 0, last := 1 } (fun _ => 0)).map
        (fun r => r.1) = .ok [1, 2, 2, 3] ∧
      (Persistent.GetNew mockGenerator
        { keepFor := 1, source := 0, usedCount := 0, last := 0 } (fun _ => 0)).map
        (fun r => (r.1, r.2.1.keepFor, r.2.1.source, r.2.1.usedCount, r.2.1.last)) =
        .ok (1, 1, 1, 0, 1) := by
  constructor <;> rfl

/-- C13 (amended): after `GetNew` returned `V`, `keepFor` calls of
`GetExisting` return `V`; the value then fetched from the wrapped generator
is returned by `keepFor + 1` calls in total, the fetching call included,
after which the hold counter is at the hold length again, so that the next
call fetches anew and every later hold period has that same length
`keepFor + 1`. -/
theorem Persistent.refresh_hold_length {S : Type} (g : Generator S)
    (p p1 : Persistent S) (m m1 m2 : Mem) (V v : Nat) (s : S)
    (hK : p.keepFor < uint64Size)
    (hnew : Persistent.GetNew g p m = .ok (V, p1, m1))
    (hfetch : g.GetExisting p1.source m1 = .ok (v, s, m2)) :
    ∃ p3 : Persistent S,
      Persistent.getExistingCalls g (p.keepFor + (p.keepFor + 1)) p1 m1 =
          .ok (List.replicate p.keepFor V ++ List.replicate (p.keepFor + 1) v, p3, m2) ∧
        p3.usedCount = p3.keepFor ∧ p3.keepFor = p.keepFor ∧ p3.source = s ∧
        (Persistent.GetExisting g p3 m2).map (fun r => (r.1, r.2.2)) =
          (g.GetExisting s m2).map (fun r => (r.1, r.2.2)) := by
  unfold Persistent.GetNew at hnew
  cases hg : g.GetNew p.source m with
  | error e => rw [hg] at hnew; cases hnew
  | ok r =>
    obtain ⟨id, s0, m0⟩ := r
    rw [hg] at hnew
    simp only [Except.ok.injEq, Prod.mk.injEq] at hnew
    obtain ⟨rfl, rfl, rfl⟩ := hnew
    have hhold := Persistent.getExistingCalls_hold g p.keepFor
      { p with source := s0, last := id, usedCount := 0 } m0 hK (by simp)
    have hgroup := Persistent.getExistingCalls_refresh g
      { p with source := s0, last := id, usedCount := p.keepFor } m0 m2 v s hK rfl hfetch
    refine ⟨_, Persistent.getExistingCalls_add g _ _ _ _ _ _ _ _ _ _ hhold hgroup,
      rfl, rfl, rfl, ?_⟩
    simp only [Persistent.GetExisting, if_true]
    cases g.GetExisting s m2 with
    | error e => rfl
    | ok r => rfl

/-- The amended C13 on the mock generator with hold length 1. -/
theorem Persistent.refresh_hold_length_witness :
    ∃ p3 : Persistent Nat,
      Persistent.getExistingCalls mockGenerator
          ((⟨1, 0, 5, 0⟩ : Persistent Nat).keepFor + ((⟨1, 0, 5, 0⟩ : Persistent Nat).keepFor + 1))
          { keepFor := 1, source := 1, usedCount := 0, last := 1 } (fun _ => 0) =
          .ok (List.replicate (⟨1, 0, 5, 0⟩ : Persistent Nat).keepFor 1 ++
                List.replicate ((⟨1, 0, 5, 0⟩ : Persistent Nat).keepFor + 1) 2, p3,
               fun _ => 0) ∧
        p3.usedCount = p3.keepFor ∧ p3.keepFor = (⟨1, 0, 5, 0⟩ : Persistent Nat).keepFor ∧
        p3.source = 2 ∧
        (Persistent.GetExisting mockGenerator p3 (fun _ => 0)).map (fun r => (r.1, r.2.2)) =
          (mockGenerator.GetExisting 2 (fun _ => 0)).map (fun r => (r.1, r.2.2)) :=
  Persistent.refresh_hold_length mockGenerator ⟨1, 0, 5, 0⟩
    { keepFor := 1, source := 1, usedCount := 0, last := 1 } (fun _ => 0) (fun _ => 0)
    (fun _ => 0) 1 2 2 (by decide) rfl rfl

end idgen

end Mpjbt

namespace Mpjbt

/-! ## dstats, continued -/

namespace dstats

theorem toUint64_of_nonneg (i : Int) (h0 : 0 ≤ i) (hlt : i.toNat < uint64Size) :
    toUint64 i = i.toNat := by
  unfold toUint64
  have hi : i < (uint64Size : Int) := by
    have := Int.toNat_of_nonneg h0
    omega
  rw [Int.emod_eq_of_lt h0 hi]

/-- The state after a sequence of observations that do not make the two
counters wrap. -/
theorem DurationObserver.observeAll_eq (obs : List (Int × Nat)) :
    ∀ o : DurationObserver, (∀ x ∈ obs, 0 ≤ x.1) →
      o.count + (obs.map (fun x => x.2)).sum < uint64Size →
      o.cumulativeTime + (obs.map (fun x => (x.1.tdiv Millisecond).toNat)).sum < uint64Size →
      o.observeAll obs =
        { count := o.count + (obs.map (fun x => x.2)).sum
          cumulativeTime :=
            o.cumulativeTime + (obs.map (fun x => (x.1.tdiv Millisecond).toNat)).sum } := by
  induction obs with
  | nil => intro o _ _ _; simp [DurationObserver.observeAll]
  | cons x obs ih =>
    intro o hnn hc ht
    simp only [List.map_cons, List.sum_cons] at hc ht
    have hx : 0 ≤ x.1 := hnn x (List.mem_cons_self _ _)
    have hdiv : 0 ≤ x.1.tdiv Millisecond := Int.tdiv_nonneg hx (by decide)
    have hstep : o.Observe x.1 x.2 =
        { count := o.count + x.2
          cumulativeTime := o.cumulativeTime + (x.1.tdiv Millisecond).toNat } := by
      unfold DurationObserver.Observe
      rw [toUint64_of_nonneg _ hdiv (by omega), Nat.mod_eq_of_lt (by omega),
        Nat.mod_eq_of_lt (by omega)]
    have hrec := ih (o.Observe x.1 x.2) (fun y hy => hnn y (List.mem_cons_of_mem _ hy))
      (by rw [hstep]; simp only; omega) (by rw [hstep]; simp only; omega)
    simp only [DurationObserver.observeAll, List.foldl_cons, List.map_cons,
      List.sum_cons] at hrec ⊢
    rw [hrec, hstep]
    simp only [Nat.add_assoc]

/-- C14 fails as stated: after `Observe(0, 2^64 - 1)` and `Observe(0, 2)` the
count has wrapped to 1, so `Reset` returns the count 1, not the sum
`2^64 + 1` of the deltas. -/
theorem DurationObserver.Reset_wraps :
    ((DurationObserver.observeAll ⟨0, 0⟩ [(0, 2 ^ 64 - 1), (0, 2)]).Reset).1 = (1, 0) ∧
      ([((0 : Int), 2 ^ 64 - 1), (0, 2)].map (fun x => x.2)).sum = 2 ^ 64 + 1 := by
  decide

/-- C14 (amended): for every sequence of `Observe(d_i, delta_i)` calls with
non-negative durations made since the last `Reset`, in which neither the sum
of the deltas nor the sum of the whole milliseconds of the durations reaches
`2 ^ 64`, `Reset` returns the sum of the deltas and the sum of the whole
milliseconds divided by it (integer division) when the sum of the deltas is
not zero, and `(0, 0)` when it is; in both cases it leaves count and
cumulative time at zero, so that a following `Reset` returns `(0, 0)`. -/
theorem DurationObserver.Reset_after_observes (o : DurationObserver)
    (obs : List (Int × Nat)) (hnn : ∀ x ∈ obs, 0 ≤ x.1)
    (hc : (obs.map (fun x => x.2)).sum < uint64Size)
    (ht : (obs.map (fun x => (x.1.tdiv Millisecond).toNat)).sum < uint64Size) :
    ((o.Reset.2.observeAll obs).Reset).1 =
        (if (obs.map (fun x => x.2)).sum = 0 then (0, 0)
         else ((obs.map (fun x => x.2)).sum,
               (obs.map (fun x => (x.1.tdiv Millisecond).toNat)).sum /
                 (obs.map (fun x => x.2)).sum)) ∧
      ((o.Reset.2.observeAll obs).Reset).2 = { count := 0, cumulativeTime := 0 } ∧
      (((o.Reset.2.observeAll obs).Reset).2.Reset).1 = (0, 0) := by
  have h := DurationObserver.observeAll_eq obs o.Reset.2 hnn
    (by simpa [DurationObserver.Reset] using hc) (by simpa [DurationObserver.Reset] using ht)
  rw [h]
  simp [DurationObserver.Reset]

/-- Two observations of 1.5 ms and 2.5 ms, counting 1 and 2 operations:
`Reset` returns the count 3 and the average 1 of the 3 whole
milliseconds. -/
theorem DurationObserver.Reset_after_observes_witness :
    (((DurationObserver.Reset ⟨7, 9⟩).2.observeAll [(1500000, 1), (2500000, 2)]).Reset).1 =
        (if ([((1500000 : Int), 1), (2500000, 2)].map (fun x => x.2)).sum = 0 then (0, 0)
         else (([((1500000 : Int), 1), (2500000, 2)].map (fun x => x.2)).sum,
               ([((1500000 : Int), 1), (2500000, 2)].map
                  (fun x => (x.1.tdiv Millisecond).toNat)).sum /
                 ([((1500000 : Int), 1), (2500000, 2)].map (fun x => x.2)).sum)) ∧
      (((DurationObserver.Reset ⟨7, 9⟩).2.observeAll [(1500000, 1), (2500000, 2)]).Reset).2 =
        { count := 0, cumulativeTime := 0 } ∧
      ((((DurationObserver.Reset ⟨7, 9⟩).2.observeAll
        [(1500000, 1), (2500000, 2)]).Reset).2.Reset).1 = (0, 0) :=
  DurationObserver.Reset_after_observes ⟨7, 9⟩ [(1500000, 1), (2500000, 2)]
    (by decide) (by decide) (by decide)

theorem foldl_Merge_opts (q : List stats.Histogram) :
    ∀ h : stats.Histogram, (q.foldl stats.Histogram.Merge h).opts = h.opts := by
  induction q with
  | nil => intro h; rfl
  | cons x q ih => intro h; rw [List.foldl_cons, ih]; rfl

/-- Every call keeps the invariant of the life of a parent. -/
theorem Trace.Inv.step_preserves {opts : stats.HistogramOptions} {chan : Nat} {t : Trace}
    (h : Trace.Inv opts chan t) (op : Op) : Trace.Inv opts chan (t.step op) := by
  obtain ⟨hc, ho, hopts, hchan, hcount⟩ := h
  cases op with
  | split =>
    unfold Trace.step
    cases hcl : t.h.closed with
    | true =>
      simp only [Histogram.Split, hcl, if_true]
      exact ⟨hc, ho, hopts, hchan, hcount⟩
    | false =>
      simp only [Histogram.Split, hcl, Bool.false_eq_true, if_false]
      refine ⟨?_, ho, hopts, hchan, ?_⟩
      · simp only; rw [← hc, hcl]
      · simp only [hcount, Nat.add_mod, Nat.mod_mod]
  | done c =>
    unfold Trace.step
    refine ⟨hc, ho, hopts, ?_, hcount⟩
    simp only [HistogramChild.Done]
    split <;> exact hchan
  | add v => exact ⟨hc, ho, hopts, hchan, hcount⟩
  | merge =>
    unfold Trace.step
    cases hmerge : t.h.Merge with
    | none => exact ⟨hc, ho, hopts, hchan, hcount⟩
    | some h1 =>
      simp only
      unfold Histogram.Merge at hmerge
      cases hon : t.h.once with
      | true =>
        rw [hon] at hmerge
        simp only [if_true, Option.some.injEq] at hmerge
        subst hmerge
        refine ⟨?_, hon, hopts, hchan, hcount⟩
        rw [hc, ← ho, hon]
      | false =>
        rw [hon] at hmerge
        simp only [Bool.false_eq_true, if_false] at hmerge
        split at hmerge
        · cases hmerge
        · simp only [Option.some.injEq] at hmerge
          subst hmerge
          exact ⟨rfl, rfl, by simp only [foldl_Merge_opts]; exact hopts, hchan, hcount⟩

/-- The invariant holds after every list of calls on a new parent. -/
theorem Trace.Inv.run (opts : stats.HistogramOptions) (chan : Nat) (ops : List Op) :
    Trace.Inv opts chan (Trace.run opts chan ops) := by
  have h0 : Trace.Inv opts chan { h := NewHistogram opts chan, merged := false, splits := 0 } :=
    ⟨rfl, rfl, rfl, rfl, rfl⟩
  unfold Trace.run
  generalize ({ h := NewHistogram opts chan, merged := false, splits := 0 } : Trace) = t at h0
  induction ops generalizing t with
  | nil => exact h0
  | cons op ops ih => exact ih _ (h0.step_preserves op)

/-- C15: at any point of the life of a parent, `Split` returns `nil`, and
changes nothing, exactly when a `Merge` has completed on the parent;
otherwise it returns a new empty child with the parent's options and adds
one to the count of expected children, which is therefore the number of
children `Split` has returned. A first `Merge` then returns exactly if that
many children have been offered on the channel: it merges that many, the
first offered, leaves any further one on the channel and closes the parent;
with fewer offered it does not return. After a completed `Merge`, a `Merge`
returns at once and takes no child. -/
theorem Histogram.Split_nil_iff_merged (opts : stats.HistogramOptions) (chan : Nat)
    (ops : List Op) :
    ((Trace.run opts chan ops).h.Split.1 = none ↔ (Trace.run opts chan ops).merged = true) ∧
      ((Trace.run opts chan ops).merged = true →
        (Trace.run opts chan ops).h.Split = (none, (Trace.run opts chan ops).h)) ∧
      ((Trace.run opts chan ops).merged = false →
        (Trace.run opts chan ops).h.Split =
          (some { hist := stats.NewHistogram opts, once := false, parent := chan },
           { (Trace.run opts chan ops).h with
             count := ((Trace.run opts chan ops).h.count + 1) % uint64Size }) ∧
        ((Trace.run opts chan ops).h.count + 1 < uint64Size →
          (Trace.run opts chan ops).h.Split.2.count =
            (Trace.run opts chan ops).h.count + 1)) ∧
      (Trace.run opts chan ops).h.count = (Trace.run opts chan ops).splits % uint64Size ∧
      ((Trace.run opts chan ops).merged = false →
        (Trace.run opts chan ops).splits < uint64Size →
        ((Trace.run opts chan ops).splits ≤
            (Trace.run opts chan ops).h.children.queue.length →
          (Trace.run opts chan ops).h.Merge = some
            { (Trace.run opts chan ops).h with
              hist := ((Trace.run opts chan ops).h.children.queue.take
                (Trace.run opts chan ops).splits).foldl stats.Histogram.Merge
                  (Trace.run opts chan ops).h.hist
              children :=
                { (Trace.run opts chan ops).h.children with
                  queue := (Trace.run opts chan ops).h.children.queue.drop
                    (Trace.run opts chan ops).splits
                  closed := true }
              once := true
              closed := true }) ∧
        ((Trace.run opts chan ops).h.children.queue.length <
            (Trace.run opts chan ops).splits →
          (Trace.run opts chan ops).h.Merge = none)) ∧
      ((Trace.run opts chan ops).merged = true →
        (Trace.run opts chan ops).h.Merge = some (Trace.run opts chan ops).h) := by
  obtain ⟨hc, ho, hopts, hchan, hcount⟩ := Trace.Inv.run opts chan ops
  generalize Trace.run opts chan ops = t at hc ho hopts hchan hcount
  refine ⟨?_, ?_, ?_, hcount, ?_, ?_⟩
  · cases hm : t.merged with
    | true => simp [Histogram.Split, hc, hm]
    | false => simp [Histogram.Split, hc, hm]
  · intro hm
    simp [Histogram.Split, hc, hm]
  · intro hm
    refine ⟨?_, ?_⟩
    · simp [Histogram.Split, hc, hm, stats.Histogram.Opts, hopts, hchan]
    · intro hlt
      simp only [Histogram.Split, hc, hm, Bool.false_eq_true, if_false]
      exact Nat.mod_eq_of_lt hlt
  · intro hm hs
    have hcnt : t.h.count = t.splits := by rw [hcount]; exact Nat.mod_eq_of_lt hs
    constructor
    · intro hle
      have hnot : ¬ (t.h.children.queue.length < t.splits) := by omega
      simp only [Histogram.Merge, ho, hm, Bool.false_eq_true, if_false, hcnt, hnot]
    · intro hlt
      simp only [Histogram.Merge, ho, hm, Bool.false_eq_true, if_false, hcnt, hlt, if_true]
  · intro hm
    simp only [Histogram.Merge, ho, hm, if_true]

/-- A parent after two `Split`s, the `Done` of both children and a `Merge`:
a further `Split` returns `nil`; before the `Merge` it returns a child. With
one `Done` only, `Merge` does not return; with both, it does. -/
theorem Histogram.Split_nil_iff_merged_example :
    (Trace.run ⟨3, 1, 1⟩ 0
        [.split, .split, .done ⟨stats.NewHistogram ⟨3, 1, 1⟩, false, 0⟩,
         .done ⟨stats.NewHistogram ⟨3, 1, 1⟩, false, 0⟩, .merge]).merged = true ∧
      (Trace.run ⟨3, 1, 1⟩ 0
        [.split, .split, .done ⟨stats.NewHistogram ⟨3, 1, 1⟩, false, 0⟩,
         .done ⟨stats.NewHistogram ⟨3, 1, 1⟩, false, 0⟩, .merge]).h.Split.1.isNone = true ∧
      (Trace.run ⟨3, 1, 1⟩ 0
        [.split, .split, .done ⟨stats.NewHistogram ⟨3, 1, 1⟩, false, 0⟩, .merge]).merged =
          false ∧
      (Trace.run ⟨3, 1, 1⟩ 0
        [.split, .split, .done ⟨stats.NewHistogram ⟨3, 1, 1⟩, false, 0⟩,
         .merge]).h.Split.1.isSome = true ∧
      (Trace.run ⟨3, 1, 1⟩ 0
        [.split, .split, .done ⟨stats.NewHistogram ⟨3, 1, 1⟩, false, 0⟩, .merge]).h.count =
          2 ∧
      (Trace.run ⟨3, 1, 1⟩ 0
        [.split, .split, .done ⟨stats.NewHistogram ⟨3, 1, 1⟩, false, 0⟩]).h.Merge.isSome =
          false ∧
      (Trace.run ⟨3, 1, 1⟩ 0
        [.split, .split, .done ⟨stats.NewHistogram ⟨3, 1, 1⟩, false, 0⟩,
         .done ⟨stats.NewHistogram ⟨3, 1, 1⟩, false, 0⟩]).h.Merge.isSome = true := by
  refine ⟨?_, ?_, ?_, ?_, ?_, ?_, ?_⟩ <;> rfl

end dstats

end Mpjbt

namespace Mpjbt

/-! ## plan, continued -/

namespace plan

/-- C16: `Run` on a plan whose `Stop` has taken effect returns no results
and invokes no callback (nothing is recorded, the world is untouched),
whatever the workers, schedule and arrival orders would be; this is the case
after a call of `Stop`, and after any `Run` that has returned, which always
leaves the plan stopped. -/
theorem Plan.Run_after_stop {W : Type} (p : Plan W) (workers workers2 : Nat) (world world2 : W)
    (sched sched2 : List Event) (arrival arrival2 : Nat → List Nat) :
    (p.closed = true →
        Plan.Run p workers world sched arrival =
          some { results := [], plan := p.Stop, world := world, calls := [] }) ∧
      Plan.Run p.Stop workers world sched arrival =
        some { results := [], plan := p.Stop.Stop, world := world, calls := [] } ∧
      (∀ r : RunResult W, Plan.Run p workers world sched arrival = some r →
        r.plan.closed = true ∧
          Plan.Run r.plan workers2 world2 sched2 arrival2 =
            some { results := [], plan := r.plan.Stop, world := world2, calls := [] }) := by
  have hstopped : ∀ (q : Plan W) (n : Nat) (w : W) (sc : List Event) (ar : Nat → List Nat),
      q.closed = true →
      Plan.Run q n w sc ar = some { results := [], plan := q.Stop, world := w, calls := [] } := by
    intro q n w sc ar hq
    simp [Plan.Run, hq]
  refine ⟨hstopped p workers world sched arrival, hstopped _ _ _ _ _ rfl, ?_⟩
  intro r hr
  have hclosed : r.plan.closed = true := by
    unfold Plan.Run at hr
    split at hr
    · simp only [Option.some.injEq] at hr
      subst hr; rfl
    · simp only at hr
      split at hr
      · split at hr
        · cases hr
        · simp only [Option.some.injEq] at hr
          subst hr; rfl
      · cases hr
  exact ⟨hclosed, hstopped _ _ _ _ _ hclosed⟩

/-- A `Run` that returns, followed by a second `Run` on the plan it leaves:
the second one returns no results and records no call. -/
theorem Plan.Run_after_stop_example :
    ∃ r r2 : RunResult Unit,
      Plan.Run (Plan.ofList 1 0 [("op", alwaysTrue Unit 0)]) 1 ()
          (List.replicate 8 (.work 0)) (fun _ => [0]) = some r ∧
        r.results.length = 1 ∧ r.calls.length = 2 ∧
        Plan.Run r.plan 1 () (List.replicate 8 (.work 0)) (fun _ => [0]) = some r2 ∧
        r2.results = [] ∧ r2.calls = [] := by
  refine ⟨_, _, rfl, ?_, ?_, rfl, rfl, rfl⟩ <;> decide

/-- C17, the failing input: for the list `step1, step2` where `step1` always
returns false, one worker invokes `step2` in the same pass, right after
`step1` has returned false. -/
theorem Worker.calls_next_after_false :
    (exec [.work 0, .work 0, .work 0, .work 0]
        (RunState.init
          (Plan.ofList 0 0 [("step1", alwaysFalse Unit 0), ("step2", alwaysTrue Unit 0)])
          1 ())).calls =
      [{ worker := 0, op := 0, measure := false }, { worker := 0, op := 1, measure := true }] := by
  decide

/-- C18, the failing input: for a list of two operations that always fail,
with `Stop` called while the worker is about to invoke the first one, the
worker invokes the first operation and then, without checking the stop
flag, also the second one. -/
theorem Worker.calls_after_stop :
    (exec [.work 0, .work 0, .stop]
        (RunState.init
          (Plan.ofList 0 0 [("step1", alwaysFalse Unit 0), ("step2", alwaysFalse Unit 0)])
          1 ())).plan.closed = true ∧
      (exec [.work 0, .work 0, .stop]
        (RunState.init
          (Plan.ofList 0 0 [("step1", alwaysFalse Unit 0), ("step2", alwaysFalse Unit 0)])
          1 ())).calls = [] ∧
      (exec [.work 0, .work 0]
        (exec [.work 0, .work 0, .stop]
          (RunState.init
            (Plan.ofList 0 0 [("step1", alwaysFalse Unit 0), ("step2", alwaysFalse Unit 0)])
            1 ()))).calls =
        [{ worker := 0, op := 0, measure := false },
         { worker := 0, op := 1, measure := false }] := by
  decide

/-- C20, the failing input: for the list `a, b, a` the status line has three
segments, two of them for `a`, although there are two distinct names. -/
theorem Plan.buildLine_separated_duplicates :
    (Plan.ofList 0 0
        [("a", alwaysTrue Unit 0), ("b", alwaysTrue Unit 0),
         ("a", alwaysTrue Unit 0)]).buildLine.1 =
      "a 0op/s avg.0ms\tb 0op/s avg.0ms\ta 0op/s avg.0ms" := by
  decide

/-- C19 fails as stated: a list whose only operation has the empty name
gives the empty line, without the segment of that operation, and the tab
that starts the name of a first operation is lost. -/
theorem Plan.buildLine_empty_first_name :
    (Plan.ofList 0 0 [("", alwaysTrue Unit 0)]).buildLine.1 = "" ∧
      (Plan.ofList 0 0 [("", alwaysTrue Unit 0)]).buildLine.1 ≠
        joinTabs [segment "" (0, 0)] ∧
      (Plan.ofList 0 0 [("\tx", alwaysTrue Unit 0)]).buildLine.1 = "x 0op/s avg.0ms" := by
  decide

/-- The loop of `buildLine` on operations with pairwise distinct names, the
first of which is not the last name seen, and pairwise distinct counters:
every operation adds a tab and its segment. -/
theorem buildLineLoop_distinct {W : Type} (ops : List (operation W)) :
    ∀ (line lastName : String) (cs : Nat → dstats.DurationObserver),
      (ops.map (fun op => op.name)).Nodup →
      (∀ o, ops.head? = some o → lastName ≠ o.name) →
      (ops.map (fun op => op.counter)).Nodup →
      (buildLineLoop ops line lastName cs).1 =
        (ops.map (fun op => segment op.name (cs op.counter).Reset.1)).foldl
          (fun acc seg => acc ++ "\t" ++ seg) line := by
  induction ops with
  | nil => intro line lastName cs _ _ _; rfl
  | cons op ops ih =>
    intro line lastName cs hn hl hc
    simp only [List.map_cons, List.nodup_cons] at hn hc
    have hne : ¬ lastName = op.name := hl op rfl
    have hnext : ∀ o, ops.head? = some o → op.name ≠ o.name := by
      intro o ho e
      apply hn.1
      rw [e]
      exact List.mem_map_of_mem _ (List.mem_of_mem_head? ho)
    simp only [buildLineLoop, hne, if_false, List.map_cons, List.foldl_cons]
    rw [ih _ op.name _ hn.2 hnext hc.2]
    have hline : line ++ "\t" ++ op.name ++ " " ++ toString (cs op.counter).Reset.1.1 ++
        "op/s avg." ++ toString (cs op.counter).Reset.1.2 ++ "ms" =
        line ++ "\t" ++ segment op.name (cs op.counter).Reset.1 := by
      simp only [segment, String.append_assoc]
    rw [hline]
    congr 1
    apply List.map_congr_left
    intro o ho
    have : o.counter ≠ op.counter := by
      intro e
      apply hc.1
      rw [← e]
      exact List.mem_map_of_mem _ ho
    rw [Function.update_noteq this]

theorem foldl_tab_data (segs : List String) :
    ∀ line : String,
      (segs.foldl (fun acc seg => acc ++ "\t" ++ seg) line).data =
        line.data ++ (segs.map (fun seg => '\t' :: seg.data)).flatten := by
  induction segs with
  | nil => intro line; simp
  | cons seg segs ih =>
    intro line
    rw [List.foldl_cons, ih]
    simp [String.data_append]

theorem joinTabs_data (segs : List String) :
    ∀ seg : String,
      (joinTabs (seg :: segs)).data =
        seg.data ++ (segs.map (fun t => '\t' :: t.data)).flatten := by
  induction segs with
  | nil => intro seg; simp [joinTabs]
  | cons t segs ih =>
    intro seg
    simp only [joinTabs, String.data_append, ih t, List.map_cons, List.flatten_cons,
      List.append_assoc]
    rfl

/-- Removing the leading tabs of the line built by the loop leaves the
segments joined by tabs, when the first segment does not start with a tab. -/
theorem trimLeftTabs_foldl (segs : List String)
    (hfirst : ∀ seg, segs.head? = some seg → ∃ c cs, seg.data = c :: cs ∧ c ≠ '\t') :
    trimLeftTabs (segs.foldl (fun acc seg => acc ++ "\t" ++ seg) "") = joinTabs segs := by
  cases segs with
  | nil => rfl
  | cons seg segs =>
    obtain ⟨c, cs, hdata, hc⟩ := hfirst seg rfl
    apply String.ext
    rw [joinTabs_data]
    simp only [trimLeftTabs, String.toList, foldl_tab_data, List.map_cons,
      List.flatten_cons, hdata]
    rw [List.nil_append, List.cons_append, List.dropWhile_cons]
    simp only [decide_True, if_true, List.cons_append, List.dropWhile_cons]
    simp [hc]

/-- C19 (amended): for every operation list with pairwise distinct names
(and, as `Add` makes them, pairwise distinct `DurationObserver`s) whose
first name is not empty and does not start with a tab, `buildLine` returns
the segments `"<name> <count>op/s avg.<ms>ms"`, one per operation in list
order, joined by single tabs with no leading tab, where `(count, ms)` is the
result of `Reset` on that operation's `DurationObserver`. -/
theorem Plan.buildLine_distinct_names {W : Type} (p : Plan W)
    (hnames : (p.ops.map (fun op => op.name)).Nodup)
    (hcounters : (p.ops.map (fun op => op.counter)).Nodup)
    (hfirst : ∀ op, p.ops.head? = some op →
      ∃ c cs, op.name.data = c :: cs ∧ c ≠ '\t') :
    p.buildLine.1 =
      joinTabs (p.ops.map (fun op => segment op.name (p.counters op.counter).Reset.1)) := by
  unfold Plan.buildLine
  simp only
  have hlast : ∀ o, p.ops.head? = some o → "" ≠ o.name := by
    intro o ho e
    obtain ⟨c, cs, hdata, -⟩ := hfirst o ho
    rw [← e] at hdata
    cases hdata
  rw [buildLineLoop_distinct p.ops "" "" p.counters hnames hlast hcounters]
  apply trimLeftTabs_foldl
  intro seg hseg
  cases hops : p.ops with
  | nil => rw [hops] at hseg; simp at hseg
  | cons op ops =>
    obtain ⟨c, cs, hdata, hc⟩ := hfirst op (by rw [hops]; rfl)
    rw [hops] at hseg
    simp only [List.map_cons, List.head?_cons, Option.some.injEq] at hseg
    subst hseg
    refine ⟨c, cs ++ (" " ++ toString (p.counters op.counter).Reset.1.1 ++ "op/s avg." ++
      toString (p.counters op.counter).Reset.1.2 ++ "ms").data, ?_, hc⟩
    simp only [segment, String.append_assoc, String.data_append, hdata, List.cons_append]

/-- The amended C19 on the plan of `TestPlan_StatusTicker`, each of whose
two operations has been observed once. -/
theorem Plan.buildLine_distinct_names_witness :
    ({ Plan.ofList 0 0 [("step1", alwaysTrue Unit 0), ("step2", alwaysTrue Unit 0)] with
        counters := fun _ => { count := 1, cumulativeTime := 0 } } : Plan Unit).buildLine.1 =
      joinTabs
        (({ Plan.ofList 0 0 [("step1", alwaysTrue Unit 0), ("step2", alwaysTrue Unit 0)] with
            counters := fun _ => { count := 1, cumulativeTime := 0 } } : Plan Unit).ops.map
          (fun op => segment op.name
            (dstats.DurationObserver.Reset { count := 1, cumulativeTime := 0 }).1)) :=
  Plan.buildLine_distinct_names
    { Plan.ofList 0 0 [("step1", alwaysTrue Unit 0), ("step2", alwaysTrue Unit 0)] with
      counters := fun _ => { count := 1, cumulativeTime := 0 } }
    (by decide) (by decide)
    (fun op h => by
      have h1 : some (⟨0, 0, "step1", alwaysTrue Unit 0⟩ : operation Unit) = some op := h
      have hop := Option.some.inj h1
      subst hop
      exact ⟨'s', "tep1".data, rfl, by decide⟩)

/-- The status line expected by `TestPlan_StatusTicker`. -/
theorem Plan.buildLine_status_ticker :
    ({ Plan.ofList 0 0 [("step1", alwaysTrue Unit 0), ("step2", alwaysTrue Unit 0)] with
        counters := fun _ => { count := 1, cumulativeTime := 0 } } : Plan Unit).buildLine.1 =
      "step1 1op/s avg.0ms\tstep2 1op/s avg.0ms" := by
  decide

end plan

end Mpjbt

namespace Mpjbt

/-! ## dstats: `WriteCSV` -/

namespace stats

/-- The sum of the counts after the increment of a bucket of the list. -/
theorem sum_incrBucket (i : Nat) (bs : List HistogramBucket) (hi : i < bs.length) :
    ((incrBucket i bs).map (fun b => b.Count)).sum = (bs.map (fun b => b.Count)).sum + 1 := by
  induction bs generalizing i with
  | nil => simp at hi
  | cons b bs ih =>
    cases i with
    | zero => simp [incrBucket]; omega
    | succ j =>
      simp only [List.length_cons, Nat.add_lt_add_iff_right] at hi
      simp only [incrBucket, List.map_cons, List.sum_cons, ih j hi]
      omega

/-- The sum of the counts of two bucket lists of one length, merged. -/
theorem sum_mergeBuckets (bs cs : List HistogramBucket) (hlen : bs.length = cs.length) :
    ((mergeBuckets bs cs).map (fun b => b.Count)).sum =
      (bs.map (fun b => b.Count)).sum + (cs.map (fun b => b.Count)).sum := by
  induction bs generalizing cs with
  | nil => cases cs with
    | nil => simp [mergeBuckets]
    | cons c cs => simp at hlen
  | cons b bs ih =>
    cases cs with
    | nil => simp at hlen
    | cons c cs =>
      simp only [List.length_cons, Nat.add_right_cancel_iff] at hlen
      simp only [mergeBuckets, List.map_cons, List.sum_cons, ih cs hlen]
      omega

/-- The total of a histogram with at least one bucket stays the sum of its
bucket counts when a value is added. -/
theorem Add_sum_counts (h : Histogram) (v : Int) (hne : h.Buckets ≠ [])
    (hsum : (h.Buckets.map (fun b => b.Count)).sum = h.Count) :
    (h.Add v).Buckets ≠ [] ∧
      ((h.Add v).Buckets.map (fun b => b.Count)).sum = (h.Add v).Count := by
  have hi : h.findBucket v < h.Buckets.length := by
    unfold Histogram.findBucket
    have h1 := (List.takeWhile_prefix (l := h.Buckets.tail)
      (fun b : HistogramBucket => decide (b.LowBound ≤ (v : ℚ)))).length_le
    have h2 : h.Buckets.tail.length + 1 = h.Buckets.length := by
      cases hb : h.Buckets with
      | nil => exact absurd hb hne
      | cons b bs => simp
    omega
  constructor
  · intro hnil
    have := sum_incrBucket (h.findBucket v) h.Buckets hi
    simp only [Histogram.Add] at hnil
    rw [hnil] at this
    simp at this
  · simp only [Histogram.Add]
    rw [sum_incrBucket _ _ hi, hsum]

/-- The total of a new histogram with at least one bucket, fed any values,
is the sum of its bucket counts. -/
theorem addAll_sum_counts (opts : HistogramOptions) (hn : 0 < opts.NumBuckets)
    (vs : List Int) :
    ((NewHistogram opts).addAll vs).Buckets ≠ [] ∧
      (((NewHistogram opts).addAll vs).Buckets.map (fun b => b.Count)).sum =
        ((NewHistogram opts).addAll vs).Count := by
  have hgen : ∀ (vs : List Int) (h : Histogram), h.Buckets ≠ [] →
      (h.Buckets.map (fun b => b.Count)).sum = h.Count →
      (h.addAll vs).Buckets ≠ [] ∧
        ((h.addAll vs).Buckets.map (fun b => b.Count)).sum = (h.addAll vs).Count := by
    intro vs
    induction vs with
    | nil => intro h h1 h2; exact ⟨h1, h2⟩
    | cons v vs ih =>
      intro h h1 h2
      have := Add_sum_counts h v h1 h2
      exact ih (h.Add v) this.1 this.2
  apply hgen
  · simp only [NewHistogram]
    intro hnil
    have := congrArg List.length hnil
    simp at this
    omega
  · simp [NewHistogram, Function.comp_def]

end stats

/-! ### `float64` rounding -/

namespace dstats

/-- No digit for zero. -/
theorem bitLength_zero (fuel : Nat) : bitLength fuel 0 = 0 := by
  cases fuel <;> simp [bitLength]

/-- The binary digits of a positive number: `2 ^ (b - 1) <= n < 2 ^ b`. -/
theorem bitLength_spec (fuel : Nat) :
    ∀ n : Nat, n ≠ 0 → n ≤ fuel →
      2 ^ bitLength fuel n ≤ 2 * n ∧ n < 2 ^ bitLength fuel n := by
  induction fuel with
  | zero => intro n hn hf; omega
  | succ fuel ih =>
    intro n hn hf
    simp only [bitLength, hn, if_false]
    by_cases h2 : n / 2 = 0
    · rw [h2, bitLength_zero]
      have : n = 1 := by omega
      subst this
      simp
    · obtain ⟨h3, h4⟩ := ih (n / 2) h2 (by omega)
      rw [pow_succ]
      constructor <;> omega

/-- The rounding to the nearest natural number is within one half. -/
theorem roundHalfEven_spec (n d : Nat) (hd : 0 < d) :
    2 * (roundHalfEven n d * d) ≤ 2 * n + d ∧ 2 * n ≤ 2 * (roundHalfEven n d * d) + d := by
  have hdiv := Nat.div_add_mod n d
  have hmod := Nat.mod_lt n hd
  have hmul : d * (n / d) = n / d * d := Nat.mul_comm _ _
  unfold roundHalfEven
  simp only
  split
  · constructor <;> omega
  · split
    · rw [Nat.add_mul]
      constructor <;> omega
    · split
      · constructor <;> omega
      · rw [Nat.add_mul]
        constructor <;> omega

/-- A power of two with an integer exponent, from its two natural parts. -/
theorem two_zpow_split (k : Int) :
    ((2 : ℚ) ^ k.toNat) / (2 ^ (-k).toNat) = (2 : ℚ) ^ k := by
  rcases le_or_lt 0 k with hk | hk
  · have h1 : (-k).toNat = 0 := by omega
    rw [h1, pow_zero, div_one]
    conv_rhs => rw [← Int.toNat_of_nonneg hk]
    rw [zpow_natCast]
  · have h1 : k.toNat = 0 := by omega
    rw [h1, pow_zero]
    have h2 : k = -((-k).toNat : Int) := by omega
    conv_rhs => rw [h2]
    rw [zpow_neg, zpow_natCast, one_div]

/-- The binary exponent that `roundPos` computes for `n / d`: the `e` with
`2 ^ e <= n / d < 2 ^ (e + 1)`. -/
theorem binaryExponent_spec (n d : Nat) (hn : 0 < n) (hd : 0 < d) :
    (2 : ℚ) ^ (if d * 2 ^ ((bitLength n n : Int) - (bitLength d d : Int)).toNat ≤
          n * 2 ^ (-((bitLength n n : Int) - (bitLength d d : Int))).toNat
        then (bitLength n n : Int) - (bitLength d d : Int)
        else (bitLength n n : Int) - (bitLength d d : Int) - 1) ≤ (n : ℚ) / d ∧
      (n : ℚ) / d <
        (2 : ℚ) ^ ((if d * 2 ^ ((bitLength n n : Int) - (bitLength d d : Int)).toNat ≤
            n * 2 ^ (-((bitLength n n : Int) - (bitLength d d : Int))).toNat
          then (bitLength n n : Int) - (bitLength d d : Int)
          else (bitLength n n : Int) - (bitLength d d : Int) - 1) + 1) := by
  obtain ⟨hn1, hn2⟩ := bitLength_spec n n (by omega) (le_refl _)
  obtain ⟨hd1, hd2⟩ := bitLength_spec d d (by omega) (le_refl _)
  generalize bitLength n n = bn at hn1 hn2 ⊢
  generalize bitLength d d = bd at hd1 hd2 ⊢
  have hnq : (0 : ℚ) < n := by exact_mod_cast hn
  have hdq : (0 : ℚ) < d := by exact_mod_cast hd
  have hn1q : (2 : ℚ) ^ bn ≤ 2 * n := by exact_mod_cast hn1
  have hn2q : (n : ℚ) < 2 ^ bn := by exact_mod_cast hn2
  have hd1q : (2 : ℚ) ^ bd ≤ 2 * d := by exact_mod_cast hd1
  have hd2q : (d : ℚ) < 2 ^ bd := by exact_mod_cast hd2
  have hpn : (0 : ℚ) < 2 ^ bn := by positivity
  have hpd : (0 : ℚ) < 2 ^ bd := by positivity
  have he0 : (2 : ℚ) ^ ((bn : Int) - (bd : Int)) = 2 ^ bn / 2 ^ bd := by
    rw [zpow_sub₀ (by norm_num), zpow_natCast, zpow_natCast]
  -- the two outer bounds
  have hup : (n : ℚ) / d < 2 ^ ((bn : Int) - (bd : Int) + 1) := by
    rw [zpow_add₀ (by norm_num), he0, zpow_one, div_lt_iff₀ hdq]
    have : (2 : ℚ) ^ bn / 2 ^ bd * 2 * d = 2 ^ bn * (2 * d / 2 ^ bd) := by
      field_simp
      ring
    rw [this]
    have h1 : (1 : ℚ) ≤ 2 * d / 2 ^ bd := by
      rw [le_div_iff₀ hpd]; linarith
    nlinarith
  have hlow : (2 : ℚ) ^ ((bn : Int) - (bd : Int) - 1) ≤ (n : ℚ) / d := by
    rw [zpow_sub₀ (by norm_num), he0, zpow_one, le_div_iff₀ hdq]
    have : (2 : ℚ) ^ bn / 2 ^ bd / 2 * d = 2 ^ bn / 2 * (d / 2 ^ bd) := by
      field_simp
      ring
    rw [this]
    have h1 : (d : ℚ) / 2 ^ bd ≤ 1 := by
      rw [div_le_iff₀ hpd]; linarith
    have h2 : (0 : ℚ) ≤ d / 2 ^ bd := by positivity
    nlinarith
  have htest : (d * 2 ^ ((bn : Int) - (bd : Int)).toNat ≤
      n * 2 ^ (-((bn : Int) - (bd : Int))).toNat) ↔
      (2 : ℚ) ^ ((bn : Int) - (bd : Int)) ≤ (n : ℚ) / d := by
    rw [← two_zpow_split, div_le_div_iff₀ (by positivity) hdq]
    constructor
    · intro h
      have : ((d * 2 ^ ((bn : Int) - (bd : Int)).toNat : Nat) : ℚ) ≤
          ((n * 2 ^ (-((bn : Int) - (bd : Int))).toNat : Nat) : ℚ) := by exact_mod_cast h
      push_cast at this
      linarith
    · intro h
      have : ((d * 2 ^ ((bn : Int) - (bd : Int)).toNat : Nat) : ℚ) ≤
          ((n * 2 ^ (-((bn : Int) - (bd : Int))).toNat : Nat) : ℚ) := by
        push_cast
        linarith
      exact_mod_cast this
  by_cases ht : d * 2 ^ ((bn : Int) - (bd : Int)).toNat ≤
      n * 2 ^ (-((bn : Int) - (bd : Int))).toNat
  · rw [if_pos ht]
    exact ⟨htest.mp ht, hup⟩
  · rw [if_neg ht]
    refine ⟨hlow, ?_⟩
    have : ¬ ((2 : ℚ) ^ ((bn : Int) - (bd : Int)) ≤ (n : ℚ) / d) := fun h => ht (htest.mpr h)
    rw [sub_add_cancel]
    exact lt_of_not_le this

/-- The rounding of a positive rational in the normal range of `float64` is
finite and within the relative error `2 ^ -53`. -/
theorem Float64.roundPos_spec (n d : Nat) (hn : 0 < n) (hd : 0 < d)
    (hlo : (2 : ℚ) ^ (-1022 : Int) ≤ (n : ℚ) / d) (hhi : (n : ℚ) / d ≤ 2 ^ (1023 : Nat)) :
    ∃ v : ℚ, Float64.roundPos n d = .finite v ∧
      |v - (n : ℚ) / d| ≤ (n : ℚ) / d / 2 ^ (53 : Nat) := by
  obtain ⟨he1, he2⟩ := binaryExponent_spec n d hn hd
  unfold Float64.roundPos
  simp only
  generalize (if d * 2 ^ ((bitLength n n : Int) - (bitLength d d : Int)).toNat ≤
          n * 2 ^ (-((bitLength n n : Int) - (bitLength d d : Int))).toNat
        then (bitLength n n : Int) - (bitLength d d : Int)
        else (bitLength n n : Int) - (bitLength d d : Int) - 1) = e at he1 he2 ⊢
  have hnq : (0 : ℚ) < n := by exact_mod_cast hn
  have hdq : (0 : ℚ) < d := by exact_mod_cast hd
  have hq : (0 : ℚ) < (n : ℚ) / d := by positivity
  have hemin : -1022 ≤ e := by
    by_contra hcon
    have h1 : e + 1 ≤ -1022 := by omega
    have h2 : (2 : ℚ) ^ (e + 1) ≤ 2 ^ (-1022 : Int) :=
      zpow_le_zpow_right₀ (by norm_num) h1
    exact absurd (lt_of_lt_of_le he2 (le_trans h2 hlo)) (lt_irrefl _)
  rw [max_eq_left hemin]
  have hes : (2 : ℚ) ^ e = 2 ^ (e - 52) * 2 ^ (52 : Nat) := by
    have h52 : e = (e - 52) + ((52 : Nat) : Int) := by omega
    conv_lhs => rw [h52]
    rw [zpow_add₀ (by norm_num), zpow_natCast]
  generalize e - 52 = s at hes ⊢
  have hu := two_zpow_split s
  have hP : (0 : ℚ) < 2 ^ (-s).toNat := by positivity
  have hQ : (0 : ℚ) < 2 ^ s.toNat := by positivity
  have hupos : (0 : ℚ) < 2 ^ s := by positivity
  have hDpos : 0 < d * 2 ^ s.toNat := Nat.mul_pos hd (by positivity)
  obtain ⟨hm1, hm2⟩ := roundHalfEven_spec (n * 2 ^ (-s).toNat) (d * 2 ^ s.toNat) hDpos
  generalize roundHalfEven (n * 2 ^ (-s).toNat) (d * 2 ^ s.toNat) = m at hm1 hm2 ⊢
  have hm1q : 2 * ((m : ℚ) * (d * 2 ^ s.toNat)) ≤ 2 * (n * 2 ^ (-s).toNat) + d * 2 ^ s.toNat := by
    have := hm1
    have h : ((2 * (m * (d * 2 ^ s.toNat)) : Nat) : ℚ) ≤
        ((2 * (n * 2 ^ (-s).toNat) + d * 2 ^ s.toNat : Nat) : ℚ) := by exact_mod_cast this
    push_cast at h
    exact h
  have hm2q : 2 * ((n : ℚ) * 2 ^ (-s).toNat) ≤ 2 * ((m : ℚ) * (d * 2 ^ s.toNat)) + d * 2 ^ s.toNat := by
    have := hm2
    have h : ((2 * (n * 2 ^ (-s).toNat) : Nat) : ℚ) ≤
        ((2 * (m * (d * 2 ^ s.toNat)) + d * 2 ^ s.toNat : Nat) : ℚ) := by exact_mod_cast this
    push_cast at h
    exact h
  -- the value, and its distance to `n / d`
  have hv : (((m * 2 ^ s.toNat : Nat) : ℚ) / ((2 ^ (-s).toNat : Nat) : ℚ)) = m * 2 ^ s := by
    push_cast
    rw [← hu]
    field_simp
  have hQu : (2 : ℚ) ^ s.toNat = 2 ^ s * 2 ^ (-s).toNat := by
    rw [← hu]; field_simp
  have herr : |(m : ℚ) * 2 ^ s - (n : ℚ) / d| ≤ 2 ^ s / 2 := by
    rw [abs_le]
    rw [hQu] at hm1q hm2q
    constructor
    · rw [neg_le_sub_iff_le_add, div_le_iff₀ hdq]
      have h3 : (0 : ℚ) ≤ 2 * ((m : ℚ) * (d * (2 ^ s * 2 ^ (-s).toNat))) +
          d * (2 ^ s * 2 ^ (-s).toNat) - 2 * ((n : ℚ) * 2 ^ (-s).toNat) := by linarith
      have h4 : 2 * ((m : ℚ) * (d * (2 ^ s * 2 ^ (-s).toNat))) +
          d * (2 ^ s * 2 ^ (-s).toNat) - 2 * ((n : ℚ) * 2 ^ (-s).toNat) =
          2 * 2 ^ (-s).toNat * (((m : ℚ) * 2 ^ s + 2 ^ s / 2) * d - n) := by ring
      rw [h4] at h3
      have h5 : (0 : ℚ) ≤ ((m : ℚ) * 2 ^ s + 2 ^ s / 2) * d - n :=
        nonneg_of_mul_nonneg_right h3 (by positivity)
      linarith
    · rw [sub_le_iff_le_add, ← sub_le_iff_le_add', le_div_iff₀ hdq]
      have h3 : (0 : ℚ) ≤ 2 * ((n : ℚ) * 2 ^ (-s).toNat) + d * (2 ^ s * 2 ^ (-s).toNat) -
          2 * ((m : ℚ) * (d * (2 ^ s * 2 ^ (-s).toNat))) := by linarith
      have h4 : 2 * ((n : ℚ) * 2 ^ (-s).toNat) + d * (2 ^ s * 2 ^ (-s).toNat) -
          2 * ((m : ℚ) * (d * (2 ^ s * 2 ^ (-s).toNat))) =
          2 * 2 ^ (-s).toNat * (n - ((m : ℚ) * 2 ^ s - 2 ^ s / 2) * d) := by ring
      rw [h4] at h3
      have h5 : (0 : ℚ) ≤ n - ((m : ℚ) * 2 ^ s - 2 ^ s / 2) * d :=
        nonneg_of_mul_nonneg_right h3 (by positivity)
      linarith
  have hrel : (2 : ℚ) ^ s / 2 ≤ (n : ℚ) / d / 2 ^ (53 : Nat) := by
    rw [le_div_iff₀ (by positivity)]
    have : (2 : ℚ) ^ s / 2 * 2 ^ (53 : Nat) = 2 ^ s * 2 ^ (52 : Nat) := by
      rw [pow_succ]; ring
    rw [this, ← hes]
    exact he1
  have hfin : ¬ (2 ^ 1024 * 2 ^ (-s).toNat ≤ m * 2 ^ s.toNat) := by
    intro hcon
    have h1 : ((2 ^ 1024 * 2 ^ (-s).toNat : Nat) : ℚ) ≤ ((m * 2 ^ s.toNat : Nat) : ℚ) :=
      Nat.cast_le.mpr hcon
    simp only [Nat.cast_mul, Nat.cast_pow, Nat.cast_ofNat] at h1
    rw [hQu] at h1
    have h2 : (2 : ℚ) ^ 1024 ≤ m * 2 ^ s := by
      have h3 : (2 : ℚ) ^ 1024 * 2 ^ (-s).toNat ≤ (m * 2 ^ s) * 2 ^ (-s).toNat := by
        linarith
      exact le_of_mul_le_mul_right h3 hP
    have h4 := (abs_le.mp herr).2
    have h5 : (n : ℚ) / d / 2 ^ (53 : Nat) ≤ (n : ℚ) / d := by
      apply div_le_self hq.le
      norm_num
    have h6 : (2 : ℚ) ^ 1024 = 2 * 2 ^ (1023 : Nat) := by
      rw [show (1024 : Nat) = 1023 + 1 from rfl, pow_succ]
      ring
    rw [h6] at h2
    linarith
  rw [if_neg hfin]
  exact ⟨_, rfl, by rw [hv]; exact le_trans herr hrel⟩

/-- The rounding of a positive rational between `2 ^ -64` and `2 ^ 64` is
finite and within the relative error `2 ^ -53`. -/
theorem Float64.round_spec (q : ℚ) (hlo : (2 : ℚ) ^ (-64 : Int) ≤ q)
    (hhi : q ≤ 2 ^ (64 : Nat)) :
    ∃ v : ℚ, Float64.round q = .finite v ∧ |v - q| ≤ q / 2 ^ (53 : Nat) := by
  have hq : 0 < q := lt_of_lt_of_le (by positivity) hlo
  have hnum : 0 < q.num := Rat.num_pos.mpr hq
  have hcast : ((q.num.natAbs : Nat) : ℚ) / (q.den : ℚ) = q := by
    have h1 : ((q.num.natAbs : Nat) : ℚ) = ((q.num : Int) : ℚ) := by
      rw [← Int.cast_natCast, Int.natAbs_of_nonneg hnum.le]
    rw [h1]
    exact Rat.num_div_den q
  have h1 : (2 : ℚ) ^ (-1022 : Int) ≤ 2 ^ (-64 : Int) :=
    zpow_le_zpow_right₀ (by norm_num) (by norm_num)
  have h2 : (2 : ℚ) ^ (64 : Nat) ≤ 2 ^ (1023 : Nat) :=
    pow_le_pow_right₀ (by norm_num) (by norm_num)
  obtain ⟨v, hv, herr⟩ := Float64.roundPos_spec q.num.natAbs q.den
    (by omega) q.den_pos (by rw [hcast]; exact le_trans h1 hlo)
    (by rw [hcast]; exact le_trans hhi h2)
  rw [hcast] at herr
  refine ⟨v, ?_, herr⟩
  unfold Float64.round
  rw [if_neg hq.ne', if_pos hq]
  exact hv

/-- A finite value within one twentieth of 100 is written `100.0`. -/
theorem FormatFloat_near_hundred (y : ℚ) (h1 : 100 - 1 / 20 < y) (h2 : y < 100 + 1 / 20) :
    FormatFloat (.finite y) = "100.0" := by
  have hy : 0 < y := by linarith
  have hnum : 0 < y.num := Rat.num_pos.mpr hy
  have hden : (0 : ℚ) < y.den := by exact_mod_cast y.den_pos
  have hval : ((y.num.natAbs : Nat) : ℚ) / (y.den : ℚ) = y := by
    have h3 : ((y.num.natAbs : Nat) : ℚ) = ((y.num : Int) : ℚ) := by
      rw [← Int.cast_natCast, Int.natAbs_of_nonneg hnum.le]
    rw [h3]
    exact Rat.num_div_den y
  -- the bounds on the numerator, among the natural numbers
  have hlo : 1999 * y.den < 20 * y.num.natAbs := by
    have h3 : (1999 : ℚ) * y.den < 20 * (y.num.natAbs : Nat) := by
      have h4 : (1999 : ℚ) / 20 < ((y.num.natAbs : Nat) : ℚ) / (y.den : ℚ) := by
        rw [hval]; linarith
      rw [div_lt_div_iff₀ (by norm_num) hden] at h4
      linarith
    exact_mod_cast h3
  have hhi : 20 * y.num.natAbs < 2001 * y.den := by
    have h3 : (20 : ℚ) * (y.num.natAbs : Nat) < 2001 * y.den := by
      have h4 : ((y.num.natAbs : Nat) : ℚ) / (y.den : ℚ) < (2001 : ℚ) / 20 := by
        rw [hval]; linarith
      rw [div_lt_div_iff₀ hden (by norm_num)] at h4
      linarith
    exact_mod_cast h3
  obtain ⟨hm1, hm2⟩ := roundHalfEven_spec (10 * y.num.natAbs) y.den y.den_pos
  have hround : roundTenths y = 1000 := by
    unfold roundTenths
    generalize roundHalfEven (10 * y.num.natAbs) y.den = m at hm1 hm2 ⊢
    have hup : m * y.den < 1001 * y.den := by omega
    have hdown : 999 * y.den < m * y.den := by omega
    have h3 := Nat.lt_of_mul_lt_mul_right hup
    have h4 := Nat.lt_of_mul_lt_mul_right hdown
    omega
  unfold FormatFloat
  simp only [hround, not_lt.mpr hy.le, if_false]
  decide

/-- The percent that a total between 1 and `2 ^ 63` is of itself is written
`100.0`: the three roundings of `float64(C) * (100 / float64(C))` stay
within one twentieth of 100. -/
theorem percent_self (C : Nat) (hpos : 0 < C) (hlt : C < 2 ^ 63) :
    FormatFloat (percent C C) = "100.0" := by
  have hC1 : (1 : ℚ) ≤ C := by exact_mod_cast hpos
  have hC2 : (C : ℚ) ≤ 2 ^ (63 : Nat) := by exact_mod_cast hlt.le
  have h64 : (2 : ℚ) ^ (64 : Nat) = 2 * 2 ^ (63 : Nat) := by
    rw [show (64 : Nat) = 63 + 1 from rfl, pow_succ]; ring
  have hm64 : (2 : ℚ) ^ (-64 : Int) = 1 / 2 ^ (64 : Nat) := by
    rw [zpow_neg, one_div, zpow_ofNat]
  have hp64 : (0 : ℚ) < 2 ^ (64 : Nat) := by positivity
  have hp63 : (1 : ℚ) ≤ 2 ^ (63 : Nat) := one_le_pow₀ (by norm_num)
  have hm64le : (2 : ℚ) ^ (-64 : Int) ≤ 1 := by
    rw [hm64, div_le_iff₀ hp64]; linarith
  -- the conversion of the total
  obtain ⟨c, hc, hcerr⟩ := Float64.round_spec (C : ℚ) (le_trans hm64le hC1)
    (by rw [h64]; linarith)
  have hcK : (C : ℚ) / 2 ^ (53 : Nat) ≤ (C : ℚ) / 6000 := by
    apply div_le_div_of_nonneg_left (by linarith) (by norm_num)
    norm_num
  obtain ⟨hc1, hc2⟩ := abs_le.mp hcerr
  have hcpos : (1 : ℚ) / 2 ≤ c := by linarith
  have hcle : c ≤ 2 ^ (64 : Nat) := by rw [h64]; linarith
  have hc0 : (0 : ℚ) < c := by linarith
  -- the quotient
  have hqlo : (2 : ℚ) ^ (-64 : Int) ≤ 100 / c := by
    rw [hm64, div_le_div_iff₀ hp64 hc0]; linarith
  have hqhi : (100 : ℚ) / c ≤ 2 ^ (64 : Nat) := by
    rw [div_le_iff₀ hc0, h64]
    nlinarith
  obtain ⟨x, hx, hxerr⟩ := Float64.round_spec (100 / c) hqlo hqhi
  obtain ⟨hx1, hx2⟩ := abs_le.mp hxerr
  have hxK : (100 : ℚ) / c / 2 ^ (53 : Nat) ≤ 100 / c / 6000 := by
    apply div_le_div_of_nonneg_left (by positivity) (by norm_num)
    norm_num
  have hcx1 : 100 - 100 / 6000 ≤ c * x := by
    have h1 : (100 : ℚ) / c - 100 / c / 6000 ≤ x := by linarith
    have h2 : c * (100 / c - 100 / c / 6000) ≤ c * x :=
      mul_le_mul_of_nonneg_left h1 hc0.le
    have h3 : c * (100 / c - 100 / c / 6000) = 100 - 100 / 6000 := by
      field_simp
      ring
    linarith
  have hcx2 : c * x ≤ 100 + 100 / 6000 := by
    have h1 : x ≤ (100 : ℚ) / c + 100 / c / 6000 := by linarith
    have h2 : c * x ≤ c * (100 / c + 100 / c / 6000) :=
      mul_le_mul_of_nonneg_left h1 hc0.le
    have h3 : c * (100 / c + 100 / c / 6000) = 100 + 100 / 6000 := by
      field_simp
      ring
    linarith
  -- the product
  obtain ⟨y, hy, hyerr⟩ := Float64.round_spec (c * x) (by linarith) (by rw [h64]; linarith)
  obtain ⟨hy1, hy2⟩ := abs_le.mp hyerr
  have hyK : c * x / 2 ^ (53 : Nat) ≤ c * x / 6000 := by
    apply div_le_div_of_nonneg_left (by linarith) (by norm_num)
    norm_num
  have hfin : percent C C = .finite y := by
    unfold percent Float64.ofInt
    simp only [Int.cast_natCast, hc, Float64.div, hc0.ne', if_false, hx, Float64.mul, hy]
  rw [hfin]
  apply FormatFloat_near_hundred <;> linarith

/-! ### The rows of `WriteCSV` -/

/-- An `int64` computation whose exact result is in range keeps it. -/
theorem wrapInt64_of_range (i : Int) (h0 : 0 ≤ i) (hlt : i < 2 ^ 63) : wrapInt64 i = i := by
  unfold wrapInt64
  norm_num at hlt ⊢
  omega

/-- A partial sum of the bucket counts is at most their sum. -/
theorem sum_counts_append (pre bs : List stats.HistogramBucket) :
    ((pre ++ bs).map (fun b => b.Count)).sum =
      (pre.map (fun b => b.Count)).sum + (bs.map (fun b => b.Count)).sum := by
  simp

/-- The loop of `WriteCSV` writes, for the buckets from position `pre.length`
on, the rows of the report format, when the sum of the bucket counts is in
the range of `int64`. -/
theorem writeRows_spec (h : stats.Histogram)
    (hrange : (h.Buckets.map (fun b => b.Count)).sum < 2 ^ 63) :
    ∀ (bs pre : List stats.HistogramBucket), h.Buckets = pre ++ bs →
      writeRows ((Float64.finite 100).div (Float64.ofInt h.Count)) bs
          (((pre.map (fun b => b.Count)).sum : Nat) : Int) =
        (List.range bs.length).map (fun i => specRow h (pre.length + i)) := by
  intro bs
  induction bs with
  | nil => intro pre _; rfl
  | cons b rest ih =>
    intro pre hb
    have hb2 : h.Buckets = (pre ++ [b]) ++ rest := by simp [hb]
    have hacc : wrapInt64 ((((pre.map (fun b => b.Count)).sum : Nat) : Int) + (b.Count : Int)) =
        ((((pre ++ [b]).map (fun b => b.Count)).sum : Nat) : Int) := by
      rw [wrapInt64_of_range]
      · simp
      · positivity
      · have h1 := sum_counts_append (pre ++ [b]) rest
        rw [← hb2] at h1
        have h2 : ((pre ++ [b]).map (fun b => b.Count)).sum =
            (pre.map (fun b => b.Count)).sum + b.Count := by simp
        have h3 : (pre.map (fun b => b.Count)).sum + b.Count < 2 ^ 63 := by omega
        exact_mod_cast h3
    have hget : h.Buckets[pre.length]? = some b := by
      rw [hb, List.getElem?_append_right (le_refl _)]
      simp
    have hlen : h.Buckets.length = pre.length + 1 + rest.length := by
      rw [hb]; simp; omega
    have hrun : runningSum h pre.length = ((pre ++ [b]).map (fun b => b.Count)).sum := by
      unfold runningSum
      rw [hb2, List.take_append_of_le_length (by simp)]
      rw [List.take_of_length_le (by simp)]
    have hrest := ih (pre ++ [b]) hb2
    rw [List.length_cons, List.range_succ_eq_map, List.map_cons, List.map_map]
    unfold writeRows
    simp only [hacc]
    rw [hrest]
    refine congrArg₂ List.cons ?_ ?_
    · -- the row of bucket `pre.length`
      have hlow : lowAt h (pre.length + 0) = lowBoundOf b := by
        simp [lowAt, hget]
      have hcnt : countAt h (pre.length + 0) = b.Count := by
        simp [countAt, hget]
      have hnat : FormatInt (b.Count : Int) = toString b.Count := rfl
      have hpa : runningSum h (pre.length + 0) =
          ((pre ++ [b]).map (fun b => b.Count)).sum := by
        rw [Nat.add_zero]; exact hrun
      simp only [specRow, percent, hlow, hcnt, hnat, hpa]
      clear ih hrest hacc hrun hpa
      cases rest with
      | nil =>
        have hn : ¬ (pre.length + 0 + 1 < h.Buckets.length) := by rw [hlen]; simp
        simp only [hn, if_false]
      | cons next rest2 =>
        have hget2 : h.Buckets[pre.length + 0 + 1]? = some next := by
          rw [hb2, List.getElem?_append_right (by simp)]
          simp
        have hy : pre.length + 0 + 1 < h.Buckets.length := by rw [hlen]; simp
        simp only [hy, if_true, lowAt, hget2, Option.map_some', Option.getD_some]
    · apply List.map_congr_left
      intro i _
      exact congrArg (specRow h) (by simp; omega)

/-- The rows that `WriteCSV` writes for the bounds and counts listed in the
text expected by `TestHistogram_WriteCSV` (50 buckets whose bounds grow by
0.1 from 1, holding 107 values) are the rows of that text. The histogram is
given by its buckets: the library that fills it in the test is not part of
the sources. -/
theorem Histogram.WriteCSV_expected_rows :
    ({ hist :=
        { Count := 107
          Buckets := (List.range 50).zipWith
            (fun i c =>
              { LowBound := stats.lowBound
                  { NumBuckets := 50, GrowthFactor := 1 / 10, BaseBucketSize := 1 } i
                Count := c })
            [1, 1, 0, 0, 0, 0, 0, 0, 1, 0, 0, 0, 1, 0, 0, 1, 0, 1, 0, 1, 0, 1, 1, 0, 1, 1, 1, 2,
             1, 1, 2, 2, 2, 2, 2, 3, 2, 4, 3, 4, 4, 4, 5, 6, 6, 6, 8, 8, 9, 9]
          opts := { NumBuckets := 50, GrowthFactor := 1 / 10, BaseBucketSize := 1 } }
       count := 0
       children := { id := 0, queue := [], closed := false }
       once := false
       closed := false } : Histogram).WriteCSV =
      "LowerBound,UpperBound,Count,Percent,AccumulativePercent\n" ++
      "0.0,1.0,1,0.9,0.9\n" ++
      "1.0,1.1,1,0.9,1.9\n" ++
      "1.1,1.2,0,0.0,1.9\n" ++
      "1.2,1.3,0,0.0,1.9\n" ++
      "1.3,1.5,0,0.0,1.9\n" ++
      "1.5,1.6,0,0.0,1.9\n" ++
      "1.6,1.8,0,0.0,1.9\n" ++
      "1.8,1.9,0,0.0,1.9\n" ++
      "1.9,2.1,1,0.9,2.8\n" ++
      "2.1,2.4,0,0.0,2.8\n" ++
      "2.4,2.6,0,0.0,2.8\n" ++
      "2.6,2.9,0,0.0,2.8\n" ++
      "2.9,3.1,1,0.9,3.7\n" ++
      "3.1,3.5,0,0.0,3.7\n" ++
      "3.5,3.8,0,0.0,3.7\n" ++
      "3.8,4.2,1,0.9,4.7\n" ++
      "4.2,4.6,0,0.0,4.7\n" ++
      "4.6,5.1,1,0.9,5.6\n" ++
      "5.1,5.6,0,0.0,5.6\n" ++
      "5.6,6.1,1,0.9,6.5\n" ++
      "6.1,6.7,0,0.0,6.5\n" ++
      "6.7,7.4,1,0.9,7.5\n" ++
      "7.4,8.1,1,0.9,8.4\n" ++
      "8.1,9.0,0,0.0,8.4\n" ++
      "9.0,9.8,1,0.9,9.3\n" ++
      "9.8,10.8,1,0.9,10.3\n" ++
      "10.8,11.9,1,0.9,11.2\n" ++
      "11.9,13.1,2,1.9,13.1\n" ++
      "13.1,14.4,1,0.9,14.0\n" ++
      "14.4,15.9,1,0.9,15.0\n" ++
      "15.9,17.4,2,1.9,16.8\n" ++
      "17.4,19.2,2,1.9,18.7\n" ++
      "19.2,21.1,2,1.9,20.6\n" ++
      "21.1,23.2,2,1.9,22.4\n" ++
      "23.2,25.5,2,1.9,24.3\n" ++
      "25.5,28.1,3,2.8,27.1\n" ++
      "28.1,30.9,2,1.9,29.0\n" ++
      "30.9,34.0,4,3.7,32.7\n" ++
      "34.0,37.4,3,2.8,35.5\n" ++
      "37.4,41.1,4,3.7,39.3\n" ++
      "41.1,45.3,4,3.7,43.0\n" ++
      "45.3,49.8,4,3.7,46.7\n" ++
      "49.8,54.8,5,4.7,51.4\n" ++
      "54.8,60.2,6,5.6,57.0\n" ++
      "60.2,66.3,6,5.6,62.6\n" ++
      "66.3,72.9,6,5.6,68.2\n" ++
      "72.9,80.2,8,7.5,75.7\n" ++
      "80.2,88.2,8,7.5,83.2\n" ++
      "88.2,97.0,9,8.4,91.6\n" ++
      "97.0,inf,9,8.4,100.0\n" := by
  decide!

/-- The rounding of `float64` arithmetic shows in the text: for a histogram
of two buckets with the counts 1 and 1999, the percent of the first row is
the `float64` product `1 * (100 / 2000)`, which is above one twentieth, and
is written `0.1`, where the exact quotient 0.05 would be written `0.0`. -/
theorem Histogram.WriteCSV_rounding :
    ({ hist :=
        { Count := 2000
          Buckets := [{ LowBound := 0, Count := 1 }, { LowBound := 1, Count := 1999 }]
          opts := { NumBuckets := 2, GrowthFactor := 1 / 10, BaseBucketSize := 1 } }
       count := 0
       children := { id := 0, queue := [], closed := false }
       once := false
       closed := false } : Histogram).WriteCSV =
      "LowerBound,UpperBound,Count,Percent,AccumulativePercent\n" ++
      "0.0,1.0,1,0.1,0.1\n" ++
      "1.0,inf,1999,100.0,100.0\n" := by
  decide!

/-- C21, the claim as stated fails: a histogram of two buckets that has
counted nothing is written with `NaN` in both percent columns of every row,
the last row included, where the claim has 100 percent. -/
theorem Histogram.WriteCSV_empty :
    (NewHistogram { NumBuckets := 2, GrowthFactor := 1 / 10, BaseBucketSize := 1 } 0).WriteCSV =
      "LowerBound,UpperBound,Count,Percent,AccumulativePercent\n" ++
      "0.0,1.0,0,NaN,NaN\n" ++
      "1.0,inf,0,NaN,NaN\n" := by
  decide!

/-- C21 (amended): for every histogram whose total is not zero and is the
sum of its bucket counts (so that it has at least one bucket), in the range
of `int64`, `WriteCSV` writes the header record and then exactly one record
per bucket, in bucket order, which is the row of the report format: the
lower bound, the upper bound, the count, the percent of the total and the
cumulative percent, computed in `float64` arithmetic from the running sum of
the counts. The upper bound of a row is the lower bound of the next row, and
`inf` on the last row, where the running sum is the total and the cumulative
percent reads `100.0`. -/
theorem Histogram.WriteCSV_rows (h : Histogram)
    (hsum : (h.hist.Buckets.map (fun b => b.Count)).sum = h.hist.Count)
    (hpos : 0 < h.hist.Count) (hrange : h.hist.Count < 2 ^ 63) :
    h.WriteCSV =
        String.join ((csvHeader ::
          (List.range h.hist.Buckets.length).map (specRow h.hist)).map csvWrite) ∧
      ((List.range h.hist.Buckets.length).map (specRow h.hist)).length =
        h.hist.Buckets.length ∧
      1 ≤ h.hist.Buckets.length ∧
      (∀ i, i + 1 < h.hist.Buckets.length →
        (specRow h.hist i)[1]? = (specRow h.hist (i + 1))[0]?) ∧
      (specRow h.hist (h.hist.Buckets.length - 1))[1]? = some "inf" ∧
      (∀ i, i < h.hist.Buckets.length →
        (specRow h.hist i)[2]? = some (toString (countAt h.hist i)) ∧
        (specRow h.hist i)[4]? =
          some (FormatFloat (percent (runningSum h.hist i) h.hist.Count))) ∧
      runningSum h.hist (h.hist.Buckets.length - 1) = h.hist.Count ∧
      (specRow h.hist (h.hist.Buckets.length - 1))[4]? = some "100.0" := by
  have hne : 1 ≤ h.hist.Buckets.length := by
    cases hb : h.hist.Buckets with
    | nil => rw [hb] at hsum; simp at hsum; omega
    | cons b bs => simp
  have hlast : runningSum h.hist (h.hist.Buckets.length - 1) = h.hist.Count := by
    unfold runningSum
    rw [List.take_of_length_le (by omega), hsum]
  refine ⟨?_, by simp, hne, ?_, ?_, ?_, hlast, ?_⟩
  · have hloop := writeRows_spec h.hist (by rw [hsum]; exact hrange) h.hist.Buckets []
      (by simp)
    simp only [List.map_nil, List.sum_nil, Nat.cast_zero, List.length_nil, Nat.zero_add]
      at hloop
    simp only [Histogram.WriteCSV, hloop]
  · intro i hi
    simp [specRow, hi]
  · have hn : ¬ (h.hist.Buckets.length - 1 + 1 < h.hist.Buckets.length) := by omega
    simp [specRow, hn]
  · intro i _
    simp [specRow]
  · have h100 := percent_self h.hist.Count hpos hrange
    simp [specRow, hlast, h100]

/-- The rows of a histogram of three buckets (growth 0.1 from a first bound
of 1) that was fed the values 0 and 5. -/
theorem Histogram.WriteCSV_rows_witness :
    (({ hist := (stats.NewHistogram
            { NumBuckets := 3, GrowthFactor := 1 / 10, BaseBucketSize := 1 }).addAll [0, 5]
        count := 0
        children := { id := 0, queue := [], closed := false }
        once := false
        closed := false } : Histogram).WriteCSV =
      "LowerBound,UpperBound,Count,Percent,AccumulativePercent\n" ++
      "0.0,1.0,1,50.0,50.0\n" ++
      "1.0,1.1,0,0.0,50.0\n" ++
      "1.1,inf,1,50.0,100.0\n") ∧
    (specRow ((stats.NewHistogram
        { NumBuckets := 3, GrowthFactor := 1 / 10, BaseBucketSize := 1 }).addAll [0, 5])
      (((stats.NewHistogram
        { NumBuckets := 3, GrowthFactor := 1 / 10, BaseBucketSize := 1 }).addAll
          [0, 5]).Buckets.length - 1))[4]? = some "100.0" :=
  ⟨by decide!,
   (Histogram.WriteCSV_rows
      { hist := (stats.NewHistogram
          { NumBuckets := 3, GrowthFactor := 1 / 10, BaseBucketSize := 1 }).addAll [0, 5]
        count := 0
        children := { id := 0, queue := [], closed := false }
        once := false
        closed := false }
      (stats.addAll_sum_counts _ (by decide) _).2 (by decide!) (by decide!)).2.2.2.2.2.2.2⟩

end dstats

end Mpjbt

namespace Mpjbt

namespace plan

/-! ### One worker under a ceiling -/

/-- One event of a run of one worker keeps the invariant, a step of the
worker counting as one step of progress. -/
theorem SingleInv.step_single {W : Type} {ops : List (operation W)} {M k : Nat}
    {s : RunState W} (h : SingleInv ops M k s) (hM : 0 < M) (hlt : M + 1 < uint64Size)
    (hne : 0 < ops.length)
    (htrue : ∀ (i : Nat) (op : operation W), ops[i]? = some op →
      ∀ w x, (op.doFunc w x).1.measure = true)
    (e : Event) (he : e ≠ .stop) :
    SingleInv ops M (k + if e = .work 0 then 1 else 0) (plan.step s e) := by
  cases e with
  | stop => exact absurd rfl he
  | tick =>
    unfold plan.step
    simp only [reduceCtorEq, if_false, Nat.add_zero]
    split
    · exact h
    · exact ⟨h.ops_eq, h.opsMax_eq, h.numWorkers_eq, h.stopped, h.running, h.calls_ok,
        h.length_eq, h.index, h.progress⟩
  | work w =>
    unfold plan.step
    simp only
    by_cases hwn : w < s.numWorkers
    case neg =>
      have hw0 : w ≠ 0 := by
        intro h0; rw [h0, h.numWorkers_eq] at hwn; omega
      have hev : ¬ (Event.work w = Event.work 0) := by simp [hw0]
      simp only [hwn, hev, if_false, Nat.add_zero]
      exact h
    case pos =>
      have hw0 : w = 0 := by rw [h.numWorkers_eq] at hwn; omega
      subst hw0
      simp only [hwn, if_true]
      unfold Worker.step
      simp only
      cases hpc : (s.workers 0).pc with
      | done =>
        simp only
        exact ⟨h.ops_eq, h.opsMax_eq, h.numWorkers_eq, h.stopped, h.running, h.calls_ok,
          h.length_eq, h.index, Or.inl hpc⟩
      | start =>
        have hnd : (s.workers 0).pc ≠ .done := by rw [hpc]; simp
        have hr := h.running hnd
        have hl := h.length_eq
        have hp := h.progress.resolve_left hnd
        rw [hpc] at hl hp
        norm_num [PC.offset] at hl hp
        refine ⟨h.ops_eq, h.opsMax_eq, h.numWorkers_eq, ?_, ?_, h.calls_ok, ?_, ?_, ?_⟩
        · intro hd; simp at hd
        · intro _; exact hr
        · simpa [PC.offset] using hl
        · intro i hi; simp at hi
        · right; simp [PC.offset]; omega
      | top =>
        have hnd : (s.workers 0).pc ≠ .done := by rw [hpc]; simp
        have hr := h.running hnd
        have hl := h.length_eq
        have hp := h.progress.resolve_left hnd
        rw [hpc] at hl hp
        norm_num [PC.offset] at hl hp
        have hlen : 0 < s.plan.ops.length := by rw [h.ops_eq]; exact hne
        simp only [RunState.setPC, hr.1, Bool.false_eq_true, if_false, hlen, if_true]
        refine ⟨h.ops_eq, h.opsMax_eq, h.numWorkers_eq, ?_, ?_, h.calls_ok, ?_, ?_, ?_⟩
        · intro hd; simp at hd
        · intro _; exact hr
        · simpa [PC.offset] using hl
        · intro i hi
          simp at hi
          omega
        · right; simp [PC.offset]; omega
      | check i =>
        have hnd : (s.workers 0).pc ≠ .done := by rw [hpc]; simp
        have hr := h.running hnd
        have hl := h.length_eq
        have hp := h.progress.resolve_left hnd
        rw [hpc] at hl hp
        norm_num [PC.offset] at hl hp
        simp only [RunState.setPC, hr.1, Bool.false_eq_true, if_false]
        have hnx : nextPC s.plan.ops.length i ≠ .done := by
          unfold nextPC; split <;> simp
        have hoff : (nextPC s.plan.ops.length i).offset = 1 ∨
            (nextPC s.plan.ops.length i).offset = 2 := by
          unfold nextPC; split <;> simp [PC.offset]
        refine ⟨h.ops_eq, h.opsMax_eq, h.numWorkers_eq, ?_, ?_, h.calls_ok, ?_, ?_, ?_⟩
        · intro hd; simp at hd; exact absurd hd hnx
        · intro _; exact hr
        · simp only [Function.update_same]
          rcases hoff with ho | ho <;> simp [ho] <;> simpa using hl
        · intro j hj
          simp only [Function.update_same] at hj
          unfold nextPC at hj
          split at hj
          · simp at hj; rw [← h.ops_eq]; omega
          · cases hj
        · right
          simp only [Function.update_same]
          rcases hoff with ho | ho <;> rw [ho] <;> omega
      | call i =>
        have hnd : (s.workers 0).pc ≠ .done := by rw [hpc]; simp
        have hr := h.running hnd
        have hl := h.length_eq
        have hp := h.progress.resolve_left hnd
        rw [hpc] at hl hp
        norm_num [PC.offset] at hl hp
        have hi := h.index i hpc
        have hi2 : i < s.plan.ops.length := by rw [h.ops_eq]; exact hi
        simp only
        rw [List.getElem?_eq_getElem hi2]
        simp only
        have hm : ((s.plan.ops[i]).doFunc 0 s.world).1.measure = true :=
          htrue i _ (by rw [← h.ops_eq]; exact List.getElem?_eq_getElem hi2) 0 s.world
        simp only [hm, Bool.true_eq_false, if_false]
        refine ⟨h.ops_eq, h.opsMax_eq, h.numWorkers_eq, ?_, ?_, ?_, ?_, ?_, ?_⟩
        · intro hd; simp at hd
        · intro _; exact hr
        · intro c hc
          simp only [List.mem_append, List.mem_singleton] at hc
          rcases hc with hc | hc
          · exact h.calls_ok c hc
          · subst hc; exact ⟨rfl, rfl, hi⟩
        · simp [PC.offset]; omega
        · intro j hj; simp at hj
        · right; simp [PC.offset]; omega
      | count i =>
        have hnd : (s.workers 0).pc ≠ .done := by rw [hpc]; simp
        have hr := h.running hnd
        have hl := h.length_eq
        have hp := h.progress.resolve_left hnd
        rw [hpc] at hl hp
        norm_num [PC.offset] at hl hp
        have hM0 : ¬ (M = 0) := by omega
        have hmod : (s.plan.opsCount + 1) % uint64Size = s.plan.opsCount + 1 := by
          apply Nat.mod_eq_of_lt
          have := hr.2
          omega
        simp only [h.opsMax_eq, hM0, if_false, hmod]
        split
        case isTrue hc =>
          refine ⟨h.ops_eq, rfl, h.numWorkers_eq, ?_, ?_, h.calls_ok, ?_, ?_, ?_⟩
          · intro _
            refine ⟨rfl, ?_⟩
            have := hr.2
            simp only [Plan.Stop]
            omega
          · intro hd; simp at hd
          · simp [PC.offset, Plan.Stop]; omega
          · intro j hj; simp at hj
          · left; simp
        case isFalse hc =>
          refine ⟨h.ops_eq, rfl, h.numWorkers_eq, ?_, ?_, h.calls_ok, ?_, ?_, ?_⟩
          · intro hd; simp at hd
          · intro _
            refine ⟨hr.1, ?_⟩
            simp only
            omega
          · simp [PC.offset]; omega
          · intro j hj; simp at hj
          · right; simp [PC.offset]; omega

/-- Every state of a run of one worker in which `Stop` is not called from
outside satisfies the invariant, with the steps of the worker counted. -/
theorem SingleInv.exec_single {W : Type} {ops : List (operation W)} {M : Nat}
    (hM : 0 < M) (hlt : M + 1 < uint64Size) (hne : 0 < ops.length)
    (htrue : ∀ (i : Nat) (op : operation W), ops[i]? = some op →
      ∀ w x, (op.doFunc w x).1.measure = true)
    (sched : List Event) (hstop : Event.stop ∉ sched) :
    ∀ (s : RunState W) (k : Nat), SingleInv ops M k s →
      SingleInv ops M (k + sched.count (.work 0)) (plan.exec sched s) := by
  induction sched with
  | nil => intro s k h; simpa using h
  | cons e sched ih =>
    intro s k h
    simp only [List.mem_cons, not_or] at hstop
    have h1 := h.step_single hM hlt hne htrue e (fun e' => hstop.1 e'.symm)
    have h2 := ih hstop.2 _ _ h1
    have hk : k + (if e = .work 0 then 1 else 0) + sched.count (.work 0) =
        k + (e :: sched).count (.work 0) := by
      rw [List.count_cons]
      by_cases hew : e = .work 0
      · subst hew; simp; omega
      · have hbeq : (e == Event.work 0) = false := by simpa using hew
        simp [hew, hbeq]
    rw [hk] at h2
    exact h2

/-- The successes of a list of calls, summed over the names of the list,
are the calls, when every call succeeded on an entry of the list. -/
theorem sum_successes_names {W : Type} (ops : List (operation W)) (calls : List Call)
    (hok : ∀ c ∈ calls, c.measure = true ∧ c.op < ops.length) :
    Finset.sum (ops.map (fun op => op.name)).toFinset (fun nm => successes ops nm calls) =
      calls.length := by
  induction calls with
  | nil => simp [successes]
  | cons c cs ih =>
    have hc := hok c (List.mem_cons_self _ _)
    have hi : c.op < ops.length := hc.2
    have hname : nameAt ops c.op = some (ops[c.op]).name := by
      simp [nameAt, List.getElem?_eq_getElem hi]
    have hmem : (ops[c.op]).name ∈ (ops.map (fun op => op.name)).toFinset := by
      simp only [List.mem_toFinset, List.mem_map]
      exact ⟨_, List.getElem_mem hi, rfl⟩
    have hstep : ∀ nm, successes ops nm (c :: cs) =
        successes ops nm cs + if (ops[c.op]).name = nm then 1 else 0 := by
      intro nm
      unfold successes
      rw [List.countP_cons]
      simp [hc.1, hname]
    simp only [hstep, Finset.sum_add_distrib]
    rw [ih (fun c' hc' => hok c' (List.mem_cons_of_mem _ hc'))]
    rw [Finset.sum_ite_eq, if_pos hmem]
    simp

/-- The state in which the one worker has just been started satisfies the
invariant. -/
theorem SingleInv.init_single {W : Type} (opsMax paddingSize : Nat)
    (defs : List (String × DoFunc W)) (world : W) :
    SingleInv (Plan.ofList opsMax paddingSize defs).ops opsMax 0
      (RunState.init (Plan.ofList opsMax paddingSize defs) 1 world) := by
  obtain ⟨-, -, -, -, hclosed, hcount, hmax⟩ := Plan.ofList_spec opsMax paddingSize defs
  refine ⟨rfl, hmax, rfl, ?_, ?_, ?_, ?_, ?_, ?_⟩
  · intro hd; simp [RunState.init] at hd
  · intro _; simp only [RunState.init]; exact ⟨hclosed, by rw [hcount]; omega⟩
  · intro c hc; simp [RunState.init] at hc
  · simp [RunState.init, PC.offset, hcount]
  · intro i hi; simp [RunState.init] at hi
  · right; simp

/-- Under the ceiling `2^64 - 1` no event other than a call of `Stop` from
outside sets the stop flag or lets a worker return: the incremented counter
is never above the ceiling. -/
theorem step_ceiling_max {W : Type} (s : RunState W) (e : Event) (he : e ≠ .stop)
    (hmax : s.plan.opsMax = uint64Size - 1) (hclosed : s.plan.closed = false)
    (hpc : ∀ w, (s.workers w).pc ≠ .done) :
    (plan.step s e).plan.opsMax = uint64Size - 1 ∧ (plan.step s e).plan.closed = false ∧
      (∀ w, ((plan.step s e).workers w).pc ≠ .done) ∧
      (plan.step s e).numWorkers = s.numWorkers := by
  have hupd : ∀ (wk : Worker) (w : Nat), wk.pc ≠ .done →
      ∀ v, (Function.update s.workers w wk v).pc ≠ .done := by
    intro wk w hwk v
    by_cases hv : v = w
    · subst hv; simpa using hwk
    · rw [Function.update_noteq hv]; exact hpc v
  have hnx : ∀ n i, nextPC n i ≠ .done := by
    intro n i; unfold nextPC; split <;> simp
  cases e with
  | stop => exact absurd rfl he
  | tick =>
    unfold plan.step
    simp only
    split
    · exact ⟨hmax, hclosed, hpc, rfl⟩
    · exact ⟨hmax, hclosed, hpc, rfl⟩
  | work w =>
    unfold plan.step
    simp only
    split
    case isFalse => exact ⟨hmax, hclosed, hpc, rfl⟩
    case isTrue hwn =>
      unfold Worker.step
      simp only
      cases hw : (s.workers w).pc with
      | done => exact absurd hw (hpc w)
      | start => exact ⟨hmax, hclosed, hupd _ w (by simp), rfl⟩
      | top =>
        simp only [RunState.setPC]
        rw [if_neg (by rw [hclosed]; simp)]
        exact ⟨hmax, hclosed, hupd _ w (by simp only; split <;> simp), rfl⟩
      | check i =>
        simp only [RunState.setPC]
        rw [if_neg (by rw [hclosed]; simp)]
        exact ⟨hmax, hclosed, hupd _ w (hnx _ _), rfl⟩
      | call i =>
        simp only
        cases hop : s.plan.ops[i]? with
        | none => exact ⟨hmax, hclosed, hpc, rfl⟩
        | some op =>
          simp only
          split
          · exact ⟨hmax, hclosed, hupd _ w (hnx _ _), rfl⟩
          · exact ⟨hmax, hclosed, hupd _ w (by simp), rfl⟩
      | count i =>
        simp only [RunState.setPC]
        split
        · exact ⟨hmax, hclosed, hupd _ w (by simp), rfl⟩
        · have hle : ¬ ((s.plan.opsCount + 1) % uint64Size > s.plan.opsMax) := by
            rw [hmax]
            have := Nat.mod_lt (s.plan.opsCount + 1) idgen.uint64Size_pos
            omega
          rw [if_neg hle]
          exact ⟨hmax, hclosed, hupd _ w (by simp), rfl⟩

/-- Under the ceiling `2^64 - 1` no worker returns while `Stop` is not
called from outside. -/
theorem exec_ceiling_max {W : Type} (sched : List Event) (hstop : Event.stop ∉ sched) :
    ∀ s : RunState W, s.plan.opsMax = uint64Size - 1 → s.plan.closed = false →
      (∀ w, (s.workers w).pc ≠ .done) →
      (∀ w, ((plan.exec sched s).workers w).pc ≠ .done) ∧
        (plan.exec sched s).numWorkers = s.numWorkers := by
  induction sched with
  | nil => intro s _ _ hpc; exact ⟨hpc, rfl⟩
  | cons e sched ih =>
    intro s hmax hclosed hpc
    simp only [List.mem_cons, not_or] at hstop
    obtain ⟨h1, h2, h3, h4⟩ :=
      step_ceiling_max s e (fun e' => hstop.1 e'.symm) hmax hclosed hpc
    obtain ⟨h5, h6⟩ := ih hstop.2 _ h1 h2 h3
    exact ⟨h5, by rw [← h4]; exact h6⟩

/-- C23, the claim as stated fails at the largest ceiling: with the ceiling
`2^64 - 1` and one worker whose callback always succeeds, no schedule in
which `Stop` is not called from outside lets `Run` return. The incremented
counter is a `uint64`, which is never above `2^64 - 1`, so the worker never
stops, and does not stop after `2^64` operations. -/
theorem Plan.Run_ceiling_max_never_returns :
    ¬ ∃ (sched : List Event) (arrival : Nat → List Nat), Event.stop ∉ sched ∧
      (Plan.Run (Plan.ofList (uint64Size - 1) 0 [("op", alwaysTrue Unit 0)]) 1 ()
        sched arrival).isSome = true := by
  rintro ⟨sched, arrival, hstop, hsome⟩
  have h := exec_ceiling_max sched hstop
    (RunState.init (Plan.ofList (uint64Size - 1) 0 [("op", alwaysTrue Unit 0)]) 1 ())
    rfl rfl (by intro w; simp [RunState.init])
  have hnot : (plan.exec sched
      (RunState.init (Plan.ofList (uint64Size - 1) 0 [("op", alwaysTrue Unit 0)]) 1 ())).allDone
        = false := by
    unfold RunState.allDone
    rw [h.2]
    have h0 := h.1 0
    simp only [RunState.init] at h0 ⊢
    simp [h0]
  have hclosed : (Plan.ofList (uint64Size - 1) 0 [("op", alwaysTrue Unit 0)]).closed = false :=
    rfl
  simp [Plan.Run, hclosed, hnot] at hsome

/-- C23 (amended): with a single worker, a ceiling `M` with
`0 < M < 2^64 - 1`, at least one operation and callbacks that always return
true, in a run in which `Stop` is not called from outside the worker stops,
at the latest after `4 * M + 4` of its steps, so that `Run` returns; and
whenever `Run` returns, the worker has invoked exactly `M + 1` operations,
each a success, and recorded them: the success counter is `M + 1`, and the
merged histograms of the names of the list hold `M + 1` values in total. -/
theorem Plan.Run_single_worker_count {W : Type} (opsMax paddingSize : Nat)
    (defs : List (String × DoFunc W)) (world : W) (sched : List Event)
    (arrival : Nat → List Nat)
    (hM : 0 < opsMax) (hlt : opsMax + 1 < uint64Size) (hne : defs ≠ [])
    (htrue : ∀ d ∈ defs, ∀ w x, (d.2 w x).1.measure = true)
    (hstop : Event.stop ∉ sched) (harr : ∀ i, (arrival i).Perm (List.range 1)) :
    (4 * opsMax + 4 ≤ sched.count (.work 0) →
      ∃ r, Plan.Run (Plan.ofList opsMax paddingSize defs) 1 world sched arrival = some r) ∧
    ∀ r, Plan.Run (Plan.ofList opsMax paddingSize defs) 1 world sched arrival = some r →
      r.calls.length = opsMax + 1 ∧
      (∀ c ∈ r.calls, c.worker = 0 ∧ c.measure = true ∧ c.op < defs.length) ∧
      r.plan.opsCount = opsMax + 1 ∧
      r.plan.closed = true ∧
      Finset.sum ((Plan.ofList opsMax paddingSize defs).ops.map (fun op => op.name)).toFinset
        (fun nm => (r.plan.histograms
          (firstIndex (Plan.ofList opsMax paddingSize defs).ops nm)).hist.Count) =
        opsMax + 1 := by
  obtain ⟨hlen, hops, -, -, hclosed, -, -⟩ := Plan.ofList_spec opsMax paddingSize defs
  have hne2 : 0 < (Plan.ofList opsMax paddingSize defs).ops.length := by
    rw [hlen]; exact List.length_pos.mpr hne
  have htrue2 : ∀ (i : Nat) (op : operation W),
      (Plan.ofList opsMax paddingSize defs).ops[i]? = some op →
      ∀ w x, (op.doFunc w x).1.measure = true := by
    intro i op hop w x
    rw [hops i] at hop
    cases hd : defs[i]? with
    | none => rw [hd] at hop; cases hop
    | some d =>
      rw [hd] at hop
      simp only [Option.map_some', Option.some.injEq] at hop
      subst hop
      exact htrue d (List.getElem?_mem hd) w x
  have hinv := SingleInv.exec_single hM hlt hne2 htrue2 sched hstop _ 0
    (SingleInv.init_single opsMax paddingSize defs world)
  have hdone_of : (plan.exec sched
      (RunState.init (Plan.ofList opsMax paddingSize defs) 1 world)).allDone = true →
      ((plan.exec sched
        (RunState.init (Plan.ofList opsMax paddingSize defs) 1 world)).workers 0).pc =
          .done := by
    intro hd
    unfold RunState.allDone at hd
    rw [hinv.numWorkers_eq] at hd
    simpa using hd
  constructor
  · intro hk
    have hpc : ((plan.exec sched
        (RunState.init (Plan.ofList opsMax paddingSize defs) 1 world)).workers 0).pc =
          .done := by
      rcases hinv.progress with hd | hp
      · exact hd
      · by_contra hnd
        have hr := hinv.running hnd
        have hoff : ∀ pc : PC, pc.offset ≤ 3 := by
          intro pc; cases pc <;> simp [PC.offset]
        have := hoff ((plan.exec sched
          (RunState.init (Plan.ofList opsMax paddingSize defs) 1 world)).workers 0).pc
        omega
    have hdone : (plan.exec sched
        (RunState.init (Plan.ofList opsMax paddingSize defs) 1 world)).allDone = true := by
      unfold RunState.allDone
      rw [hinv.numWorkers_eq]
      simp [hpc]
    obtain ⟨r, hr, -⟩ := Plan.Run_eq_some opsMax paddingSize defs 1 world sched arrival
      (by unfold uint64Size; norm_num) harr hdone
    exact ⟨r, hr⟩
  · intro r hrun
    have hdone : (plan.exec sched
        (RunState.init (Plan.ofList opsMax paddingSize defs) 1 world)).allDone = true := by
      by_contra hcon
      simp [Plan.Run, hclosed, hcon] at hrun
    obtain ⟨r2, hr2, -, hcalls, hcl, hcount⟩ :=
      Plan.Run_eq_some opsMax paddingSize defs 1 world sched arrival
        (by unfold uint64Size; norm_num) harr hdone
    rw [hrun] at hr2
    simp only [Option.some.injEq] at hr2
    subst hr2
    have hpc := hdone_of hdone
    have hst := hinv.stopped hpc
    have hl := hinv.length_eq
    rw [hpc] at hl
    simp only [PC.offset] at hl
    norm_num at hl
    have hcnt : r.plan.opsCount = (plan.exec sched
        (RunState.init (Plan.ofList opsMax paddingSize defs) 1 world)).plan.opsCount := by
      simp only [Plan.Run, hclosed, Bool.false_eq_true, if_false, hdone, if_true] at hrun
      split at hrun
      · cases hrun
      · simp only [Option.some.injEq] at hrun
        rw [← hrun]
        rfl
    have hok : ∀ c ∈ r.calls, c.worker = 0 ∧ c.measure = true ∧
        c.op < (Plan.ofList opsMax paddingSize defs).ops.length := by
      rw [hcalls]; exact hinv.calls_ok
    refine ⟨by rw [hcalls, hl, hst.2], ?_, by rw [hcnt, hst.2], hcl, ?_⟩
    · intro c hc
      have := hok c hc
      rw [hlen] at this
      exact this
    · have hsum := sum_successes_names (Plan.ofList opsMax paddingSize defs).ops r.calls
        (fun c hc => ⟨(hok c hc).2.1, (hok c hc).2.2⟩)
      rw [hcalls, hl, hst.2] at hsum
      rw [← hsum, ← hcalls]
      apply Finset.sum_congr rfl
      intro nm hnm
      simp only [List.mem_toFinset, List.mem_map] at hnm
      obtain ⟨op, hop, hname⟩ := hnm
      have hfi : firstIndex (Plan.ofList opsMax paddingSize defs).ops nm <
          (Plan.ofList opsMax paddingSize defs).ops.length := by
        unfold firstIndex
        apply List.findIdx_lt_length_of_exists
        exact ⟨op, hop, by simpa using hname⟩
      obtain ⟨op2, hop2, hname2⟩ := firstIndex_getElem? _ nm hfi
      have := hcount _ op2 hop2 (by rw [hname2])
      rw [this, hname2]

/-- One worker under the ceiling 1, over a callback that always succeeds:
`Run` returns after two operations. -/
theorem Plan.Run_single_worker_count_witness :
    (∃ r, Plan.Run (Plan.ofList 1 0 [("op", alwaysTrue Unit 0)]) 1 ()
        (List.replicate 8 (.work 0)) (fun _ => [0]) = some r) ∧
      ∀ r, Plan.Run (Plan.ofList 1 0 [("op", alwaysTrue Unit 0)]) 1 ()
          (List.replicate 8 (.work 0)) (fun _ => [0]) = some r →
        r.calls.length = 1 + 1 ∧ r.plan.opsCount = 1 + 1 :=
  ⟨(Plan.Run_single_worker_count 1 0 [("op", alwaysTrue Unit 0)] ()
      (List.replicate 8 (.work 0)) (fun _ => [0]) (by decide) (by decide) (by simp)
      (by intro d hd w x; simp at hd; subst hd; rfl) (by decide)
      (fun _ => List.Perm.refl _)).1 (by decide),
   fun r hr =>
    have h := (Plan.Run_single_worker_count 1 0 [("op", alwaysTrue Unit 0)] ()
      (List.replicate 8 (.work 0)) (fun _ => [0]) (by decide) (by decide) (by simp)
      (by intro d hd w x; simp at hd; subst hd; rfl) (by decide)
      (fun _ => List.Perm.refl _)).2 r hr
    ⟨h.1, h.2.2.1⟩⟩

end plan

end Mpjbt

namespace Mpjbt

/-! ## idgen: a `Persistent` among other generators of its source -/

namespace idgen

/-- While the hold counter is below the hold length, `GetExisting` calls
return the cached id whatever `GetNew` calls other generators make in
between: `n` calls with `usedCount + n <= keepFor`. -/
theorem Persistent.getExistingAmid_hold {S : Type} (g : Generator S) :
    ∀ (between : List (List Monotonic)) (p : Persistent S) (m : Mem),
      p.usedCount + between.length ≤ p.keepFor → p.usedCount < uint64Size →
      ∃ p2 m2, Persistent.getExistingAmid g between p m =
          .ok (List.replicate between.length p.last, p2, m2) ∧
        p2.last = p.last ∧ p2.keepFor = p.keepFor := by
  intro between
  induction between with
  | nil => intro p m _ _; exact ⟨p, m, rfl, rfl, rfl⟩
  | cons others rest ih =>
    intro p m hle hlt
    simp only [List.length_cons] at hle
    have hne : p.usedCount ≠ p.keepFor := by omega
    have hmod : (p.usedCount + 1) % uint64Size = p.usedCount + 1 ∨
        (p.usedCount + 1) % uint64Size = 0 := by
      rcases Nat.lt_or_ge (p.usedCount + 1) uint64Size with h1 | h1
      · left; exact Nat.mod_eq_of_lt h1
      · right
        have : p.usedCount + 1 = uint64Size := by omega
        rw [this]; exact Nat.mod_self _
    have hstep : Persistent.GetExisting g p (Monotonic.getNewCalls others m).2 =
        .ok (p.last, { p with usedCount := (p.usedCount + 1) % uint64Size },
          (Monotonic.getNewCalls others m).2) := by
      unfold Persistent.GetExisting
      rw [if_neg hne]
    obtain ⟨p2, m2, hrest, hlast, hkeep⟩ :=
      ih { p with usedCount := (p.usedCount + 1) % uint64Size }
        (Monotonic.getNewCalls others m).2
        (by simp only; rcases hmod with h1 | h1 <;> rw [h1] <;> omega)
        (Nat.mod_lt _ uint64Size_pos)
    refine ⟨p2, m2, ?_, hlast, hkeep⟩
    unfold Persistent.getExistingAmid
    rw [hstep]
    simp only
    rw [hrest]
    simp [List.replicate_succ]

end idgen

/-! ## The insert-update workload -/

namespace workload

open plan

/-- The last use of a worker after one more use is recorded. -/
theorem lastUse_append (w : Nat) (uses : List IdUse) (u : IdUse) :
    lastUse w (uses ++ [u]) = if u.worker = w then some u else lastUse w uses := by
  unfold lastUse
  rw [List.filter_append]
  by_cases h : u.worker = w
  · simp [h]
  · simp [h]

/-- One more recorded use keeps the record good, when it is an insert or
follows the insert of its id by the same worker. -/
theorem good_append (uses : List IdUse) (u : IdUse)
    (hgood : ∀ (pre : List IdUse) (v : IdUse) (post : List IdUse),
      uses = pre ++ v :: post → v.use = .update →
        lastUse v.worker pre = some { worker := v.worker, use := .insert, id := v.id })
    (hu : u.use = .update →
      lastUse u.worker uses = some { worker := u.worker, use := .insert, id := u.id }) :
    ∀ (pre : List IdUse) (v : IdUse) (post : List IdUse),
      uses ++ [u] = pre ++ v :: post → v.use = .update →
        lastUse v.worker pre = some { worker := v.worker, use := .insert, id := v.id } := by
  intro pre v post heq hv
  rcases List.eq_nil_or_concat post with hp | ⟨post2, x, hp⟩
  · subst hp
    have h1 : uses ++ [u] = pre ++ [v] := heq
    have h2 := List.append_inj' h1 rfl
    have h3 : u = v := by simpa using h2.2
    rw [← h2.1, ← h3]
    exact hu (by rw [h3]; exact hv)
  · subst hp
    have h1 : uses ++ [u] = (pre ++ v :: post2) ++ [x] := by
      rw [heq]; simp
    have h2 := List.append_inj' h1 rfl
    exact hgood pre v post2 h2.1 hv

/-- What `InsertRecord` leaves: a new id, recorded as the last use of the
worker and cached in its generator with the hold counter at zero. -/
theorem InsertRecord_world {B : Type} (db : Provider B) (w : Nat) (world : World B) :
    ∃ (id : Nat) (g : idgen.Persistent idgen.Monotonic) (m : Mem) (b : B),
      (InsertRecord db w world).2 =
        { mem := m, gens := Function.update world.gens w g, db := b,
          uses := world.uses ++ [{ worker := w, use := .insert, id := id }] } ∧
      g.last = id ∧ g.usedCount = 0 ∧ g.keepFor = (world.gens w).keepFor := by
  exact ⟨((world.gens w).source.GetNew world.mem).1,
    { world.gens w with
      source := (world.gens w).source
      last := ((world.gens w).source.GetNew world.mem).1
      usedCount := 0 },
    ((world.gens w).source.GetNew world.mem).2,
    (db.insert ((world.gens w).source.GetNew world.mem).1 world.db).2, rfl, rfl, rfl, rfl⟩

/-- What `UpdateRecord` leaves: the id it used is recorded as the last use
of the worker; it is the cached id when the hold counter is not at the hold
length. -/
theorem UpdateRecord_world {B : Type} (db : Provider B) (w : Nat) (world : World B) :
    ∃ (id : Nat) (g : idgen.Persistent idgen.Monotonic) (m : Mem) (b : B),
      (UpdateRecord db w world).2 =
        { mem := m, gens := Function.update world.gens w g, db := b,
          uses := world.uses ++ [{ worker := w, use := .update, id := id }] } ∧
      g.keepFor = (world.gens w).keepFor ∧
      ((world.gens w).usedCount ≠ (world.gens w).keepFor → id = (world.gens w).last) := by
  by_cases hk : (world.gens w).usedCount = (world.gens w).keepFor
  · refine ⟨(world.gens w).source.GetExisting world.mem,
      { world.gens w with
        usedCount := 0
        source := (world.gens w).source
        last := (world.gens w).source.GetExisting world.mem },
      world.mem,
      (db.update ((world.gens w).source.GetExisting world.mem) world.db).2,
      ?_, rfl, fun h => absurd hk h⟩
    unfold UpdateRecord idgen.Persistent.GetExisting idgen.Monotonic.generator
    simp only [hk, if_true]
  · refine ⟨(world.gens w).last,
      { world.gens w with usedCount := ((world.gens w).usedCount + 1) % uint64Size },
      world.mem, (db.update (world.gens w).last world.db).2, ?_, rfl, fun _ => rfl⟩
    unfold UpdateRecord idgen.Persistent.GetExisting
    simp only [hk, if_false]

/-- A step that leaves the world as it is keeps the invariant, when no
worker comes between its insert and its update by it. -/
theorem InsertUpdateInv.move_world {B : Type} {db : Provider B} {s s2 : RunState (World B)}
    (h : InsertUpdateInv db s) (hops : s2.plan.ops = s.plan.ops) (hworld : s2.world = s.world)
    (hpc : ∀ v, afterInsert (s2.workers v).pc = true → afterInsert (s.workers v).pc = true) :
    InsertUpdateInv db s2 := by
  refine ⟨by rw [hops]; exact h.ops_eq, ?_, ?_, ?_⟩
  · rw [hworld]; exact h.keep
  · rw [hworld]; exact h.good
  · intro v hv
    rw [hworld]
    exact h.fresh v (hpc v hv)

/-- The positions after worker `w` moved from `pc0` to that of `wk`. -/
theorem afterInsert_update (workers : Nat → Worker) (w : Nat) (wk : Worker)
    (hw : afterInsert wk.pc = true → afterInsert (workers w).pc = true) :
    ∀ v, afterInsert ((Function.update workers w wk) v).pc = true →
      afterInsert (workers v).pc = true := by
  intro v hv
  by_cases hvw : v = w
  · subst hvw
    rw [Function.update_same] at hv
    exact hw hv
  · rw [Function.update_noteq hvw] at hv
    exact hv

/-- A step in which worker `w` records the use `u` of an id keeps the
invariant, when an update uses the id of the worker's last use, an insert,
and a worker left between its insert and its update has just inserted. -/
theorem InsertUpdateInv.record {B : Type} {db : Provider B} {s s2 : RunState (World B)}
    (h : InsertUpdateInv db s) (w : Nat) (u : IdUse)
    (g : idgen.Persistent idgen.Monotonic) (m : Mem) (b : B)
    (hops : s2.plan.ops = s.plan.ops)
    (hworld : s2.world =
      { mem := m, gens := Function.update s.world.gens w g, db := b,
        uses := s.world.uses ++ [u] })
    (huw : u.worker = w) (hkeep : g.keepFor = 1)
    (hothers : ∀ v, v ≠ w → (s2.workers v).pc = (s.workers v).pc)
    (hu : u.use = .update →
      lastUse w s.world.uses = some { worker := w, use := .insert, id := u.id })
    (hfresh : afterInsert (s2.workers w).pc = true →
      u.use = .insert ∧ g.last = u.id ∧ g.usedCount = 0) :
    InsertUpdateInv db s2 := by
  refine ⟨by rw [hops]; exact h.ops_eq, ?_, ?_, ?_⟩
  · intro v
    rw [hworld]
    simp only
    by_cases hvw : v = w
    · subst hvw; rw [Function.update_same]; exact hkeep
    · rw [Function.update_noteq hvw]; exact h.keep v
  · rw [hworld]
    simp only
    apply good_append _ _ h.good
    intro hup
    rw [huw]
    exact hu hup
  · intro v hv
    rw [hworld]
    simp only
    rw [lastUse_append]
    by_cases hvw : v = w
    · subst hvw
      obtain ⟨h1, h2, h3⟩ := hfresh hv
      rw [Function.update_same, if_pos huw]
      refine ⟨?_, h3⟩
      cases u with
      | mk uw uu ui =>
        simp only at huw h1 h2
        subst huw
        subst h1
        rw [h2]
    · have hne : ¬ (u.worker = v) := by rw [huw]; exact fun hc => hvw hc.symm
      rw [Function.update_noteq hvw, if_neg hne]
      rw [hothers v hvw] at hv
      exact h.fresh v hv

/-- Every event of a run of the insert-update workload keeps the
invariant. -/
theorem InsertUpdateInv.step_workload {B : Type} {db : Provider B} {s : RunState (World B)}
    (h : InsertUpdateInv db s) (e : Event) : InsertUpdateInv db (plan.step s e) := by
  have hlen : s.plan.ops.length = 2 := by rw [h.ops_eq]; rfl
  cases e with
  | stop => exact h.move_world rfl rfl (fun _ hv => hv)
  | tick =>
    unfold plan.step
    simp only
    split
    · exact h
    · exact h.move_world rfl rfl (fun _ hv => hv)
  | work w =>
    unfold plan.step
    simp only
    by_cases hwn : w < s.numWorkers
    case neg => rw [if_neg hwn]; exact h
    case pos =>
      rw [if_pos hwn]
      unfold Worker.step
      simp only
      cases hpc : (s.workers w).pc with
      | done => exact h
      | start =>
        exact h.move_world rfl rfl (afterInsert_update _ w _ (by simp [afterInsert]))
      | top =>
        simp only [RunState.setPC]
        split
        · exact h.move_world rfl rfl (afterInsert_update _ w _ (by simp [afterInsert]))
        · refine h.move_world rfl rfl (afterInsert_update _ w _ ?_)
          simp only
          split <;> simp [afterInsert]
      | check i =>
        simp only [RunState.setPC]
        split
        · exact h.move_world rfl rfl (afterInsert_update _ w _ (by simp [afterInsert]))
        · refine h.move_world rfl rfl (afterInsert_update _ w _ ?_)
          simp only [hpc, hlen]
          unfold nextPC
          cases i with
          | zero => intro _; rfl
          | succ j =>
            have hj : ¬ (j + 1 + 1 < 2) := by omega
            simp [afterInsert, hj]
      | count i =>
        simp only [RunState.setPC]
        split
        · refine h.move_world rfl rfl (afterInsert_update _ w _ ?_)
          simp only [hpc]
          cases i with
          | zero => intro _; rfl
          | succ j => simp [afterInsert]
        · split
          · exact h.move_world rfl rfl (afterInsert_update _ w _ (by simp [afterInsert]))
          · refine h.move_world rfl rfl (afterInsert_update _ w _ ?_)
            simp only [hpc]
            cases i with
            | zero => intro _; rfl
            | succ j => simp [afterInsert]
      | call i =>
        simp only
        cases hop : s.plan.ops[i]? with
        | none => exact h
        | some op =>
          simp only
          rw [h.ops_eq] at hop
          match i, hop, hpc with
          | 0, hop, hpc =>
            simp only [List.getElem?_cons_zero, Option.some.injEq] at hop
            subst hop
            obtain ⟨id, g, m, b, hw, hlast, hused, hkeep⟩ := InsertRecord_world db w s.world
            split
            · exact h.record w { worker := w, use := .insert, id := id } g m b rfl hw rfl
                (by rw [hkeep]; exact h.keep w)
                (fun v hv => by simp only [Function.update_noteq hv])
                (fun hup => by cases hup) (fun _ => ⟨rfl, hlast, hused⟩)
            · exact h.record w { worker := w, use := .insert, id := id } g m b rfl hw rfl
                (by rw [hkeep]; exact h.keep w)
                (fun v hv => by simp only [Function.update_noteq hv])
                (fun hup => by cases hup) (fun _ => ⟨rfl, hlast, hused⟩)
          | 1, hop, hpc =>
            simp only [List.getElem?_cons_succ, List.getElem?_cons_zero,
              Option.some.injEq] at hop
            subst hop
            obtain ⟨id, g, m, b, hw, hkeep, hid⟩ := UpdateRecord_world db w s.world
            have hf := h.fresh w (by rw [hpc]; rfl)
            have hne : (s.world.gens w).usedCount ≠ (s.world.gens w).keepFor := by
              rw [hf.2, h.keep w]; decide
            have hid2 := hid hne
            split
            · refine h.record w { worker := w, use := .update, id := id } g m b rfl hw rfl
                (by rw [hkeep]; exact h.keep w)
                (fun v hv => by simp only [Function.update_noteq hv])
                (fun _ => by rw [hid2]; exact hf.1) ?_
              simp only [Function.update_same, hlen]
              intro hc
              simp [nextPC, afterInsert] at hc
            · refine h.record w { worker := w, use := .update, id := id } g m b rfl hw rfl
                (by rw [hkeep]; exact h.keep w)
                (fun v hv => by simp only [Function.update_noteq hv])
                (fun _ => by rw [hid2]; exact hf.1) ?_
              simp only [Function.update_same]
              intro hc
              simp [afterInsert] at hc
          | j + 2, hop, _ =>
            simp at hop

/-- Every state of a run of the insert-update workload satisfies the
invariant. -/
theorem InsertUpdateInv.exec_workload {B : Type} {db : Provider B} (sched : List Event) :
    ∀ s : RunState (World B), InsertUpdateInv db s → InsertUpdateInv db (plan.exec sched s) := by
  induction sched with
  | nil => intro s h; exact h
  | cons e sched ih => intro s h; exact ih _ (h.step_workload e)

/-- C22: for a `Persistent` with hold length `K` over a generator of a
`MonotonicSource`, in any state, `GetNew` returns an id and the `K` calls of
`GetExisting` that follow all return that id, whatever `GetNew` calls other
generators (among them those of the same source) make before each of them.
In the insert-update workload, whose source has hold length 1, under every
schedule of any number of workers and whatever the backend answers, every
`UpdateRecord` of a worker uses the id that the same worker obtained in its
last callback before it, which was an `InsertRecord`. -/
theorem held_id_isolated {B : Type} (src : idgen.MonotonicSource) (K c l : Nat) (m : Mem)
    (between : List (List idgen.Monotonic)) (db : Provider B) (max : Addr)
    (opsMax paddingSize workers : Nat) (world : World B) (sched : List Event)
    (hK : between.length = K)
    (hkeep : ∀ w, (world.gens w).keepFor = (insertUpdateSource max).KeepFor)
    (huses : world.uses = []) :
    (∃ id p1 m1,
      idgen.Persistent.GetNew idgen.Monotonic.generator
          { keepFor := K, source := src.New, usedCount := c, last := l } m =
        .ok (id, p1, m1) ∧
      ∃ p2 m2, idgen.Persistent.getExistingAmid idgen.Monotonic.generator between p1 m1 =
        .ok (List.replicate K id, p2, m2)) ∧
    ∀ (pre : List IdUse) (u : IdUse) (post : List IdUse),
      (plan.exec sched (RunState.init
        (setWorkloadInsertUpdate (plan.New (World B) opsMax paddingSize) db)
        workers world)).world.uses = pre ++ u :: post →
      u.use = .update →
        lastUse u.worker pre = some { worker := u.worker, use := .insert, id := u.id } := by
  constructor
  · refine ⟨(src.New.GetNew m).1,
      { keepFor := K, source := src.New, usedCount := 0, last := (src.New.GetNew m).1 },
      (src.New.GetNew m).2, rfl, ?_⟩
    obtain ⟨p2, m2, h, -, -⟩ := idgen.Persistent.getExistingAmid_hold
      idgen.Monotonic.generator between
      { keepFor := K, source := src.New, usedCount := 0, last := (src.New.GetNew m).1 }
      (src.New.GetNew m).2 (by simp [hK]) idgen.uint64Size_pos
    rw [hK] at h
    exact ⟨p2, m2, h⟩
  · have h0 : InsertUpdateInv db (RunState.init
        (setWorkloadInsertUpdate (plan.New (World B) opsMax paddingSize) db)
        workers world) := by
      refine ⟨rfl, hkeep, ?_, ?_⟩
      · intro pre u post hsplit _
        simp only [RunState.init] at hsplit
        rw [huses] at hsplit
        simp at hsplit
      · intro w hw
        simp [RunState.init, afterInsert] at hw
    exact (InsertUpdateInv.exec_workload sched _ h0).good

/-- A `Persistent` with hold length 2 among two interfering batches of
`GetNew` calls, and two workers of the insert-update workload taking turns:
the ids used are `insert 1` and `insert 2`, then `update 1` by the first
worker and `update 2` by the second. -/
theorem held_id_isolated_witness :
    ((∃ id p1 m1,
        idgen.Persistent.GetNew idgen.Monotonic.generator
            { keepFor := 2, source := (idgen.MonotonicSource.mk 0).New, usedCount := 5,
              last := 9 } (fun _ => 10) =
          .ok (id, p1, m1) ∧
        ∃ p2 m2, idgen.Persistent.getExistingAmid idgen.Monotonic.generator
            [[⟨0⟩], [⟨0⟩, ⟨0⟩]] p1 m1 =
          .ok (List.replicate 2 id, p2, m2)) ∧
      ∀ (pre : List IdUse) (u : IdUse) (post : List IdUse),
        (plan.exec
          [.work 0, .work 0, .work 0, .work 1, .work 1, .work 1,
           .work 0, .work 0, .work 0, .work 1, .work 1, .work 1]
          (RunState.init
            (setWorkloadInsertUpdate (plan.New (World Unit) 0 0)
              ⟨fun _ b => (⟨true, 0⟩, b), fun _ b => (⟨true, 0⟩, b)⟩)
            2 ⟨fun _ => 0, fun _ => ⟨1, ⟨0⟩, 0, 0⟩, (), []⟩)).world.uses = pre ++ u :: post →
        u.use = .update →
          lastUse u.worker pre = some { worker := u.worker, use := .insert, id := u.id }) ∧
    (plan.exec
        [.work 0, .work 0, .work 0, .work 1, .work 1, .work 1,
         .work 0, .work 0, .work 0, .work 1, .work 1, .work 1]
        (RunState.init
          (setWorkloadInsertUpdate (plan.New (World Unit) 0 0)
            ⟨fun _ b => (⟨true, 0⟩, b), fun _ b => (⟨true, 0⟩, b)⟩)
          2 ⟨fun _ => 0, fun _ => ⟨1, ⟨0⟩, 0, 0⟩, (), []⟩)).world.uses =
      [⟨0, .insert, 1⟩, ⟨1, .insert, 2⟩, ⟨0, .update, 1⟩, ⟨1, .update, 2⟩] :=
  ⟨held_id_isolated ⟨0⟩ 2 5 9 (fun _ => 10) [[⟨0⟩], [⟨0⟩, ⟨0⟩]]
      ⟨fun _ b => (⟨true, 0⟩, b), fun _ b => (⟨true, 0⟩, b)⟩ 0 0 0 2
      ⟨fun _ => 0, fun _ => ⟨1, ⟨0⟩, 0, 0⟩, (), []⟩
      [.work 0, .work 0, .work 0, .work 1, .work 1, .work 1,
       .work 0, .work 0, .work 0, .work 1, .work 1, .work 1]
      rfl (fun _ => rfl) rfl,
   by decide⟩

end workload

end Mpjbt
